import Mathlib

/-!
# Hanzi accumulative-offset generator (`tools/generate_accumulative_offsets.c`)

A shallow embedding of the byte scanner, the UTF-8 window decoder, the presence
table, the sorted code point list and the delta encoder of
`tools/generate_accumulative_offsets.c`, followed by theorems about them.

Modelling conventions.

* C arrays are total maps from an index to a value (`Nat → α`); a store is
  `arrSet`.  The contents an array has before the program writes to it (the
  stack array `buffer` is not initialised by the program) are a parameter.
* `unsigned char` values are naturals; the cast `(unsigned char)ch` is `% 256`.
* `int` values that may be negative (`unicode`, the differences) and the `int`
  counters `total_chars` and `detected_hanzi_count` are integers; indices and
  lengths, which stay small, are naturals.  An increment of a counter is followed
  by `wrapInt`, the reduction to a 32-bit two's-complement value: overflow of a
  signed `int` is undefined behaviour in C, and the model takes the wraparound,
  so that a counter is at all times a value an `int` can hold.
* `(short)diff` is the two's-complement narrowing `toShort`.
* `main` is modelled from the point where the input file is open.  Whether
  `malloc` and the `fopen` of the output file succeed is a parameter of `main`;
  the text written to the output file is not modelled, only the arrays it is
  printed from.
* `scanChecked`, `mainChecked` and the definitions they are built from repeat the
  program with every array access checked against the declared size of the
  array: they return `none` as soon as an index is out of range.
-/

namespace HanziOffsets

/-! ## Constants and the range test -/

/-- `#define HANZI_START 0x4E00`. -/
def HANZI_START : Int := 0x4E00

/-- `#define HANZI_END 0x9FFF`. -/
def HANZI_END : Int := 0x9FFF

/-- The number of elements in the declaration
`bool hanzi_present[HANZI_END - HANZI_START + 1]` (and in that of `hanzi_codes`). -/
def HANZI_TABLE_SIZE : Nat := (HANZI_END - HANZI_START + 1).toNat

/-- `bool is_hanzi(int unicode)`. -/
def is_hanzi (unicode : Int) : Bool :=
  decide (unicode ≥ HANZI_START ∧ unicode ≤ HANZI_END)

/-! ## The decoder -/

/-- `int utf8_to_unicode(unsigned char* bytes, int* byte_count)`.
The pointer is the map `bytes` (so `bytes k` is `bytes[k]`); the result is the
returned value paired with the final `*byte_count`. -/
def utf8_to_unicode (bytes : Nat → Nat) : Int × Nat :=
  if bytes 0 &&& 0x80 = 0 then
    (((bytes 0 : Nat) : Int), 1)
  else if bytes 0 &&& 0xE0 = 0xC0 then
    if bytes 1 &&& 0xC0 ≠ 0x80 then (-1, 0)
    else (((((bytes 0 &&& 0x1F) <<< 6) ||| (bytes 1 &&& 0x3F) : Nat) : Int), 2)
  else if bytes 0 &&& 0xF0 = 0xE0 then
    if bytes 1 &&& 0xC0 ≠ 0x80 ∨ bytes 2 &&& 0xC0 ≠ 0x80 then (-1, 0)
    else (((((bytes 0 &&& 0x0F) <<< 12) ||| ((bytes 1 &&& 0x3F) <<< 6)
            ||| (bytes 2 &&& 0x3F) : Nat) : Int), 3)
  else if bytes 0 &&& 0xF8 = 0xF0 then
    if bytes 1 &&& 0xC0 ≠ 0x80 ∨ bytes 2 &&& 0xC0 ≠ 0x80 ∨ bytes 3 &&& 0xC0 ≠ 0x80 then (-1, 0)
    else (((((bytes 0 &&& 0x07) <<< 18) ||| ((bytes 1 &&& 0x3F) <<< 12)
            ||| ((bytes 2 &&& 0x3F) <<< 6) ||| (bytes 3 &&& 0x3F) : Nat) : Int), 4)
  else (-1, 0)

/-! ## The scan loop of `main` -/

/-- The C store `a[i] = v` on an array seen as a map. -/
def arrSet {α : Type} (a : Nat → α) (i : Nat) (v : α) : Nat → α :=
  fun j => if j = i then v else a j

/-- The value of the C `int` that holds the result `x` of an arithmetic
operation: `x` reduced to the 32-bit two's-complement range. -/
def wrapInt (x : Int) : Int :=
  (x + 2147483648) % 4294967296 - 2147483648

/-- The locals of `main` that the scan loop reads and writes. -/
structure ScanState where
  /-- The array `unsigned char buffer[8]`. -/
  buffer : Nat → Nat
  /-- The local `int buffer_pos`. -/
  buffer_pos : Nat
  /-- The local `int total_chars`. -/
  total_chars : Int
  /-- The local `int detected_hanzi_count`. -/
  detected_hanzi_count : Int
  /-- The array `bool hanzi_present[HANZI_END - HANZI_START + 1]`. -/
  hanzi_present : Nat → Bool

/-- The locals before the first byte is read: `hanzi_present` is all `false`, the
counters and `buffer_pos` are `0`, and `buffer` holds whatever `buffer0` says. -/
def initState (buffer0 : Nat → Nat) : ScanState :=
  { buffer := buffer0, buffer_pos := 0, total_chars := 0,
    detected_hanzi_count := 0, hanzi_present := fun _ => false }

/-- The search part of `for (int len = 1; len <= buffer_pos && len <= 4; len++)`:
starting at `len`, the first length whose window `&buffer[buffer_pos - len]`
decodes with `byte_count == len`, together with the decoded `unicode`.  The
first argument bounds the number of iterations; the loop makes at most four. -/
def findWindow (buffer : Nat → Nat) (buffer_pos : Nat) : Nat → Nat → Option (Nat × Int)
  | 0, _ => none
  | fuel + 1, len =>
    if len ≤ buffer_pos ∧ len ≤ 4 then
      let r := utf8_to_unicode (fun k => buffer (buffer_pos - len + k))
      if r.2 = len then some (len, r.1)
      else findWindow buffer buffer_pos fuel (len + 1)
    else none

/-- The copy loop `for (int i = 0; i < buffer_pos; i++) buffer[i] = buffer[i + len];`. -/
def shiftBuffer (buffer : Nat → Nat) (len buffer_pos : Nat) : Nat → Nat :=
  (List.range buffer_pos).foldl (fun b i => arrSet b i (b (i + len))) buffer

/-- The body executed when a window of length `len` decoding to `unicode` is
accepted (the `if (byte_count == len)` block up to its `break`). -/
def acceptWindow (st : ScanState) (len : Nat) (unicode : Int) : ScanState :=
  let total_chars := wrapInt (st.total_chars + 1)
  let hanzi_present :=
    if is_hanzi unicode then arrSet st.hanzi_present (unicode - HANZI_START).toNat true
    else st.hanzi_present
  let detected_hanzi_count :=
    if is_hanzi unicode then wrapInt (st.detected_hanzi_count + 1)
    else st.detected_hanzi_count
  let buffer_pos := st.buffer_pos - len
  { buffer := shiftBuffer st.buffer len buffer_pos
    buffer_pos := buffer_pos
    total_chars := total_chars
    detected_hanzi_count := detected_hanzi_count
    hanzi_present := hanzi_present }

/-- The statement `buffer[buffer_pos++] = (unsigned char)ch;`. -/
def appendByte (st : ScanState) (ch : Nat) : ScanState :=
  { st with buffer := arrSet st.buffer st.buffer_pos (ch % 256)
            buffer_pos := st.buffer_pos + 1 }

/-- The `for` loop over the window lengths, `len` running from 1: the first
accepted window, if any, is consumed. -/
def tryWindows (st : ScanState) : ScanState :=
  match findWindow st.buffer st.buffer_pos 4 1 with
  | some (len, unicode) => acceptWindow st len unicode
  | none => st

/-- The statement `if (buffer_pos >= 4) buffer_pos = 0;`. -/
def resetIfFull (st : ScanState) : ScanState :=
  if st.buffer_pos ≥ 4 then { st with buffer_pos := 0 } else st

/-- One iteration of `while ((ch = fgetc(input_file)) != EOF)`. -/
def scanByte (st : ScanState) (ch : Nat) : ScanState :=
  resetIfFull (tryWindows (appendByte st ch))

/-- The whole `while` loop on the bytes `input` of the file. -/
def scan (st : ScanState) (input : List Nat) : ScanState :=
  input.foldl scanByte st

/-- The window accepted in the iteration that reads `ch` in state `st`, as its
length and its `unicode`; `none` when the `for` loop ends without accepting. -/
def acceptedAt (st : ScanState) (ch : Nat) : Option (Nat × Int) :=
  findWindow (appendByte st ch).buffer (appendByte st ch).buffer_pos 4 1

/-- The values of `unicode` of the windows accepted while `input` is scanned from
`st`, in the order in which they are accepted. -/
def acceptedValues (st : ScanState) : List Nat → List Int
  | [] => []
  | ch :: rest =>
    match acceptedAt st ch with
    | some (_, unicode) => unicode :: acceptedValues (scanByte st ch) rest
    | none => acceptedValues (scanByte st ch) rest

/-- The windows accepted while `input` is scanned from `st`, `n` bytes having been
read before: for each accept, the index in the stream of the first byte of the
window (the window ends at the byte just read), its length and its `unicode`. -/
def acceptedSpans (st : ScanState) (n : Nat) : List Nat → List (Nat × Nat × Int)
  | [] => []
  | ch :: rest =>
    match acceptedAt st ch with
    | some (len, unicode) =>
      (n + 1 - len, len, unicode) :: acceptedSpans (scanByte st ch) (n + 1) rest
    | none => acceptedSpans (scanByte st ch) (n + 1) rest

/-! ## The sorted code point list and the delta encoder -/

/-- The loop `for (int i = 0; i <= (HANZI_END - HANZI_START); i++)` that fills
`hanzi_codes`; the result lists `hanzi_codes[0 .. hanzi_count - 1]`, so its
length is `hanzi_count`. -/
def collectCodes (hanzi_present : Nat → Bool) : List Int :=
  (List.range ((HANZI_END - HANZI_START).toNat + 1)).foldl
    (fun hanzi_codes i =>
      if hanzi_present i then hanzi_codes ++ [HANZI_START + (i : Int)] else hanzi_codes)
    []

/-- The conversion `(short)diff` of an `int` to a 16-bit two's-complement value. -/
def toShort (diff : Int) : Int :=
  (diff + 32768) % 65536 - 32768

/-- The array `offsets` after `offsets[0] = 0;` and the loop
`for (int i = 1; i < hanzi_count; i++) offsets[i] = (short)diff;`, listed from
index `0`; each store goes to the index that follows the last one written. -/
def encodeOffsets (hanzi_codes : List Int) : List Int :=
  (List.range' 1 (hanzi_codes.length - 1)).foldl
    (fun offsets i =>
      let diff := hanzi_codes.getD i 0 - hanzi_codes.getD (i - 1) 0
      offsets ++ [toShort diff])
    [0]

/-- The loop `for (int i = 1; i < hanzi_count; i++)` seen from its warning branch:
the values of `diff` for which `diff > 32767 || diff < -32768` holds, that is,
those reported by the `printf` of the branch, in order. -/
def overflowWarnings (hanzi_codes : List Int) : List Int :=
  (List.range' 1 (hanzi_codes.length - 1)).foldl
    (fun warnings i =>
      let diff := hanzi_codes.getD i 0 - hanzi_codes.getD (i - 1) 0
      if diff > 32767 ∨ diff < -32768 then warnings ++ [diff] else warnings)
    []

/-- The four ways in which `main` returns once the input file is open. -/
inductive Outcome where
  /-- The return at `if (detected_hanzi_count == 0)`. -/
  | emptyResult
  /-- The return at `if (!offsets)`, after a failed `malloc`. -/
  | mallocFailed
  /-- The return at `if (!output_file)`, after a failed `fopen` of the output. -/
  | outputOpenFailed
  /-- The final `return 0`, after the output file is written. -/
  | success
  deriving DecidableEq

/-- What a run of `main` (after the input file is opened) leaves behind. -/
structure RunResult where
  /-- The value returned by `main`. -/
  exit_code : Nat
  /-- The `return` statement by which `main` ends. -/
  outcome : Outcome
  /-- The final `total_chars`. -/
  total_chars : Int
  /-- The final `detected_hanzi_count`. -/
  detected_hanzi_count : Int
  /-- The arrays `hanzi_codes` and `offsets` once both are built, `none` when
  `main` returns before building them. -/
  output : Option (List Int × List Int)
  deriving DecidableEq

/-- The function `main` from the point where the input file is open, on the bytes
`input` of that file; `malloc_ok` and `fopen_ok` say whether `malloc` and the
`fopen` of the output file succeed, and `buffer0` is the initial contents of
`buffer`. -/
def main (malloc_ok fopen_ok : Bool) (buffer0 : Nat → Nat) (input : List Nat) : RunResult :=
  let st := scan (initState buffer0) input
  if st.detected_hanzi_count = 0 then
    { exit_code := 1, outcome := Outcome.emptyResult, total_chars := st.total_chars,
      detected_hanzi_count := st.detected_hanzi_count, output := none }
  else
    let hanzi_codes := collectCodes st.hanzi_present
    if malloc_ok = false then
      { exit_code := 1, outcome := Outcome.mallocFailed, total_chars := st.total_chars,
        detected_hanzi_count := st.detected_hanzi_count, output := none }
    else
      let offsets := encodeOffsets hanzi_codes
      if fopen_ok = false then
        { exit_code := 1, outcome := Outcome.outputOpenFailed, total_chars := st.total_chars,
          detected_hanzi_count := st.detected_hanzi_count,
          output := some (hanzi_codes, offsets) }
      else
        { exit_code := 0, outcome := Outcome.success, total_chars := st.total_chars,
          detected_hanzi_count := st.detected_hanzi_count,
          output := some (hanzi_codes, offsets) }

/-- The reconstruction the consumer of the table performs: cumulative summation
of the deltas, starting at `start`. -/
def reconstruct (start : Int) : List Int → List Int
  | [] => []
  | d :: ds => (start + d) :: reconstruct (start + d) ds

/-! ## Notions used to state the properties -/

/-- The length a lead byte announces, by the mask tests of `utf8_to_unicode` in
their order; `0` for a byte that passes none of them. -/
def leadLen (b : Nat) : Nat :=
  if b &&& 0x80 = 0 then 1
  else if b &&& 0xE0 = 0xC0 then 2
  else if b &&& 0xF0 = 0xE0 then 3
  else if b &&& 0xF8 = 0xF0 then 4
  else 0

/-- The continuation test `(b & 0xC0) == 0x80` of `utf8_to_unicode`. -/
def isCont (b : Nat) : Prop := b &&& 0xC0 = 0x80

instance (b : Nat) : Decidable (isCont b) := by unfold isCont; infer_instance

/-- The bytes the decoder is pointed at for the window of length `len`: the map
`&buffer[buffer_pos - len]`. -/
def winBytes (buffer : Nat → Nat) (buffer_pos len : Nat) : Nat → Nat :=
  fun k => buffer (buffer_pos - len + k)

/-- The rolling buffer holds the last `buffer_pos` bytes read: `recent` lists
bytes read so far, the most recent first, and `buffer[buffer_pos - 1 - k]` is its
entry `k` for every `k < buffer_pos`. -/
def Holds (st : ScanState) (recent : List Nat) : Prop :=
  ∀ k, k < st.buffer_pos → recent[k]? = some (st.buffer (st.buffer_pos - 1 - k))

/-- The last `len` bytes of `recent` (most recent first) in reading order, as the
map the decoder is pointed at. -/
def recentBytes (recent : List Nat) (len : Nat) : Nat → Nat :=
  fun k => recent.getD (len - 1 - k) 0

/-- In the bytes read (`recent`, most recent first) a multi-byte character is
under way: entry `j` is a lead byte announcing `m` bytes and the `j` bytes read
after it are continuation bytes. -/
def Pending (recent : List Nat) (j m : Nat) : Prop :=
  leadLen (recent.getD j 0) = m ∧ ¬ isCont (recent.getD j 0) ∧
    ∀ k, k < j → isCont (recent.getD k 0) ∧ leadLen (recent.getD k 0) = 0

/-- In the bytes read (`recent`, most recent first) the window accepted last
occupies the entries `g .. g + lw - 1`: entry `g + lw - 1` is a lead byte announcing
`lw` bytes and the entries before it, down to `g`, are continuation bytes. -/
def Done (recent : List Nat) (g lw : Nat) : Prop :=
  leadLen (recent.getD (g + lw - 1) 0) = lw ∧ 1 ≤ lw ∧
    ∀ k, g ≤ k → k < g + lw - 1 → isCont (recent.getD k 0)

/-- The standard (shortest-form) UTF-8 encoding of a scalar value. -/
def utf8_encode (c : Nat) : List Nat :=
  if c < 0x80 then [c]
  else if c < 0x800 then [0xC0 + c / 64, 0x80 + c % 64]
  else if c < 0x10000 then [0xE0 + c / 4096, 0x80 + c / 64 % 64, 0x80 + c % 64]
  else [0xF0 + c / 262144, 0x80 + c / 4096 % 64, 0x80 + c / 64 % 64, 0x80 + c % 64]

/-- The concatenation of the standard UTF-8 encodings of the values of a list. -/
def utf8_encode_all : List Nat → List Nat
  | [] => []
  | c :: cs => utf8_encode c ++ utf8_encode_all cs

/-- The window `E4 B8 AD 00`. -/
def sampleWindow : Nat → Nat := fun k => [0xE4, 0xB8, 0xAD, 0x00].getD k 0

/-- The bytes of the text `中文AB中`. -/
def sampleInput : List Nat :=
  [0xE4, 0xB8, 0xAD, 0xE6, 0x96, 0x87, 0x41, 0x42, 0xE4, 0xB8, 0xAD]

/-- The overlong four-byte sequence `F0 84 B8 AD`, which assembles to `0x4E2D`. -/
def overlongInput : List Nat := [0xF0, 0x84, 0xB8, 0xAD]

/-- The four bytes `F0 9F 98 80`, the standard encoding of `0x1F600`. -/
def emojiInput : List Nat := [0xF0, 0x9F, 0x98, 0x80]

/-- The window `F4 90 80 80`. -/
def beyondWindow : Nat → Nat := fun k => [0xF4, 0x90, 0x80, 0x80].getD k 0

/-- The invalid byte `0x80` followed by the encoding `F0 9F 98 80` of `0x1F600`. -/
def lossyInput : List Nat := 0x80 :: utf8_encode_all [0x1F600]

/-! ## The program with every array access checked -/

/-- The number of elements in the declaration `unsigned char buffer[8]`. -/
def BUFFER_SIZE : Nat := 8

/-- The C read `a[i]` on an array declared with `size` elements: `none` when the
index is outside `0 .. size - 1`. -/
def readAt {α : Type} (size : Nat) (a : Nat → α) (i : Int) : Option α :=
  if 0 ≤ i ∧ i < (size : Int) then some (a i.toNat) else none

/-- The C store `a[i] = v` on an array declared with `size` elements: `none` when
the index is outside `0 .. size - 1`. -/
def writeAt {α : Type} (size : Nat) (a : Nat → α) (i : Int) (v : α) : Option (Nat → α) :=
  if 0 ≤ i ∧ i < (size : Int) then some (arrSet a i.toNat v) else none

/-- The call `utf8_to_unicode(&buffer[base], &byte_count)` with every read
`bytes[k]`, which is `buffer[base + k]`, checked.  The reads are made in the order
of the source: `bytes[0]` first, and `bytes[k + 1]` only in the branches that test
it and only when the tests on the bytes before it in the `||` chain are false. -/
def utf8_to_unicode_checked (buffer : Nat → Nat) (base : Int) : Option (Int × Nat) :=
  (readAt BUFFER_SIZE buffer base).bind fun b0 =>
  if b0 &&& 0x80 = 0 then
    some (((b0 : Nat) : Int), 1)
  else if b0 &&& 0xE0 = 0xC0 then
    (readAt BUFFER_SIZE buffer (base + 1)).bind fun b1 =>
    if b1 &&& 0xC0 ≠ 0x80 then some (-1, 0)
    else some (((((b0 &&& 0x1F) <<< 6) ||| (b1 &&& 0x3F) : Nat) : Int), 2)
  else if b0 &&& 0xF0 = 0xE0 then
    (readAt BUFFER_SIZE buffer (base + 1)).bind fun b1 =>
    if b1 &&& 0xC0 ≠ 0x80 then some (-1, 0)
    else
      (readAt BUFFER_SIZE buffer (base + 2)).bind fun b2 =>
      if b2 &&& 0xC0 ≠ 0x80 then some (-1, 0)
      else some (((((b0 &&& 0x0F) <<< 12) ||| ((b1 &&& 0x3F) <<< 6)
            ||| (b2 &&& 0x3F) : Nat) : Int), 3)
  else if b0 &&& 0xF8 = 0xF0 then
    (readAt BUFFER_SIZE buffer (base + 1)).bind fun b1 =>
    if b1 &&& 0xC0 ≠ 0x80 then some (-1, 0)
    else
      (readAt BUFFER_SIZE buffer (base + 2)).bind fun b2 =>
      if b2 &&& 0xC0 ≠ 0x80 then some (-1, 0)
      else
        (readAt BUFFER_SIZE buffer (base + 3)).bind fun b3 =>
        if b3 &&& 0xC0 ≠ 0x80 then some (-1, 0)
        else some (((((b0 &&& 0x07) <<< 18) ||| ((b1 &&& 0x3F) <<< 12)
            ||| ((b2 &&& 0x3F) <<< 6) ||| (b3 &&& 0x3F) : Nat) : Int), 4)
  else some (-1, 0)

/-- The search of `findWindow` with the decoder's reads checked; the window of
length `len` is `&buffer[buffer_pos - len]`, the index computed on integers.  The
outer `none` is an access out of range, the inner one a loop that ends without
accepting. -/
def findWindowChecked (buffer : Nat → Nat) (buffer_pos : Nat) :
    Nat → Nat → Option (Option (Nat × Int))
  | 0, _ => some none
  | fuel + 1, len =>
    if len ≤ buffer_pos ∧ len ≤ 4 then
      (utf8_to_unicode_checked buffer ((buffer_pos : Int) - (len : Int))).bind fun r =>
      if r.2 = len then some (some (len, r.1))
      else findWindowChecked buffer buffer_pos fuel (len + 1)
    else some none

/-- The copy loop `for (int i = 0; i < buffer_pos; i++) buffer[i] = buffer[i + len];`
with the read of `buffer[i + len]` and the store to `buffer[i]` checked. -/
def shiftBufferChecked (buffer : Nat → Nat) (len buffer_pos : Nat) : Option (Nat → Nat) :=
  (List.range buffer_pos).foldlM
    (fun b (i : Nat) =>
      (readAt BUFFER_SIZE b ((i : Int) + (len : Int))).bind fun v =>
      writeAt BUFFER_SIZE b (i : Int) v)
    buffer

/-- The body of `acceptWindow` with the store `hanzi_present[unicode - HANZI_START]
= true` and the copy loop checked. -/
def acceptWindowChecked (st : ScanState) (len : Nat) (unicode : Int) : Option ScanState :=
  let total_chars := wrapInt (st.total_chars + 1)
  (if is_hanzi unicode then
      writeAt HANZI_TABLE_SIZE st.hanzi_present (unicode - HANZI_START) true
    else some st.hanzi_present).bind fun hanzi_present =>
  let detected_hanzi_count :=
    if is_hanzi unicode then wrapInt (st.detected_hanzi_count + 1)
    else st.detected_hanzi_count
  let buffer_pos := st.buffer_pos - len
  (shiftBufferChecked st.buffer len buffer_pos).bind fun buffer =>
  some
    { buffer := buffer
      buffer_pos := buffer_pos
      total_chars := total_chars
      detected_hanzi_count := detected_hanzi_count
      hanzi_present := hanzi_present }

/-- The statement `buffer[buffer_pos++] = (unsigned char)ch;` with the store
checked. -/
def appendByteChecked (st : ScanState) (ch : Nat) : Option ScanState :=
  (writeAt BUFFER_SIZE st.buffer (st.buffer_pos : Int) (ch % 256)).bind fun buffer =>
  some { st with buffer := buffer
                 buffer_pos := st.buffer_pos + 1 }

/-- The `for` loop over the window lengths with every access checked. -/
def tryWindowsChecked (st : ScanState) : Option ScanState :=
  (findWindowChecked st.buffer st.buffer_pos 4 1).bind fun w =>
  match w with
  | some (len, unicode) => acceptWindowChecked st len unicode
  | none => some st

/-- One iteration of the `while` loop with every access checked. -/
def scanByteChecked (st : ScanState) (ch : Nat) : Option ScanState :=
  (appendByteChecked st ch).bind fun st1 =>
  (tryWindowsChecked st1).bind fun st2 =>
  some (resetIfFull st2)

/-- The whole `while` loop with every access checked. -/
def scanChecked (st : ScanState) (input : List Nat) : Option ScanState :=
  input.foldlM scanByteChecked st

/-- The loop that fills `hanzi_codes` with the read of `hanzi_present[i]` and the
store to `hanzi_codes[hanzi_count++]` checked; `hanzi_codes` is declared with as
many elements as `hanzi_present`, and `hanzi_count` is the length of the list. -/
def collectCodesChecked (hanzi_present : Nat → Bool) : Option (List Int) :=
  (List.range ((HANZI_END - HANZI_START).toNat + 1)).foldlM
    (fun hanzi_codes (i : Nat) =>
      (readAt HANZI_TABLE_SIZE hanzi_present (i : Int)).bind fun present =>
      if present then
        if hanzi_codes.length < HANZI_TABLE_SIZE then
          some (hanzi_codes ++ [HANZI_START + (i : Int)])
        else none
      else some hanzi_codes)
    []

/-- The encoder with every access checked: `offsets` has `hanzi_count` elements,
so the store `offsets[0] = 0` needs `0 < hanzi_count`; in the loop the reads of
`hanzi_codes[i]` and `hanzi_codes[i-1]` must fall on entries of the list and the
store to `offsets[i]` needs `i < hanzi_count`. -/
def encodeOffsetsChecked (hanzi_codes : List Int) : Option (List Int) :=
  if 0 < hanzi_codes.length then
    (List.range' 1 (hanzi_codes.length - 1)).foldlM
      (fun offsets i =>
        hanzi_codes[i]?.bind fun cur =>
        hanzi_codes[i - 1]?.bind fun prev =>
        let diff := cur - prev
        if i < hanzi_codes.length then some (offsets ++ [toShort diff]) else none)
      [0]
  else none

/-- The reads `offsets[i]`, `i < hanzi_count`, of the loop that prints the array,
checked; the result lists the values printed. -/
def printedOffsetsChecked (hanzi_count : Nat) (offsets : List Int) : Option (List Int) :=
  (List.range hanzi_count).foldlM
    (fun printed i => offsets[i]?.bind fun v => some (printed ++ [v]))
    []

/-- The function `main` with every array access checked, the reads
`hanzi_codes[0]` and `hanzi_codes[hanzi_count-1]` of the last `printf`
included. -/
def mainChecked (malloc_ok fopen_ok : Bool) (buffer0 : Nat → Nat) (input : List Nat) :
    Option RunResult :=
  (scanChecked (initState buffer0) input).bind fun st =>
  if st.detected_hanzi_count = 0 then
    some { exit_code := 1, outcome := Outcome.emptyResult, total_chars := st.total_chars,
           detected_hanzi_count := st.detected_hanzi_count, output := none }
  else
    (collectCodesChecked st.hanzi_present).bind fun hanzi_codes =>
    if malloc_ok = false then
      some { exit_code := 1, outcome := Outcome.mallocFailed, total_chars := st.total_chars,
             detected_hanzi_count := st.detected_hanzi_count, output := none }
    else
      (encodeOffsetsChecked hanzi_codes).bind fun offsets =>
      if fopen_ok = false then
        some { exit_code := 1, outcome := Outcome.outputOpenFailed,
               total_chars := st.total_chars,
               detected_hanzi_count := st.detected_hanzi_count,
               output := some (hanzi_codes, offsets) }
      else
        (printedOffsetsChecked hanzi_codes.length offsets).bind fun _ =>
        hanzi_codes[0]?.bind fun _ =>
        hanzi_codes[hanzi_codes.length - 1]?.bind fun _ =>
        some { exit_code := 0, outcome := Outcome.success, total_chars := st.total_chars,
               detected_hanzi_count := st.detected_hanzi_count,
               output := some (hanzi_codes, offsets) }

/-! ## Bytes and bit patterns -/

set_option maxRecDepth 100000 in
/-- For a byte, the mask tests of the decoder are tests on its leading bits. -/
theorem byte_masks : ∀ b < 256,
    ((b &&& 0x80 = 0) ↔ b / 128 = 0) ∧ ((b &&& 0xE0 = 0xC0) ↔ b / 32 = 6) ∧
    ((b &&& 0xF0 = 0xE0) ↔ b / 16 = 14) ∧ ((b &&& 0xF8 = 0xF0) ↔ b / 8 = 30) ∧
    ((b &&& 0xC0 = 0x80) ↔ b / 64 = 2) := by
  decide

/-- The byte count is `0` exactly when the returned value is the invalid signal. -/
theorem utf8_to_unicode_count_zero_iff (bytes : Nat → Nat) :
    (utf8_to_unicode bytes).2 = 0 ↔ (utf8_to_unicode bytes).1 = -1 := by
  unfold utf8_to_unicode
  split_ifs <;> simp

/-- C5: decoder contract.  For a window of four bytes `b0 b1 b2 b3` (the bytes
`bytes 0 .. bytes 3`), `utf8_to_unicode` returns `(b0, 1)` when `b0` is
`0xxxxxxx`; the two-byte assembly with count 2 when `b0` is `110xxxxx` and `b1` is
`10xxxxxx`; the three-byte assembly with count 3 when `b0` is `1110xxxx` and
`b1`, `b2` are `10xxxxxx`; the four-byte assembly with count 4 when `b0` is
`11110xxx` and `b1`, `b2`, `b3` are `10xxxxxx`; and `(-1, 0)` in every other case.
A result other than `-1` never comes with count 0 and the result `-1` never comes
with a non-zero count. -/
theorem utf8_to_unicode_contract (bytes : Nat → Nat)
    (h0 : bytes 0 < 256) (h1 : bytes 1 < 256) (h2 : bytes 2 < 256) (h3 : bytes 3 < 256) :
    (bytes 0 / 128 = 0 → utf8_to_unicode bytes = (((bytes 0 : Nat) : Int), 1)) ∧
    (bytes 0 / 32 = 6 → bytes 1 / 64 = 2 →
      utf8_to_unicode bytes
        = (((((bytes 0 &&& 0x1F) <<< 6) ||| (bytes 1 &&& 0x3F) : Nat) : Int), 2)) ∧
    (bytes 0 / 16 = 14 → bytes 1 / 64 = 2 → bytes 2 / 64 = 2 →
      utf8_to_unicode bytes
        = (((((bytes 0 &&& 0x0F) <<< 12) ||| ((bytes 1 &&& 0x3F) <<< 6)
              ||| (bytes 2 &&& 0x3F) : Nat) : Int), 3)) ∧
    (bytes 0 / 8 = 30 → bytes 1 / 64 = 2 → bytes 2 / 64 = 2 → bytes 3 / 64 = 2 →
      utf8_to_unicode bytes
        = (((((bytes 0 &&& 0x07) <<< 18) ||| ((bytes 1 &&& 0x3F) <<< 12)
              ||| ((bytes 2 &&& 0x3F) <<< 6) ||| (bytes 3 &&& 0x3F) : Nat) : Int), 4)) ∧
    (¬ (bytes 0 / 128 = 0) → ¬ (bytes 0 / 32 = 6 ∧ bytes 1 / 64 = 2) →
      ¬ (bytes 0 / 16 = 14 ∧ bytes 1 / 64 = 2 ∧ bytes 2 / 64 = 2) →
      ¬ (bytes 0 / 8 = 30 ∧ bytes 1 / 64 = 2 ∧ bytes 2 / 64 = 2 ∧ bytes 3 / 64 = 2) →
      utf8_to_unicode bytes = (-1, 0)) ∧
    ((utf8_to_unicode bytes).1 ≠ -1 → (utf8_to_unicode bytes).2 ≠ 0) ∧
    ((utf8_to_unicode bytes).1 = -1 → (utf8_to_unicode bytes).2 = 0) := by
  obtain ⟨a0, a1, a2, a3, -⟩ := byte_masks _ h0
  obtain ⟨-, -, -, -, c1⟩ := byte_masks _ h1
  obtain ⟨-, -, -, -, c2⟩ := byte_masks _ h2
  obtain ⟨-, -, -, -, c3⟩ := byte_masks _ h3
  refine ⟨?_, ?_, ?_, ?_, ?_, ?_, ?_⟩
  · intro h
    simp only [utf8_to_unicode, a0, h, if_true]
  · intro h g1
    have n0 : ¬ (bytes 0 / 128 = 0) := by omega
    simp only [utf8_to_unicode, a0, a1, c1, n0, h, g1, if_true, if_false, ne_eq,
      not_true_eq_false]
  · intro h g1 g2
    have n0 : ¬ (bytes 0 / 128 = 0) := by omega
    have n1 : ¬ (bytes 0 / 32 = 6) := by omega
    simp only [utf8_to_unicode, a0, a1, a2, c1, c2, n0, n1, h, g1, g2, if_true, if_false,
      ne_eq, not_true_eq_false, or_self]
  · intro h g1 g2 g3
    have n0 : ¬ (bytes 0 / 128 = 0) := by omega
    have n1 : ¬ (bytes 0 / 32 = 6) := by omega
    have n2 : ¬ (bytes 0 / 16 = 14) := by omega
    simp only [utf8_to_unicode, a0, a1, a2, a3, c1, c2, c3, n0, n1, n2, h, g1, g2, g3,
      if_true, if_false, ne_eq, not_true_eq_false, or_self]
  · intro n0 n1 n2 n3
    simp only [utf8_to_unicode, a0, a1, a2, a3, c1, c2, c3, ne_eq, if_neg n0]
    by_cases k1 : bytes 0 / 32 = 6
    · have g1 : ¬ bytes 1 / 64 = 2 := fun g => n1 ⟨k1, g⟩
      simp only [if_pos k1, g1, not_false_eq_true, if_true]
    · rw [if_neg k1]
      by_cases k2 : bytes 0 / 16 = 14
      · have g : ¬ (bytes 1 / 64 = 2 ∧ bytes 2 / 64 = 2) := fun g => n2 ⟨k2, g.1, g.2⟩
        rw [if_pos k2, if_pos (not_and_or.mp g)]
      · rw [if_neg k2]
        by_cases k3 : bytes 0 / 8 = 30
        · have g : ¬ (bytes 1 / 64 = 2 ∧ bytes 2 / 64 = 2 ∧ bytes 3 / 64 = 2) :=
            fun g => n3 ⟨k3, g.1, g.2.1, g.2.2⟩
          rw [if_pos k3, if_pos (Or.imp_right not_and_or.mp (not_and_or.mp g))]
        · rw [if_neg k3]
  · intro h g
    exact h ((utf8_to_unicode_count_zero_iff bytes).1 g)
  · intro h
    exact (utf8_to_unicode_count_zero_iff bytes).2 h

/-- C5 at the window `E4 B8 AD 00`: the three-byte case applies. -/
theorem utf8_to_unicode_contract_witness :
    utf8_to_unicode sampleWindow = (0x4E2D, 3) ∧ (utf8_to_unicode sampleWindow).2 ≠ 0 :=
  have b0 : sampleWindow 0 = 0xE4 := rfl
  have b1 : sampleWindow 1 = 0xB8 := rfl
  have b2 : sampleWindow 2 = 0xAD := rfl
  have b3 : sampleWindow 3 = 0x00 := rfl
  have h := utf8_to_unicode_contract sampleWindow (by rw [b0]; decide) (by rw [b1]; decide)
    (by rw [b2]; decide) (by rw [b3]; decide)
  have e : utf8_to_unicode sampleWindow = (0x4E2D, 3) := by
    rw [h.2.2.1 (by rw [b0]) (by rw [b1]) (by rw [b2]), b0, b1, b2]
    rfl
  ⟨e, by rw [e]; decide⟩

/-! ## The collector: what one iteration does to the counters and the table -/

theorem tableSize_eq : (HANZI_END - HANZI_START).toNat + 1 = 20992 := by decide

theorem is_hanzi_iff (u : Int) : is_hanzi u = true ↔ HANZI_START ≤ u ∧ u ≤ HANZI_END := by
  simp [is_hanzi]

theorem scanByte_eq (st : ScanState) (ch : Nat) :
    scanByte st ch =
      resetIfFull (match acceptedAt st ch with
        | some (len, unicode) => acceptWindow (appendByte st ch) len unicode
        | none => appendByte st ch) := rfl

theorem resetIfFull_total (st : ScanState) : (resetIfFull st).total_chars = st.total_chars := by
  unfold resetIfFull; split <;> rfl

theorem resetIfFull_detected (st : ScanState) :
    (resetIfFull st).detected_hanzi_count = st.detected_hanzi_count := by
  unfold resetIfFull; split <;> rfl

theorem resetIfFull_present (st : ScanState) :
    (resetIfFull st).hanzi_present = st.hanzi_present := by
  unfold resetIfFull; split <;> rfl

theorem scanByte_none (st : ScanState) (ch : Nat) (h : acceptedAt st ch = none) :
    (scanByte st ch).total_chars = st.total_chars ∧
    (scanByte st ch).detected_hanzi_count = st.detected_hanzi_count ∧
    (scanByte st ch).hanzi_present = st.hanzi_present := by
  rw [scanByte_eq, h, resetIfFull_total, resetIfFull_detected, resetIfFull_present]
  exact ⟨rfl, rfl, rfl⟩

theorem scanByte_some (st : ScanState) (ch len : Nat) (u : Int)
    (h : acceptedAt st ch = some (len, u)) :
    (scanByte st ch).total_chars = wrapInt (st.total_chars + 1) ∧
    (scanByte st ch).detected_hanzi_count
      = (if is_hanzi u then wrapInt (st.detected_hanzi_count + 1)
        else st.detected_hanzi_count) ∧
    (scanByte st ch).hanzi_present
      = if is_hanzi u then arrSet st.hanzi_present (u - HANZI_START).toNat true
        else st.hanzi_present := by
  rw [scanByte_eq, h, resetIfFull_total, resetIfFull_detected, resetIfFull_present]
  exact ⟨rfl, rfl, rfl⟩

theorem scan_cons (st : ScanState) (ch : Nat) (rest : List Nat) :
    scan st (ch :: rest) = scan (scanByte st ch) rest := rfl

theorem scan_append (st : ScanState) (xs ys : List Nat) :
    scan st (xs ++ ys) = scan (scan st xs) ys := by
  simp [scan, List.foldl_append]

theorem wrapInt_of_small (x : Int) (h1 : -2147483648 ≤ x) (h2 : x ≤ 2147483647) :
    wrapInt x = x := by
  unfold wrapInt
  omega

theorem wrapInt_range (x : Int) : -2147483648 ≤ wrapInt x ∧ wrapInt x ≤ 2147483647 := by
  unfold wrapInt
  omega

theorem wrapInt_wrapInt_add (x k : Int) : wrapInt (wrapInt x + k) = wrapInt (x + k) := by
  unfold wrapInt
  omega

theorem wrapInt_idem (x : Int) : wrapInt (wrapInt x) = wrapInt x := by
  unfold wrapInt
  omega

theorem wrapInt_le_self (x : Int) (h : 0 ≤ x) : wrapInt x ≤ x := by
  unfold wrapInt
  omega

/-- The total-character counter is the `int` value of what it was plus the number
of accepted windows. -/
theorem scan_total (st : ScanState) (input : List Nat)
    (hr : wrapInt st.total_chars = st.total_chars) :
    (scan st input).total_chars
      = wrapInt (st.total_chars + ((acceptedValues st input).length : Nat)) := by
  induction input generalizing st with
  | nil =>
    show st.total_chars = wrapInt (st.total_chars + ((0 : Nat) : Int))
    rw [Nat.cast_zero, Int.add_zero, hr]
  | cons ch rest ih =>
    rw [scan_cons, acceptedValues]
    cases h : acceptedAt st ch with
    | none =>
      have e := (scanByte_none st ch h).1
      rw [ih (scanByte st ch) (by rw [e]; exact hr), e]
    | some r =>
      obtain ⟨len, u⟩ := r
      have e := (scanByte_some st ch len u h).1
      rw [ih (scanByte st ch) (by rw [e, wrapInt_idem]), e, wrapInt_wrapInt_add]
      simp only [List.length_cons, Nat.cast_add, Nat.cast_one]
      congr 1
      omega

/-- The detected counter is the `int` value of what it was plus the number of
accepted values in the range. -/
theorem scan_detected (st : ScanState) (input : List Nat)
    (hr : wrapInt st.detected_hanzi_count = st.detected_hanzi_count) :
    (scan st input).detected_hanzi_count
      = wrapInt (st.detected_hanzi_count
          + (((acceptedValues st input).countP is_hanzi : Nat) : Int)) := by
  induction input generalizing st with
  | nil =>
    show st.detected_hanzi_count = wrapInt (st.detected_hanzi_count + ((0 : Nat) : Int))
    rw [Nat.cast_zero, Int.add_zero, hr]
  | cons ch rest ih =>
    rw [scan_cons, acceptedValues]
    cases h : acceptedAt st ch with
    | none =>
      have e := (scanByte_none st ch h).2.1
      rw [ih (scanByte st ch) (by rw [e]; exact hr), e]
    | some r =>
      obtain ⟨len, u⟩ := r
      have e := (scanByte_some st ch len u h).2.1
      by_cases hu : is_hanzi u = true
      · rw [if_pos hu] at e
        rw [ih (scanByte st ch) (by rw [e, wrapInt_idem]), e, wrapInt_wrapInt_add]
        simp only [List.countP_cons, hu, if_true, Nat.cast_add, Nat.cast_one]
        congr 1
        omega
      · rw [if_neg hu] at e
        rw [ih (scanByte st ch) (by rw [e]; exact hr), e]
        simp only [List.countP_cons, hu, Bool.false_eq_true, if_false, Nat.add_zero]

/-- The counters after a scan from the initial locals. -/
theorem scan_init_total (buffer0 : Nat → Nat) (input : List Nat) :
    (scan (initState buffer0) input).total_chars
      = wrapInt (((acceptedValues (initState buffer0) input).length : Nat) : Int) := by
  rw [scan_total _ _ (show wrapInt 0 = 0 by decide)]
  show wrapInt (0 + _) = _
  rw [Int.zero_add]

theorem scan_init_detected (buffer0 : Nat → Nat) (input : List Nat) :
    (scan (initState buffer0) input).detected_hanzi_count
      = wrapInt ((((acceptedValues (initState buffer0) input).countP is_hanzi : Nat)) : Int) := by
  rw [scan_detected _ _ (show wrapInt 0 = 0 by decide)]
  show wrapInt (0 + _) = _
  rw [Int.zero_add]

/-- A scan that accepts no window leaves both counters as they were. -/
theorem scan_counters_of_nil (st : ScanState) (input : List Nat)
    (h : acceptedValues st input = []) :
    (scan st input).total_chars = st.total_chars ∧
    (scan st input).detected_hanzi_count = st.detected_hanzi_count := by
  induction input generalizing st with
  | nil => exact ⟨rfl, rfl⟩
  | cons ch rest ih =>
    rw [acceptedValues] at h
    cases ha : acceptedAt st ch with
    | none =>
      rw [ha] at h
      obtain ⟨i1, i2⟩ := ih (scanByte st ch) h
      rw [scan_cons, i1, i2]
      exact ⟨(scanByte_none st ch ha).1, (scanByte_none st ch ha).2.1⟩
    | some r =>
      rw [ha] at h
      exact absurd h (List.cons_ne_nil _ _)

/-- An entry of the table is set after the scan iff it was set before or is the
entry of an accepted value in the range. -/
theorem scan_present (st : ScanState) (input : List Nat) (i : Nat) :
    (scan st input).hanzi_present i = true ↔
      st.hanzi_present i = true ∨
      ∃ u ∈ acceptedValues st input, is_hanzi u = true ∧ (u - HANZI_START).toNat = i := by
  induction input generalizing st with
  | nil => simp [scan, acceptedValues]
  | cons ch rest ih =>
    rw [scan_cons, ih, acceptedValues]
    cases h : acceptedAt st ch with
    | none => simp [(scanByte_none st ch h).2.2]
    | some r =>
      obtain ⟨len, u⟩ := r
      simp only [(scanByte_some st ch len u h).2.2, List.mem_cons, exists_eq_or_imp]
      by_cases hu : is_hanzi u = true
      · simp only [hu, if_true, arrSet, true_and]
        by_cases hi : i = (u - HANZI_START).toNat
        · simp [hi]
        · have hi2 : ¬ (u - HANZI_START).toNat = i := fun e => hi e.symm
          simp [hi, hi2]
      · simp [hu]

/-! ## The sorted code point list -/

theorem foldl_collect (p : Nat → Bool) (l : List Nat) (acc : List Int) :
    l.foldl (fun codes i => if p i then codes ++ [HANZI_START + (i : Int)] else codes) acc
      = acc ++ (l.filter p).map (fun i : Nat => HANZI_START + (i : Int)) := by
  induction l generalizing acc with
  | nil => simp
  | cons a l ih =>
    simp only [List.foldl_cons, ih, List.filter_cons]
    cases h : p a <;> simp

/-- The list built by the collection loop, in closed form. -/
theorem collectCodes_eq (p : Nat → Bool) :
    collectCodes p
      = ((List.range ((HANZI_END - HANZI_START).toNat + 1)).filter p).map
          (fun i : Nat => HANZI_START + (i : Int)) := by
  unfold collectCodes
  rw [foldl_collect, List.nil_append]

theorem collectCodes_sorted (p : Nat → Bool) : (collectCodes p).Pairwise (· < ·) := by
  rw [collectCodes_eq]
  generalize (HANZI_END - HANZI_START).toNat + 1 = n
  refine List.Pairwise.map _ ?_ ((List.pairwise_lt_range n).filter p)
  intro a b hab
  show HANZI_START + (a : Int) < HANZI_START + (b : Int)
  omega

theorem mem_collectCodes (p : Nat → Bool) (c : Int) :
    c ∈ collectCodes p ↔
      HANZI_START ≤ c ∧ c ≤ HANZI_END ∧ p (c - HANZI_START).toNat = true := by
  rw [collectCodes_eq]
  simp only [List.mem_map, List.mem_filter, List.mem_range]
  simp only [tableSize_eq, HANZI_START, HANZI_END]
  constructor
  · rintro ⟨i, ⟨hi, hp⟩, rfl⟩
    refine ⟨by omega, by omega, ?_⟩
    have e : ((19968 : Int) + (i : Int) - 19968).toNat = i := by omega
    rw [e]; exact hp
  · rintro ⟨h1, h2, hp⟩
    exact ⟨(c - 19968).toNat, ⟨by omega, hp⟩, by omega⟩

/-- A strictly increasing list with the members of the table is the list the
collection loop builds. -/
theorem collectCodes_unique (p : Nat → Bool) (l : List Int) (hs : l.Pairwise (· < ·))
    (hm : ∀ c, c ∈ l ↔ HANZI_START ≤ c ∧ c ≤ HANZI_END ∧ p (c - HANZI_START).toNat = true) :
    collectCodes p = l := by
  have hs' := collectCodes_sorted p
  refine List.eq_of_perm_of_sorted ?_ hs' hs
  refine (List.perm_ext_iff_of_nodup hs'.nodup hs.nodup).2 ?_
  intro c
  rw [hm c, mem_collectCodes]

/-! ## The delta encoder -/

theorem foldl_snoc_map (g : Nat → Int) (l : List Nat) (acc : List Int) :
    l.foldl (fun offsets i => offsets ++ [g i]) acc = acc ++ l.map g := by
  induction l generalizing acc with
  | nil => simp
  | cons a l ih => simp [ih]

/-- The delta array in closed form. -/
theorem encodeOffsets_eq (codes : List Int) :
    encodeOffsets codes
      = 0 :: (List.range' 1 (codes.length - 1)).map
          (fun i => toShort (codes.getD i 0 - codes.getD (i - 1) 0)) := by
  unfold encodeOffsets
  exact foldl_snoc_map _ _ _

theorem encodeOffsets_length (codes : List Int) (h : codes ≠ []) :
    (encodeOffsets codes).length = codes.length := by
  have : 0 < codes.length := List.length_pos.2 h
  rw [encodeOffsets_eq]
  simp
  omega

theorem toShort_of_small (d : Int) (h1 : -32768 ≤ d) (h2 : d ≤ 32767) : toShort d = d := by
  unfold toShort
  omega

/-- In a strictly increasing list of code points of the block, every element
after the first gets as its delta the exact difference from its predecessor. -/
theorem encodeOffsets_getElem (codes : List Int) (hs : codes.Pairwise (· < ·))
    (hr : ∀ c ∈ codes, HANZI_START ≤ c ∧ c ≤ HANZI_END) (i : Nat) (h0 : 0 < i)
    (hi : i < codes.length) :
    ∃ a b, codes[i - 1]? = some a ∧ codes[i]? = some b ∧ a < b ∧
      (encodeOffsets codes)[i]? = some (b - a) := by
  have hi1 : i - 1 < codes.length := by omega
  refine ⟨codes[i - 1], codes[i], List.getElem?_eq_getElem hi1, List.getElem?_eq_getElem hi,
    ?_, ?_⟩
  · exact (List.pairwise_iff_getElem.1 hs) (i - 1) i hi1 hi (by omega)
  · have hlt : codes[i - 1] < codes[i] :=
      (List.pairwise_iff_getElem.1 hs) (i - 1) i hi1 hi (by omega)
    have ha := hr _ (List.getElem_mem hi1)
    have hb := hr _ (List.getElem_mem hi)
    simp only [HANZI_START, HANZI_END] at ha hb
    obtain ⟨k, rfl⟩ : ∃ k, i = k + 1 := ⟨i - 1, by omega⟩
    simp only [Nat.add_sub_cancel] at hi1 hlt ha ⊢
    rw [encodeOffsets_eq, List.getElem?_cons_succ, List.getElem?_map, List.getElem?_range']
    · have e : 1 + 1 * k = k + 1 := by omega
      simp only [Option.map_some', e, Nat.add_sub_cancel]
      rw [List.getD_eq_getElem _ _ hi, List.getD_eq_getElem _ _ hi1]
      rw [toShort_of_small _ (by omega) (by omega)]
    · omega

/-! ## The table and the list after a scan -/

/-- After a scan from the initial locals, an entry of the table is set iff it is
the entry of an accepted value in the range. -/
theorem scan_init_present (buffer0 : Nat → Nat) (input : List Nat) (i : Nat) :
    (scan (initState buffer0) input).hanzi_present i = true ↔
      i < 20992 ∧ HANZI_START + (i : Int) ∈ acceptedValues (initState buffer0) input := by
  rw [scan_present]
  simp only [initState, Bool.false_eq_true, false_or, is_hanzi_iff, HANZI_START, HANZI_END]
  constructor
  · rintro ⟨u, hu, ⟨h1, h2⟩, rfl⟩
    refine ⟨by omega, ?_⟩
    have e : (19968 : Int) + ((u - 19968).toNat : Int) = u := by omega
    rw [e]; exact hu
  · rintro ⟨h1, h2⟩
    exact ⟨_, h2, ⟨by omega, by omega⟩, by omega⟩

/-- The members of the sorted code point list after a scan. -/
theorem mem_collectCodes_scan (buffer0 : Nat → Nat) (input : List Nat) (c : Int) :
    c ∈ collectCodes (scan (initState buffer0) input).hanzi_present ↔
      (HANZI_START ≤ c ∧ c ≤ HANZI_END) ∧ c ∈ acceptedValues (initState buffer0) input := by
  rw [mem_collectCodes, scan_init_present]
  simp only [HANZI_START, HANZI_END]
  constructor
  · rintro ⟨h1, h2, -, h3⟩
    have e : (19968 : Int) + ((c - 19968).toNat : Int) = c := by omega
    rw [e] at h3
    exact ⟨⟨h1, h2⟩, h3⟩
  · rintro ⟨⟨h1, h2⟩, h3⟩
    have e : (19968 : Int) + ((c - 19968).toNat : Int) = c := by omega
    refine ⟨h1, h2, by omega, ?_⟩
    rw [e]; exact h3

/-- When the detected counter is not zero the sorted code point list is not empty. -/
theorem collectCodes_ne_nil (buffer0 : Nat → Nat) (input : List Nat)
    (h : (scan (initState buffer0) input).detected_hanzi_count ≠ 0) :
    collectCodes (scan (initState buffer0) input).hanzi_present ≠ [] := by
  rw [scan_init_detected] at h
  have hpos : 0 < (acceptedValues (initState buffer0) input).countP is_hanzi := by
    rcases Nat.eq_zero_or_pos ((acceptedValues (initState buffer0) input).countP is_hanzi)
      with h0 | h0
    · rw [h0] at h
      exact absurd (by decide) h
    · exact h0
  obtain ⟨u, hu, hh⟩ := List.countP_pos_iff.1 hpos
  have hm : u ∈ collectCodes (scan (initState buffer0) input).hanzi_present :=
    (mem_collectCodes_scan buffer0 input u).2 ⟨(is_hanzi_iff u).1 hh, hu⟩
  exact List.ne_nil_of_mem hm

/-- What the output of a run that reaches the encoding stage consists of. -/
theorem run_output (malloc_ok fopen_ok : Bool) (buffer0 : Nat → Nat) (input : List Nat)
    (codes offsets : List Int)
    (h : (main malloc_ok fopen_ok buffer0 input).output = some (codes, offsets)) :
    (scan (initState buffer0) input).detected_hanzi_count ≠ 0 ∧
    codes = collectCodes (scan (initState buffer0) input).hanzi_present ∧
    offsets = encodeOffsets codes := by
  unfold main at h
  by_cases hd : (scan (initState buffer0) input).detected_hanzi_count = 0
  · simp [hd] at h
  · cases malloc_ok
    · simp [hd] at h
    · cases fopen_ok <;>
      · simp only [hd, if_false, if_true, Bool.true_eq_false, Option.some.injEq,
          Prod.mk.injEq] at h
        obtain ⟨h1, h2⟩ := h
        exact ⟨hd, h1.symm, by rw [← h2, h1]⟩

/-- The four returns of `main`, by the conditions under which each is taken. -/
theorem main_cases (malloc_ok fopen_ok : Bool) (buffer0 : Nat → Nat) (input : List Nat) :
    (main malloc_ok fopen_ok buffer0 input).total_chars
      = (scan (initState buffer0) input).total_chars ∧
    (main malloc_ok fopen_ok buffer0 input).detected_hanzi_count
      = (scan (initState buffer0) input).detected_hanzi_count ∧
    ((scan (initState buffer0) input).detected_hanzi_count = 0 →
      (main malloc_ok fopen_ok buffer0 input).exit_code = 1 ∧
      (main malloc_ok fopen_ok buffer0 input).outcome = Outcome.emptyResult ∧
      (main malloc_ok fopen_ok buffer0 input).output = none) ∧
    ((scan (initState buffer0) input).detected_hanzi_count ≠ 0 → malloc_ok = false →
      (main malloc_ok fopen_ok buffer0 input).exit_code = 1 ∧
      (main malloc_ok fopen_ok buffer0 input).outcome = Outcome.mallocFailed ∧
      (main malloc_ok fopen_ok buffer0 input).output = none) ∧
    ((scan (initState buffer0) input).detected_hanzi_count ≠ 0 → malloc_ok = true →
      fopen_ok = false →
      (main malloc_ok fopen_ok buffer0 input).exit_code = 1 ∧
      (main malloc_ok fopen_ok buffer0 input).outcome = Outcome.outputOpenFailed ∧
      (main malloc_ok fopen_ok buffer0 input).output
        = some (collectCodes (scan (initState buffer0) input).hanzi_present,
            encodeOffsets (collectCodes (scan (initState buffer0) input).hanzi_present))) ∧
    ((scan (initState buffer0) input).detected_hanzi_count ≠ 0 → malloc_ok = true →
      fopen_ok = true →
      (main malloc_ok fopen_ok buffer0 input).exit_code = 0 ∧
      (main malloc_ok fopen_ok buffer0 input).outcome = Outcome.success ∧
      (main malloc_ok fopen_ok buffer0 input).output
        = some (collectCodes (scan (initState buffer0) input).hanzi_present,
            encodeOffsets (collectCodes (scan (initState buffer0) input).hanzi_present))) := by
  unfold main
  by_cases hd : (scan (initState buffer0) input).detected_hanzi_count = 0
  · simp [hd]
  · cases malloc_ok <;> cases fopen_ok <;> simp [hd]

theorem acceptedValues_sampleInput :
    acceptedValues (initState fun _ => 0) sampleInput = [0x4E2D, 0x6587, 0x41, 0x42, 0x4E2D] := by
  decide

/-- The scan of `中文AB中`, evaluated. -/
theorem scan_sampleInput (buffer0 : Nat → Nat)
    (hv : acceptedValues (initState buffer0) sampleInput
      = [0x4E2D, 0x6587, 0x41, 0x42, 0x4E2D]) :
    (scan (initState buffer0) sampleInput).total_chars = 5 ∧
    (scan (initState buffer0) sampleInput).detected_hanzi_count = 3 ∧
    collectCodes (scan (initState buffer0) sampleInput).hanzi_present = [0x4E2D, 0x6587] ∧
    encodeOffsets [0x4E2D, 0x6587] = [0, 5978] := by
  refine ⟨?_, ?_, ?_, by decide⟩
  · rw [scan_init_total, hv]; decide
  · rw [scan_init_detected, hv]; decide
  · refine collectCodes_unique _ _ (by decide) (fun c => ?_)
    rw [← mem_collectCodes, mem_collectCodes_scan, hv]
    simp only [HANZI_START, HANZI_END, List.mem_cons, List.mem_singleton, List.not_mem_nil,
      or_false]
    omega

/-- The run on `中文AB中`, evaluated. -/
theorem run_sampleInput :
    main true true (fun _ => 0) sampleInput
      = ⟨0, Outcome.success, 5, 3, some ([0x4E2D, 0x6587], [0, 5978])⟩ := by
  obtain ⟨ht, hd, hc, he⟩ := scan_sampleInput (fun _ => 0) acceptedValues_sampleInput
  unfold main
  simp only [hd, ht, hc, he]
  rfl

/-! ## The decoder: byte count and lead byte -/

/-- The decoder reports the count `n ≥ 1` exactly when the lead byte announces `n`
and the `n - 1` bytes after it pass the continuation test. -/
theorem count_eq_iff (bytes : Nat → Nat) (n : Nat) (hn : 1 ≤ n) :
    (utf8_to_unicode bytes).2 = n ↔
      leadLen (bytes 0) = n ∧ (2 ≤ n → isCont (bytes 1)) ∧ (3 ≤ n → isCont (bytes 2)) ∧
        (4 ≤ n → isCont (bytes 3)) := by
  unfold utf8_to_unicode leadLen isCont
  by_cases h1 : bytes 0 &&& 0x80 = 0
  · simp only [h1, if_true]
    constructor
    · intro h; subst h; simp
    · intro h; exact h.1
  · simp only [h1, if_false]
    by_cases h2 : bytes 0 &&& 0xE0 = 0xC0
    · simp only [h2, if_true]
      by_cases c1 : bytes 1 &&& 0xC0 = 0x80
      · simp only [c1, ne_eq, not_true_eq_false, if_false]
        constructor
        · intro h; subst h; simp
        · intro h; exact h.1
      · simp only [c1, ne_eq, not_false_eq_true, if_true]
        constructor
        · intro h; omega
        · intro h; exact (h.2.1 (by omega)).elim
    · simp only [h2, if_false]
      by_cases h3 : bytes 0 &&& 0xF0 = 0xE0
      · simp only [h3, if_true]
        by_cases c : bytes 1 &&& 0xC0 = 0x80 ∧ bytes 2 &&& 0xC0 = 0x80
        · simp only [c.1, c.2, ne_eq, not_true_eq_false, or_self, if_false]
          constructor
          · intro h; subst h; simp
          · intro h; exact h.1
        · have c' : bytes 1 &&& 0xC0 ≠ 0x80 ∨ bytes 2 &&& 0xC0 ≠ 0x80 := not_and_or.1 c
          simp only [c', if_true]
          constructor
          · intro h; omega
          · intro h
            exact absurd ⟨h.2.1 (by omega), h.2.2.1 (by omega)⟩ c
      · simp only [h3, if_false]
        by_cases h4 : bytes 0 &&& 0xF8 = 0xF0
        · simp only [h4, if_true]
          by_cases c : bytes 1 &&& 0xC0 = 0x80 ∧ bytes 2 &&& 0xC0 = 0x80 ∧
              bytes 3 &&& 0xC0 = 0x80
          · simp only [c.1, c.2.1, c.2.2, ne_eq, not_true_eq_false, or_self, if_false]
            constructor
            · intro h; subst h; simp
            · intro h; exact h.1
          · have c' : bytes 1 &&& 0xC0 ≠ 0x80 ∨ bytes 2 &&& 0xC0 ≠ 0x80 ∨
                bytes 3 &&& 0xC0 ≠ 0x80 := Or.imp_right not_and_or.1 (not_and_or.1 c)
            simp only [c', if_true]
            constructor
            · intro h; omega
            · intro h
              exact absurd ⟨h.2.1 (by omega), h.2.2.1 (by omega), h.2.2.2 (by omega)⟩ c
        · simp only [h4, if_false]
          constructor
          · intro h; omega
          · intro h; omega

/-- The decoder never reports a count above four. -/
theorem count_le_four (bytes : Nat → Nat) : (utf8_to_unicode bytes).2 ≤ 4 := by
  unfold utf8_to_unicode
  split_ifs <;> simp

/-- A decode that reports the count `n` reads only the first `n` bytes. -/
theorem utf8_to_unicode_congr (bytes bytes' : Nat → Nat) (n : Nat) (hn : 1 ≤ n)
    (hc : (utf8_to_unicode bytes).2 = n) (he : ∀ k, k < n → bytes' k = bytes k) :
    utf8_to_unicode bytes' = utf8_to_unicode bytes := by
  have h := (count_eq_iff bytes n hn).1 hc
  have e0 : bytes' 0 = bytes 0 := he 0 (by omega)
  unfold leadLen at h
  unfold utf8_to_unicode
  rw [e0]
  by_cases h1 : bytes 0 &&& 0x80 = 0
  · simp only [h1, if_true]
  · by_cases h2 : bytes 0 &&& 0xE0 = 0xC0
    · simp only [h1, h2, if_true, if_false] at h ⊢
      rw [he 1 (by omega)]
    · by_cases h3 : bytes 0 &&& 0xF0 = 0xE0
      · simp only [h1, h2, h3, if_true, if_false] at h ⊢
        rw [he 1 (by omega), he 2 (by omega)]
      · by_cases h4 : bytes 0 &&& 0xF8 = 0xF0
        · simp only [h1, h2, h3, h4, if_true, if_false] at h ⊢
          rw [he 1 (by omega), he 2 (by omega), he 3 (by omega)]
        · simp only [h1, h2, h3, h4, if_false] at h ⊢

/-! ## The window search -/

/-- The window search returns the least admissible length at which the decoder
reports the length itself. -/
theorem findWindow_eq_some (buffer : Nat → Nat) (pos : Nat) (fuel start len : Nat) (u : Int) :
    findWindow buffer pos fuel start = some (len, u) ↔
      start ≤ len ∧ len < start + fuel ∧ len ≤ pos ∧ len ≤ 4 ∧
      (utf8_to_unicode (winBytes buffer pos len)).2 = len ∧
      u = (utf8_to_unicode (winBytes buffer pos len)).1 ∧
      ∀ l, start ≤ l → l < len → (utf8_to_unicode (winBytes buffer pos l)).2 ≠ l := by
  induction fuel generalizing start with
  | zero =>
    simp only [findWindow, Nat.add_zero]
    constructor
    · intro h; cases h
    · rintro ⟨h1, h2, -⟩; omega
  | succ fuel ih =>
    rw [findWindow]
    by_cases hg : start ≤ pos ∧ start ≤ 4
    · rw [if_pos hg]
      by_cases hd : (utf8_to_unicode (winBytes buffer pos start)).2 = start
      · have hd' : (utf8_to_unicode fun k => buffer (pos - start + k)).2 = start := hd
        simp only [hd', if_true, Option.some.injEq, Prod.mk.injEq]
        constructor
        · rintro ⟨rfl, rfl⟩
          exact ⟨le_refl _, by omega, hg.1, hg.2, hd, rfl, fun l h1 h2 => by omega⟩
        · rintro ⟨h1, h2, h3, h4, h5, h6, h7⟩
          have e : start = len := by
            by_contra hne
            exact h7 start (le_refl _) (by omega) hd
          subst e
          exact ⟨rfl, h6.symm⟩
      · have hd' : ¬ (utf8_to_unicode fun k => buffer (pos - start + k)).2 = start := hd
        simp only [hd', if_false]
        rw [ih]
        constructor
        · rintro ⟨h1, h2, h3, h4, h5, h6, h7⟩
          refine ⟨by omega, by omega, h3, h4, h5, h6, ?_⟩
          intro l hl1 hl2
          by_cases e : l = start
          · subst e; exact hd
          · exact h7 l (by omega) hl2
        · rintro ⟨h1, h2, h3, h4, h5, h6, h7⟩
          have hne : start ≠ len := by
            rintro rfl
            exact hd h5
          exact ⟨by omega, by omega, h3, h4, h5, h6, fun l hl1 hl2 => h7 l (by omega) hl2⟩
    · rw [if_neg hg]
      constructor
      · intro h; cases h
      · rintro ⟨h1, h2, h3, h4, -⟩
        exact absurd ⟨by omega, by omega⟩ hg

/-- The window search fails when no admissible length decodes to itself. -/
theorem findWindow_eq_none (buffer : Nat → Nat) (pos : Nat) (fuel start : Nat)
    (h : ∀ l, start ≤ l → l < start + fuel → l ≤ pos → l ≤ 4 →
      (utf8_to_unicode (winBytes buffer pos l)).2 ≠ l) :
    findWindow buffer pos fuel start = none := by
  cases hf : findWindow buffer pos fuel start with
  | none => rfl
  | some r =>
    obtain ⟨len, u⟩ := r
    obtain ⟨h1, h2, h3, h4, h5, -⟩ := (findWindow_eq_some buffer pos fuel start len u).1 hf
    exact absurd h5 (h len h1 h2 h3 h4)

/-- The copy loop moves the bytes `len .. len + buffer_pos - 1` to the front and
leaves the rest of the array as it was. -/
theorem shiftBuffer_apply (buffer : Nat → Nat) (len pos j : Nat) :
    shiftBuffer buffer len pos j = if j < pos then buffer (j + len) else buffer j := by
  induction pos generalizing j with
  | zero => simp [shiftBuffer]
  | succ pos ih =>
    have e : shiftBuffer buffer len (pos + 1)
        = arrSet (shiftBuffer buffer len pos) pos (shiftBuffer buffer len pos (pos + len)) := by
      simp [shiftBuffer, List.range_succ, List.foldl_append]
    rw [e]
    unfold arrSet
    by_cases hj : j = pos
    · subst hj
      rw [if_pos rfl, ih, if_neg (by omega), if_pos (by omega)]
    · rw [if_neg hj, ih]
      by_cases hlt : j < pos
      · rw [if_pos hlt, if_pos (by omega)]
      · rw [if_neg hlt, if_neg (by omega)]

/-! ## The rolling buffer and the bytes read -/

theorem holds_of_pos_zero (st : ScanState) (recent : List Nat) (h : st.buffer_pos = 0) :
    Holds st recent := by
  intro k hk
  omega

theorem holds_appendByte (st : ScanState) (recent : List Nat) (ch : Nat) (h : Holds st recent) :
    Holds (appendByte st ch) (ch % 256 :: recent) := by
  intro k hk
  simp only [appendByte] at hk ⊢
  cases k with
  | zero => simp [arrSet]
  | succ k =>
    have hk' : k < st.buffer_pos := by omega
    rw [List.getElem?_cons_succ, h k hk']
    have e : st.buffer_pos + 1 - 1 - (k + 1) = st.buffer_pos - 1 - k := by omega
    have ne : ¬ (st.buffer_pos - 1 - k = st.buffer_pos) := by omega
    simp only [arrSet, e, ne, if_false]

theorem holds_acceptWindow (st : ScanState) (recent : List Nat) (len : Nat) (u : Int)
    (h : Holds st recent) : Holds (acceptWindow st len u) recent := by
  intro k hk
  simp only [acceptWindow] at hk ⊢
  rw [shiftBuffer_apply, if_pos (by omega), h k (by omega)]
  congr 2
  omega

theorem holds_resetIfFull (st : ScanState) (recent : List Nat) (h : Holds st recent) :
    Holds (resetIfFull st) recent := by
  unfold resetIfFull
  split
  · exact holds_of_pos_zero _ _ rfl
  · exact h

theorem holds_scanByte (st : ScanState) (recent : List Nat) (ch : Nat) (h : Holds st recent) :
    Holds (scanByte st ch) (ch % 256 :: recent) := by
  rw [scanByte_eq]
  apply holds_resetIfFull
  cases acceptedAt st ch with
  | none => exact holds_appendByte st recent ch h
  | some r => exact holds_acceptWindow _ _ _ _ (holds_appendByte st recent ch h)

theorem holds_scan (st : ScanState) (recent : List Nat) (xs : List Nat) (h : Holds st recent) :
    Holds (scan st xs) ((xs.map (· % 256)).reverse ++ recent) := by
  induction xs generalizing st recent with
  | nil => simpa [scan] using h
  | cons x xs ih =>
    rw [scan_cons]
    have := ih (scanByte st x) (x % 256 :: recent) (holds_scanByte st recent x h)
    simpa using this

/-- On the bytes of a window that lies inside the rolling buffer, the pointer
handed to the decoder reads the bytes last read. -/
theorem winBytes_eq_recentBytes (st : ScanState) (recent : List Nat) (h : Holds st recent)
    (l k : Nat) (hl : l ≤ st.buffer_pos) (hk : k < l) :
    winBytes st.buffer st.buffer_pos l k = recentBytes recent l k := by
  unfold winBytes recentBytes
  rw [List.getD_eq_getElem?_getD, h (l - 1 - k) (by omega)]
  simp only [Option.getD_some]
  congr 1
  omega

theorem count_congr (bytes bytes' : Nat → Nat) (l : Nat) (hl : 1 ≤ l)
    (he : ∀ k, k < l → bytes' k = bytes k) :
    (utf8_to_unicode bytes').2 = l ↔ (utf8_to_unicode bytes).2 = l := by
  constructor
  · intro h
    rw [utf8_to_unicode_congr bytes' bytes l hl h (fun k hk => (he k hk).symm)]
    exact h
  · intro h
    rw [utf8_to_unicode_congr bytes bytes' l hl h he]
    exact h

/-- Which window the iteration reading `ch` accepts, in terms of the bytes read:
the least length `len` from 1 to 4, not above the buffer length, whose last `len`
bytes decode with count `len`. -/
theorem acceptedAt_iff (st : ScanState) (recent : List Nat) (h : Holds st recent)
    (ch len : Nat) (u : Int) :
    acceptedAt st ch = some (len, u) ↔
      1 ≤ len ∧ len ≤ 4 ∧ len ≤ st.buffer_pos + 1 ∧
      (utf8_to_unicode (recentBytes (ch % 256 :: recent) len)).2 = len ∧
      u = (utf8_to_unicode (recentBytes (ch % 256 :: recent) len)).1 ∧
      ∀ l, 1 ≤ l → l < len →
        (utf8_to_unicode (recentBytes (ch % 256 :: recent) l)).2 ≠ l := by
  have hH := holds_appendByte st recent ch h
  have hpos : (appendByte st ch).buffer_pos = st.buffer_pos + 1 := rfl
  have hw : ∀ l, 1 ≤ l → l ≤ st.buffer_pos + 1 →
      ((utf8_to_unicode (winBytes (appendByte st ch).buffer (appendByte st ch).buffer_pos l)).2 = l
        ↔ (utf8_to_unicode (recentBytes (ch % 256 :: recent) l)).2 = l) := by
    intro l h1 h2
    exact count_congr _ _ l h1
      (fun k hk => winBytes_eq_recentBytes _ _ hH l k (by omega) hk)
  unfold acceptedAt
  rw [findWindow_eq_some]
  constructor
  · rintro ⟨h1, h2, h3, h4, h5, h6, h7⟩
    have h5' := (hw len h1 (by omega)).1 h5
    refine ⟨h1, h4, by omega, h5', ?_, ?_⟩
    · rw [h6]
      exact congrArg Prod.fst (utf8_to_unicode_congr _ _ len h1 h5'
        (fun k hk => winBytes_eq_recentBytes _ _ hH len k (by omega) hk))
    · intro l hl1 hl2 hc
      exact h7 l hl1 hl2 ((hw l hl1 (by omega)).2 hc)
  · rintro ⟨h1, h2, h3, h5, h6, h7⟩
    have h5' := (hw len h1 h3).2 h5
    refine ⟨h1, by omega, by omega, h2, h5', ?_, ?_⟩
    · rw [h6]
      exact (congrArg Prod.fst (utf8_to_unicode_congr _ _ len h1 h5
        (fun k hk => winBytes_eq_recentBytes _ _ hH len k (by omega) hk))).symm
    · intro l hl1 hl2 hc
      exact h7 l hl1 hl2 ((hw l hl1 (by omega)).1 hc)

/-- No window is accepted when none of the admissible lengths decodes. -/
theorem acceptedAt_eq_none (st : ScanState) (recent : List Nat) (h : Holds st recent)
    (ch : Nat)
    (hn : ∀ l, 1 ≤ l → l ≤ 4 → l ≤ st.buffer_pos + 1 →
      (utf8_to_unicode (recentBytes (ch % 256 :: recent) l)).2 ≠ l) :
    acceptedAt st ch = none := by
  cases ha : acceptedAt st ch with
  | none => rfl
  | some r =>
    obtain ⟨len, u⟩ := r
    obtain ⟨h1, h2, h3, h4, -⟩ := (acceptedAt_iff st recent h ch len u).1 ha
    exact absurd h4 (hn len h1 h2 h3)

theorem acceptedValues_append (st : ScanState) (xs ys : List Nat) :
    acceptedValues st (xs ++ ys) = acceptedValues st xs ++ acceptedValues (scan st xs) ys := by
  induction xs generalizing st with
  | nil => rfl
  | cons x xs ih =>
    simp only [List.cons_append, acceptedValues, scan_cons]
    cases acceptedAt st x with
    | none => exact ih _
    | some r => simp [ih]

/-- Every accepted value is accepted in the iteration that reads some byte of the
input. -/
theorem mem_acceptedValues (st : ScanState) (xs : List Nat) (u : Int)
    (h : u ∈ acceptedValues st xs) :
    ∃ pre ch post len, xs = pre ++ ch :: post ∧
      acceptedAt (scan st pre) ch = some (len, u) := by
  induction xs generalizing st with
  | nil => simp [acceptedValues] at h
  | cons x xs ih =>
    rw [acceptedValues] at h
    cases ha : acceptedAt st x with
    | none =>
      rw [ha] at h
      obtain ⟨pre, ch, post, len, e, hacc⟩ := ih _ h
      exact ⟨x :: pre, ch, post, len, by rw [e]; rfl, hacc⟩
    | some r =>
      obtain ⟨len, v⟩ := r
      rw [ha] at h
      rcases List.mem_cons.1 h with rfl | h'
      · exact ⟨[], x, xs, len, rfl, ha⟩
      · obtain ⟨pre, ch, post, len', e, hacc⟩ := ih _ h'
        exact ⟨x :: pre, ch, post, len', by rw [e]; rfl, hacc⟩

/-! ## Classes of bytes -/

set_option maxRecDepth 100000 in
/-- What the mask tests say about a byte, by its value. -/
theorem byte_class : ∀ b < 256,
    (b < 0x80 → leadLen b = 1) ∧ (0x80 ≤ b → b < 0xC0 → leadLen b = 0) ∧
    (0xC0 ≤ b → b < 0xE0 → leadLen b = 2) ∧ (0xE0 ≤ b → b < 0xF0 → leadLen b = 3) ∧
    (0xF0 ≤ b → b < 0xF8 → leadLen b = 4) ∧ (0xF8 ≤ b → leadLen b = 0) ∧
    (isCont b ↔ 0x80 ≤ b ∧ b < 0xC0) := by
  decide

theorem holds_pos_le (st : ScanState) (recent : List Nat) (h : Holds st recent) :
    st.buffer_pos ≤ recent.length := by
  by_contra hc
  have hk := h (st.buffer_pos - 1) (by omega)
  have hlt : st.buffer_pos - 1 < recent.length := by
    by_contra hge
    rw [List.getElem?_eq_none (by omega)] at hk
    cases hk
  omega

theorem scanByte_pos_none (st : ScanState) (ch : Nat) (h : acceptedAt st ch = none) :
    (scanByte st ch).buffer_pos = if st.buffer_pos + 1 ≥ 4 then 0 else st.buffer_pos + 1 := by
  rw [scanByte_eq, h]
  simp only [resetIfFull, appendByte]
  split <;> rfl

theorem scanByte_pos_some (st : ScanState) (ch len : Nat) (u : Int)
    (h : acceptedAt st ch = some (len, u)) :
    (scanByte st ch).buffer_pos
      = if st.buffer_pos + 1 - len ≥ 4 then 0 else st.buffer_pos + 1 - len := by
  rw [scanByte_eq, h]
  simp only [resetIfFull, appendByte, acceptWindow]
  split <;> rfl

theorem recentBytes_zero (recent : List Nat) (len : Nat) :
    recentBytes recent len 0 = recent.getD (len - 1) 0 := rfl

/-- The value decoded from a window whose lead byte is an ASCII byte. -/
theorem utf8_to_unicode_ascii (bytes : Nat → Nat) (h : bytes 0 &&& 0x80 = 0) :
    utf8_to_unicode bytes = (((bytes 0 : Nat) : Int), 1) := by
  unfold utf8_to_unicode
  rw [if_pos h]

/-- An ASCII byte read with an empty rolling buffer is accepted as itself. -/
theorem acceptedAt_ascii (st : ScanState) (ch : Nat) (hp : st.buffer_pos = 0) (hc : ch < 0x80) :
    acceptedAt st ch = some (1, (ch : Int)) := by
  have hm : ch % 256 = ch := Nat.mod_eq_of_lt (by omega)
  have hb : recentBytes [ch % 256] 1 0 &&& 0x80 = 0 := by
    rw [recentBytes_zero]
    simp only [Nat.sub_self, List.getD_cons_zero, hm]
    exact (byte_masks ch (by omega)).1.2 (by omega)
  rw [acceptedAt_iff st [] (holds_of_pos_zero st [] hp)]
  refine ⟨le_refl _, by omega, by omega, ?_, ?_, fun l h1 h2 => by omega⟩
  · rw [utf8_to_unicode_ascii _ hb]
  · rw [utf8_to_unicode_ascii _ hb, recentBytes_zero]
    simp [hm]

/-- Scanning ASCII bytes from an empty rolling buffer accepts every byte. -/
theorem scan_ascii (st : ScanState) (input : List Nat) (hp : st.buffer_pos = 0)
    (h : ∀ b ∈ input, b < 0x80) :
    acceptedValues st input = input.map (fun b : Nat => (b : Int)) ∧
    (scan st input).buffer_pos = 0 := by
  induction input generalizing st with
  | nil => exact ⟨rfl, hp⟩
  | cons x xs ih =>
    have hx : x < 0x80 := h x (List.mem_cons_self _ _)
    have ha := acceptedAt_ascii st x hp hx
    have hp' : (scanByte st x).buffer_pos = 0 := by
      rw [scanByte_pos_some st x 1 _ ha, hp]
      rfl
    obtain ⟨h1, h2⟩ := ih (scanByte st x) hp' (fun b hb => h b (List.mem_cons_of_mem _ hb))
    refine ⟨?_, by rw [scan_cons]; exact h2⟩
    rw [acceptedValues, ha]
    simp only [h1, List.map_cons]

/-- No accepted value when every byte read has no lead-byte pattern. -/
theorem acceptedValues_nonstarters (buffer0 : Nat → Nat) (input : List Nat)
    (h : ∀ b ∈ input, (0x80 ≤ b ∧ b ≤ 0xBF) ∨ (0xF8 ≤ b ∧ b ≤ 0xFF)) :
    acceptedValues (initState buffer0) input = [] := by
  rw [List.eq_nil_iff_forall_not_mem]
  intro u hu
  obtain ⟨pre, ch, post, len, e, ha⟩ := mem_acceptedValues _ _ _ hu
  have hH := holds_scan (initState buffer0) [] pre (holds_of_pos_zero _ _ rfl)
  obtain ⟨h1, h2, h3, h4, -⟩ := (acceptedAt_iff _ _ hH ch len u).1 ha
  have hlead := ((count_eq_iff _ len h1).1 h4).1
  rw [recentBytes_zero] at hlead
  have hle := holds_pos_le _ _ hH
  have hlt : len - 1 < (ch % 256 :: ((pre.map (· % 256)).reverse ++ [])).length := by
    simp only [List.length_cons]
    omega
  rw [List.getD_eq_getElem _ _ hlt] at hlead
  have hmem := List.getElem_mem hlt
  have hall : ∀ b ∈ (ch % 256 :: ((pre.map (· % 256)).reverse ++ [])), leadLen b = 0 := by
    intro b hb
    have hb' : ∃ a ∈ input, b = a % 256 := by
      simp only [List.append_nil, List.mem_cons, List.mem_reverse, List.mem_map] at hb
      rcases hb with rfl | ⟨a, ha, rfl⟩
      · exact ⟨ch, by rw [e]; simp, rfl⟩
      · exact ⟨a, by rw [e]; simp [ha], rfl⟩
    obtain ⟨a, ha, rfl⟩ := hb'
    have hr := h a ha
    have ha256 : a < 256 := by omega
    rw [Nat.mod_eq_of_lt ha256]
    obtain ⟨-, c1, -, -, -, c5, -⟩ := byte_class a ha256
    rcases hr with hr | hr
    · exact c1 hr.1 (by omega)
    · exact c5 hr.1
  rw [hall _ hmem] at hlead
  omega

/-! ## Assembling a value from the payload bits -/

theorem and_63 (b : Nat) : b &&& 0x3F = b % 64 := Nat.and_pow_two_sub_one_eq_mod b 6

theorem and_31 (b : Nat) : b &&& 0x1F = b % 32 := Nat.and_pow_two_sub_one_eq_mod b 5

theorem and_15 (b : Nat) : b &&& 0x0F = b % 16 := Nat.and_pow_two_sub_one_eq_mod b 4

theorem and_7 (b : Nat) : b &&& 0x07 = b % 8 := Nat.and_pow_two_sub_one_eq_mod b 3

theorem assemble2 (x y : Nat) (hy : y < 64) : (x <<< 6) ||| y = x * 64 + y := by
  have h := Nat.mul_add_lt_is_or (show y < 2 ^ 6 by omega) x
  rw [Nat.shiftLeft_eq, Nat.mul_comm x (2 ^ 6), ← h]

theorem assemble3 (x y z : Nat) (hy : y < 64) (hz : z < 64) :
    (x <<< 12) ||| (y <<< 6) ||| z = x * 4096 + y * 64 + z := by
  have h1 := Nat.mul_add_lt_is_or (show y * 64 < 2 ^ 12 by omega) x
  have h2 := Nat.mul_add_lt_is_or (show z < 2 ^ 6 by omega) (x * 64 + y)
  have e1 : x <<< 12 = 2 ^ 12 * x := by rw [Nat.shiftLeft_eq, Nat.mul_comm]
  have e2 : y <<< 6 = y * 64 := by rw [Nat.shiftLeft_eq]
  have e3 : 2 ^ 12 * x + y * 64 = 2 ^ 6 * (x * 64 + y) := by omega
  rw [e1, e2, ← h1, e3, ← h2]
  omega

theorem assemble4 (x y z w : Nat) (hy : y < 64) (hz : z < 64) (hw : w < 64) :
    (x <<< 18) ||| (y <<< 12) ||| (z <<< 6) ||| w = x * 262144 + y * 4096 + z * 64 + w := by
  have h1 := Nat.mul_add_lt_is_or (show y * 4096 < 2 ^ 18 by omega) x
  have h2 := Nat.mul_add_lt_is_or (show z * 64 < 2 ^ 12 by omega) (x * 64 + y)
  have h3 := Nat.mul_add_lt_is_or (show w < 2 ^ 6 by omega) (x * 4096 + y * 64 + z)
  have e1 : x <<< 18 = 2 ^ 18 * x := by rw [Nat.shiftLeft_eq, Nat.mul_comm]
  have e2 : y <<< 12 = y * 4096 := by rw [Nat.shiftLeft_eq]
  have e3 : z <<< 6 = z * 64 := by rw [Nat.shiftLeft_eq]
  have e4 : 2 ^ 18 * x + y * 4096 = 2 ^ 12 * (x * 64 + y) := by omega
  have e5 : 2 ^ 12 * (x * 64 + y) + z * 64 = 2 ^ 6 * (x * 4096 + y * 64 + z) := by omega
  rw [e1, e2, e3, ← h1, e4, ← h2, e5, ← h3]
  omega

/-- The result on a two-byte sequence, in arithmetic form. -/
theorem decode2 (bytes : Nat → Nat) (h0 : bytes 0 < 256) (h1 : bytes 1 < 256)
    (hl : bytes 0 / 32 = 6) (c1 : bytes 1 / 64 = 2) :
    utf8_to_unicode bytes = (((bytes 0 % 32 * 64 + bytes 1 % 64 : Nat) : Int), 2) := by
  obtain ⟨a0, a1, -⟩ := byte_masks _ h0
  obtain ⟨-, -, -, -, m1⟩ := byte_masks _ h1
  have n0 : ¬ (bytes 0 &&& 0x80 = 0) := fun h => by have := a0.1 h; omega
  unfold utf8_to_unicode
  rw [if_neg n0, if_pos (a1.2 hl), if_neg (not_not.2 (m1.2 c1)), and_31, and_63,
    assemble2 _ _ (Nat.mod_lt _ (by omega))]

/-- The result on a three-byte sequence, in arithmetic form. -/
theorem decode3 (bytes : Nat → Nat) (h0 : bytes 0 < 256) (h1 : bytes 1 < 256)
    (h2 : bytes 2 < 256) (hl : bytes 0 / 16 = 14) (c1 : bytes 1 / 64 = 2)
    (c2 : bytes 2 / 64 = 2) :
    utf8_to_unicode bytes
      = (((bytes 0 % 16 * 4096 + bytes 1 % 64 * 64 + bytes 2 % 64 : Nat) : Int), 3) := by
  obtain ⟨a0, a1, a2, -⟩ := byte_masks _ h0
  obtain ⟨-, -, -, -, m1⟩ := byte_masks _ h1
  obtain ⟨-, -, -, -, m2⟩ := byte_masks _ h2
  have n0 : ¬ (bytes 0 &&& 0x80 = 0) := fun h => by have := a0.1 h; omega
  have n1 : ¬ (bytes 0 &&& 0xE0 = 0xC0) := fun h => by have := a1.1 h; omega
  have nc : ¬ (bytes 1 &&& 0xC0 ≠ 0x80 ∨ bytes 2 &&& 0xC0 ≠ 0x80) := by
    rintro (h | h)
    · exact h (m1.2 c1)
    · exact h (m2.2 c2)
  unfold utf8_to_unicode
  rw [if_neg n0, if_neg n1, if_pos (a2.2 hl), if_neg nc, and_15, and_63, and_63,
    assemble3 _ _ _ (Nat.mod_lt _ (by omega)) (Nat.mod_lt _ (by omega))]

/-- The result on a four-byte sequence, in arithmetic form. -/
theorem decode4 (bytes : Nat → Nat) (h0 : bytes 0 < 256) (h1 : bytes 1 < 256)
    (h2 : bytes 2 < 256) (h3 : bytes 3 < 256) (hl : bytes 0 / 8 = 30) (c1 : bytes 1 / 64 = 2)
    (c2 : bytes 2 / 64 = 2) (c3 : bytes 3 / 64 = 2) :
    utf8_to_unicode bytes
      = (((bytes 0 % 8 * 262144 + bytes 1 % 64 * 4096 + bytes 2 % 64 * 64 + bytes 3 % 64 : Nat)
          : Int), 4) := by
  obtain ⟨a0, a1, a2, a3, -⟩ := byte_masks _ h0
  obtain ⟨-, -, -, -, m1⟩ := byte_masks _ h1
  obtain ⟨-, -, -, -, m2⟩ := byte_masks _ h2
  obtain ⟨-, -, -, -, m3⟩ := byte_masks _ h3
  have n0 : ¬ (bytes 0 &&& 0x80 = 0) := fun h => by have := a0.1 h; omega
  have n1 : ¬ (bytes 0 &&& 0xE0 = 0xC0) := fun h => by have := a1.1 h; omega
  have n2 : ¬ (bytes 0 &&& 0xF0 = 0xE0) := fun h => by have := a2.1 h; omega
  have nc : ¬ (bytes 1 &&& 0xC0 ≠ 0x80 ∨ bytes 2 &&& 0xC0 ≠ 0x80 ∨ bytes 3 &&& 0xC0 ≠ 0x80) := by
    rintro (h | h | h)
    · exact h (m1.2 c1)
    · exact h (m2.2 c2)
    · exact h (m3.2 c3)
  unfold utf8_to_unicode
  rw [if_neg n0, if_neg n1, if_neg n2, if_pos (a3.2 hl), if_neg nc, and_7, and_63, and_63,
    and_63, assemble4 _ _ _ _ (Nat.mod_lt _ (by omega)) (Nat.mod_lt _ (by omega))
      (Nat.mod_lt _ (by omega))]

/-- Decoding the standard encoding of a scalar value gives the value back, with
the length of the encoding as count, whatever follows the encoding. -/
theorem decode_encode (c : Nat) (hc : c ≤ 0x10FFFF) (bytes : Nat → Nat)
    (hb : ∀ k, k < (utf8_encode c).length → bytes k = (utf8_encode c).getD k 0) :
    utf8_to_unicode bytes = ((c : Int), (utf8_encode c).length) := by
  unfold utf8_encode at hb ⊢
  by_cases r1 : c < 0x80
  · simp only [r1, if_true, List.length_singleton] at hb ⊢
    have e0 : bytes 0 = c := by simpa using hb 0 (by omega)
    have hm : bytes 0 &&& 0x80 = 0 := by
      rw [e0]; exact (byte_masks c (by omega)).1.2 (by omega)
    rw [utf8_to_unicode_ascii _ hm, e0]
  · by_cases r2 : c < 0x800
    · simp only [r1, r2, if_true, if_false, List.length_cons, List.length_nil] at hb ⊢
      have e0 : bytes 0 = 0xC0 + c / 64 := by simpa using hb 0 (by omega)
      have e1 : bytes 1 = 0x80 + c % 64 := by simpa using hb 1 (by omega)
      rw [decode2 bytes (by omega) (by omega) (by omega) (by omega), e0, e1]
      simp only [Nat.zero_add, Prod.mk.injEq, and_true, Nat.cast_inj]
      omega
    · by_cases r3 : c < 0x10000
      · simp only [r1, r2, r3, if_true, if_false, List.length_cons, List.length_nil] at hb ⊢
        have e0 : bytes 0 = 0xE0 + c / 4096 := by simpa using hb 0 (by omega)
        have e1 : bytes 1 = 0x80 + c / 64 % 64 := by simpa using hb 1 (by omega)
        have e2 : bytes 2 = 0x80 + c % 64 := by simpa using hb 2 (by omega)
        rw [decode3 bytes (by omega) (by omega) (by omega) (by omega) (by omega) (by omega),
          e0, e1, e2]
        simp only [Nat.zero_add, Prod.mk.injEq, and_true, Nat.cast_inj]
        omega
      · simp only [r1, r2, r3, if_false, List.length_cons, List.length_nil] at hb ⊢
        have e0 : bytes 0 = 0xF0 + c / 262144 := by simpa using hb 0 (by omega)
        have e1 : bytes 1 = 0x80 + c / 4096 % 64 := by simpa using hb 1 (by omega)
        have e2 : bytes 2 = 0x80 + c / 64 % 64 := by simpa using hb 2 (by omega)
        have e3 : bytes 3 = 0x80 + c % 64 := by simpa using hb 3 (by omega)
        rw [decode4 bytes (by omega) (by omega) (by omega) (by omega) (by omega) (by omega)
          (by omega) (by omega), e0, e1, e2, e3]
        simp only [Nat.zero_add, Prod.mk.injEq, and_true, Nat.cast_inj]
        omega

/-! ## Lead bytes, continuation bytes and the window accepted -/

theorem leadLen_of_isCont (b : Nat) (hb : b < 256) (h : isCont b) : leadLen b = 0 := by
  obtain ⟨-, c1, -, -, -, -, c6⟩ := byte_class b hb
  have := c6.1 h
  exact c1 this.1 this.2

/-- The shape of an accepted window in the bytes read: its first byte announces
its length and all its other bytes are continuation bytes. -/
theorem accepted_shape (st : ScanState) (recent : List Nat) (hH : Holds st recent)
    (ch len : Nat) (u : Int) (ha : acceptedAt st ch = some (len, u)) :
    1 ≤ len ∧ len ≤ 4 ∧ len ≤ st.buffer_pos + 1 ∧
    leadLen ((ch % 256 :: recent).getD (len - 1) 0) = len ∧
    ∀ i, i + 1 < len → isCont ((ch % 256 :: recent).getD i 0) := by
  obtain ⟨h1, h2, h3, h4, -⟩ := (acceptedAt_iff st recent hH ch len u).1 ha
  obtain ⟨g0, g1, g2, g3⟩ := (count_eq_iff _ len h1).1 h4
  refine ⟨h1, h2, h3, g0, ?_⟩
  intro i hi
  have hk : (len - 1 - 1 = i ∧ 2 ≤ len) ∨ (len - 1 - 2 = i ∧ 3 ≤ len) ∨
      (len - 1 - 3 = i ∧ 4 ≤ len) := by omega
  rcases hk with ⟨e, hl⟩ | ⟨e, hl⟩ | ⟨e, hl⟩
  · have := g1 hl
    unfold recentBytes at this
    rw [e] at this
    exact this
  · have := g2 hl
    unfold recentBytes at this
    rw [e] at this
    exact this
  · have := g3 hl
    unfold recentBytes at this
    rw [e] at this
    exact this

/-- A lead byte of a multi-byte character is not accepted when it is read. -/
theorem reject_lead (st : ScanState) (recent : List Nat) (hH : Holds st recent)
    (L m : Nat) (hL : L < 256) (hm : leadLen L = m) (h2 : 2 ≤ m) :
    acceptedAt st L = none ∧ Pending (L :: recent) 0 m := by
  have hmod : L % 256 = L := Nat.mod_eq_of_lt hL
  have hnc : ¬ isCont L := fun hc => by
    have := leadLen_of_isCont L hL hc
    omega
  refine ⟨?_, ?_⟩
  · cases ha : acceptedAt st L with
    | none => rfl
    | some r =>
      obtain ⟨len, u⟩ := r
      obtain ⟨h1, -, -, hl, hc⟩ := accepted_shape st recent hH L len u ha
      rw [hmod] at hl hc
      by_cases e : len = 1
      · subst e
        simp only [Nat.sub_self, List.getD_cons_zero] at hl
        omega
      · have := hc 0 (by omega)
        simp only [List.getD_cons_zero] at this
        exact absurd this hnc
  · refine ⟨by simpa using hm, by simpa using hnc, fun k hk => by omega⟩

/-- A continuation byte that does not complete the character under way is not
accepted. -/
theorem reject_cont (st : ScanState) (recent : List Nat) (hH : Holds st recent)
    (j m : Nat) (hP : Pending recent j m) (ch : Nat) (hch : ch < 256) (hc : isCont ch)
    (hj : j + 2 < m) :
    acceptedAt st ch = none ∧ Pending (ch :: recent) (j + 1) m := by
  have hmod : ch % 256 = ch := Nat.mod_eq_of_lt hch
  obtain ⟨p1, p2, p3⟩ := hP
  refine ⟨?_, ?_⟩
  · cases ha : acceptedAt st ch with
    | none => rfl
    | some r =>
      obtain ⟨len, u⟩ := r
      obtain ⟨h1, -, -, hl, hcs⟩ := accepted_shape st recent hH ch len u ha
      rw [hmod] at hl hcs
      by_cases e : len = 1
      · subst e
        simp only [Nat.sub_self, List.getD_cons_zero] at hl
        have := leadLen_of_isCont ch hch hc
        omega
      · obtain ⟨i, hi⟩ : ∃ i, len - 1 = i + 1 := ⟨len - 2, by omega⟩
        rw [hi, List.getD_cons_succ] at hl
        by_cases c1 : i < j
        · have := (p3 i c1).2
          omega
        · by_cases c2 : i = j
          · subst c2
            omega
          · have := hcs (j + 1) (by omega)
            rw [List.getD_cons_succ] at this
            exact absurd this p2
  · refine ⟨by simpa using p1, by simpa using p2, ?_⟩
    intro k hk
    cases k with
    | zero => exact ⟨by simpa using hc, by simpa using leadLen_of_isCont ch hch hc⟩
    | succ k => simpa using p3 k (by omega)

/-- The continuation byte that completes the character under way makes the
whole character the accepted window. -/
theorem accept_final (st : ScanState) (recent : List Nat) (hH : Holds st recent)
    (j m : Nat) (hP : Pending recent j m) (ch : Nat) (hch : ch < 256) (hc : isCont ch)
    (hj : j + 2 = m) (hm : m ≤ 4) (hpos : j + 1 ≤ st.buffer_pos) :
    acceptedAt st ch = some (m, (utf8_to_unicode (recentBytes (ch :: recent) m)).1) ∧
    (utf8_to_unicode (recentBytes (ch :: recent) m)).2 = m := by
  have hmod : ch % 256 = ch := Nat.mod_eq_of_lt hch
  obtain ⟨p1, p2, p3⟩ := hP
  have hconts : ∀ i, i ≤ j → isCont ((ch :: recent).getD i 0) ∧
      leadLen ((ch :: recent).getD i 0) = 0 := by
    intro i hi
    cases i with
    | zero => exact ⟨by simpa using hc, by simpa using leadLen_of_isCont ch hch hc⟩
    | succ i => simpa using p3 i (by omega)
  have hcount : (utf8_to_unicode (recentBytes (ch :: recent) m)).2 = m := by
    rw [count_eq_iff _ m (by omega)]
    refine ⟨?_, ?_, ?_, ?_⟩
    · rw [recentBytes_zero]
      have e : m - 1 = j + 1 := by omega
      rw [e, List.getD_cons_succ]
      exact p1
    · intro _
      exact (hconts (m - 1 - 1) (by omega)).1
    · intro _
      exact (hconts (m - 1 - 2) (by omega)).1
    · intro _
      exact (hconts (m - 1 - 3) (by omega)).1
  refine ⟨?_, hcount⟩
  rw [acceptedAt_iff st recent hH, hmod]
  refine ⟨by omega, hm, by omega, hcount, rfl, ?_⟩
  intro l hl1 hl2 hcl
  have := ((count_eq_iff _ l hl1).1 hcl).1
  rw [recentBytes_zero, (hconts (l - 1) (by omega)).2] at this
  omega

/-- Continuation bytes that leave the character under way incomplete are read
without any window being accepted, and stay in the rolling buffer. -/
theorem scan_pending (cs : List Nat) :
    ∀ (st : ScanState) (recent : List Nat) (j m : Nat), Holds st recent → Pending recent j m →
      (∀ b ∈ cs, b < 256 ∧ isCont b) → j + 1 + cs.length < m →
      acceptedValues st cs = [] ∧ Holds (scan st cs) (cs.reverse ++ recent) ∧
      Pending (cs.reverse ++ recent) (j + cs.length) m ∧
      (st.buffer_pos + cs.length < 4 →
        (scan st cs).buffer_pos = st.buffer_pos + cs.length) := by
  induction cs with
  | nil =>
    intro st recent j m hH hP _ _
    exact ⟨rfl, by simpa [scan] using hH, by simpa using hP, fun _ => rfl⟩
  | cons x xs ih =>
    intro st recent j m hH hP hcs hlen
    have hx := hcs x (List.mem_cons_self _ _)
    simp only [List.length_cons] at hlen
    obtain ⟨hnone, hP'⟩ := reject_cont st recent hH j m hP x hx.1 hx.2 (by omega)
    have hH' : Holds (scanByte st x) (x :: recent) := by
      have := holds_scanByte st recent x hH
      rwa [Nat.mod_eq_of_lt hx.1] at this
    obtain ⟨i1, i2, i3, i4⟩ := ih (scanByte st x) (x :: recent) (j + 1) m hH' hP'
      (fun b hb => hcs b (List.mem_cons_of_mem _ hb)) (by omega)
    refine ⟨?_, ?_, ?_, ?_⟩
    · rw [acceptedValues, hnone]
      exact i1
    · rw [scan_cons]
      simpa using i2
    · have e : j + (x :: xs).length = j + 1 + xs.length := by
        simp only [List.length_cons]; omega
      rw [e]
      simpa using i3
    · intro hp
      simp only [List.length_cons] at hp ⊢
      rw [scan_cons, i4 (by rw [scanByte_pos_none st x hnone]; split <;> omega),
        scanByte_pos_none st x hnone, if_neg (by omega)]
      omega

/-! ## Standard encodings under the scan -/

theorem isCont_of_range (b : Nat) (h1 : 0x80 ≤ b) (h2 : b < 0xC0) : isCont b :=
  (byte_class b (by omega)).2.2.2.2.2.2.2 ⟨h1, h2⟩

/-- The encoding of a value above `0x7F` is a lead byte announcing the length of
the encoding, followed by one to three continuation bytes. -/
theorem utf8_encode_multibyte (c : Nat) (h1 : 0x80 ≤ c) (h2 : c ≤ 0x10FFFF) :
    ∃ L init last, utf8_encode c = L :: (init ++ [last]) ∧ L < 256 ∧
      leadLen L = init.length + 2 ∧ init.length + 2 ≤ 4 ∧
      (∀ b ∈ init, b < 256 ∧ isCont b) ∧ last < 256 ∧ isCont last := by
  unfold utf8_encode
  have r1 : ¬ c < 0x80 := by omega
  by_cases r2 : c < 0x800
  · refine ⟨0xC0 + c / 64, [], 0x80 + c % 64, by simp only [r1, r2, if_true, if_false]; rfl,
      by omega, ?_, by simp, by simp, by omega, isCont_of_range _ (by omega) (by omega)⟩
    exact (byte_class _ (by omega)).2.2.1 (by omega) (by omega)
  · by_cases r3 : c < 0x10000
    · refine ⟨0xE0 + c / 4096, [0x80 + c / 64 % 64], 0x80 + c % 64,
        by simp only [r1, r2, r3, if_true, if_false]; rfl, by omega, ?_, by simp, ?_,
        by omega, isCont_of_range _ (by omega) (by omega)⟩
      · exact (byte_class _ (by omega)).2.2.2.1 (by omega) (by omega)
      · intro b hb
        rw [List.mem_singleton] at hb
        subst hb
        exact ⟨by omega, isCont_of_range _ (by omega) (by omega)⟩
    · refine ⟨0xF0 + c / 262144, [0x80 + c / 4096 % 64, 0x80 + c / 64 % 64], 0x80 + c % 64,
        by simp only [r1, r2, r3, if_false]; rfl, by omega, ?_, by simp, ?_,
        by omega, isCont_of_range _ (by omega) (by omega)⟩
      · exact (byte_class _ (by omega)).2.2.2.2.1 (by omega) (by omega)
      · intro b hb
        simp only [List.mem_cons, List.mem_singleton, List.not_mem_nil, or_false] at hb
        rcases hb with rfl | rfl
        · exact ⟨by omega, isCont_of_range _ (by omega) (by omega)⟩
        · exact ⟨by omega, isCont_of_range _ (by omega) (by omega)⟩

/-- A non-empty proper prefix of the encoding of a multi-byte value is read
without any window being accepted. -/
theorem acceptedValues_truncated (st : ScanState) (recent : List Nat) (hH : Holds st recent)
    (c n : Nat) (h1 : 0x80 ≤ c) (h2 : c ≤ 0x10FFFF) (hn : 0 < n)
    (hlt : n < (utf8_encode c).length) :
    acceptedValues st ((utf8_encode c).take n) = [] := by
  obtain ⟨L, init, last, he, hL, hm, -, hinit, hlast, hlc⟩ := utf8_encode_multibyte c h1 h2
  rw [he] at hlt ⊢
  obtain ⟨k, rfl⟩ : ∃ k, n = k + 1 := ⟨n - 1, by omega⟩
  simp only [List.length_cons, List.length_append, List.length_nil] at hlt
  rw [List.take_succ_cons, acceptedValues]
  obtain ⟨hnone, hP⟩ := reject_lead st recent hH L _ hL hm (by omega)
  rw [hnone]
  have hH' : Holds (scanByte st L) (L :: recent) := by
    have := holds_scanByte st recent L hH
    rwa [Nat.mod_eq_of_lt hL] at this
  have hk : (init ++ [last]).take k = init.take k := by
    rw [List.take_append_of_le_length (by omega)]
  rw [hk]
  refine (scan_pending (init.take k) (scanByte st L) (L :: recent) 0 _ hH' hP ?_ ?_).1
  · intro b hb
    exact hinit b (List.mem_of_mem_take hb)
  · rw [List.length_take]
    omega

/-- A complete multi-byte sequence read with an empty rolling buffer is accepted
when its last byte is read, and leaves the rolling buffer empty. -/
theorem scan_sequence (st : ScanState) (hp : st.buffer_pos = 0) (L : Nat) (init : List Nat)
    (last : Nat) (hL : L < 256) (hm : leadLen L = init.length + 2) (h4 : init.length + 2 ≤ 4)
    (hinit : ∀ b ∈ init, b < 256 ∧ isCont b) (hlast : last < 256) (hlc : isCont last) :
    acceptedValues st (L :: (init ++ [last]))
      = [(utf8_to_unicode (fun k => (L :: (init ++ [last])).getD k 0)).1] ∧
    (utf8_to_unicode (fun k => (L :: (init ++ [last])).getD k 0)).2 = init.length + 2 ∧
    (scan st (L :: (init ++ [last]))).buffer_pos = 0 := by
  have hH : Holds st [] := holds_of_pos_zero st [] hp
  obtain ⟨hnone, hP⟩ := reject_lead st [] hH L _ hL hm (by omega)
  have hH1 : Holds (scanByte st L) [L] := by
    have := holds_scanByte st [] L hH
    rwa [Nat.mod_eq_of_lt hL] at this
  have hp1 : (scanByte st L).buffer_pos = 1 := by
    rw [scanByte_pos_none st L hnone, hp]
    rfl
  obtain ⟨i1, i2, i3, i4⟩ := scan_pending init (scanByte st L) [L] 0 _ hH1 hP hinit (by omega)
  have hp2 : (scan (scanByte st L) init).buffer_pos = 1 + init.length := by
    rw [i4 (by omega), hp1]
  obtain ⟨hacc, hcount⟩ := accept_final (scan (scanByte st L) init) (init.reverse ++ [L]) i2
    (0 + init.length) _ i3 last hlast hlc (by omega) h4 (by omega)
  have hbytes : ∀ k, k < init.length + 2 →
      (fun k => (L :: (init ++ [last])).getD k 0) k
        = recentBytes (last :: (init.reverse ++ [L])) (init.length + 2) k := by
    intro k hk
    have e : last :: (init.reverse ++ [L]) = (L :: (init ++ [last])).reverse := by simp
    have hlen : (L :: (init ++ [last])).length = init.length + 2 := by simp
    have hk1 : k < (L :: (init ++ [last])).length := by omega
    have hk2 : init.length + 2 - 1 - k < (L :: (init ++ [last])).reverse.length := by
      rw [List.length_reverse]; omega
    show (L :: (init ++ [last])).getD k 0 = (last :: (init.reverse ++ [L])).getD _ 0
    rw [e, List.getD_eq_getElem _ _ hk1, List.getD_eq_getElem _ _ hk2, List.getElem_reverse]
    congr 1
    omega
  have hcongr := utf8_to_unicode_congr _ _ (init.length + 2) (by omega) hcount hbytes
  refine ⟨?_, by rw [hcongr]; exact hcount, ?_⟩
  · rw [acceptedValues, hnone, acceptedValues_append, i1, List.nil_append, acceptedValues,
      hacc, hcongr]
    rfl
  · rw [scan_cons, scan_append, scan_cons]
    show (scanByte (scan (scanByte st L) init) last).buffer_pos = 0
    rw [scanByte_pos_some _ _ _ _ hacc, hp2]
    have e : 1 + init.length + 1 - (init.length + 2) = 0 := by omega
    rw [e]
    rfl

/-- The encoding of one scalar value read with an empty rolling buffer is
accepted as that value, and leaves the rolling buffer empty. -/
theorem scan_char (st : ScanState) (hp : st.buffer_pos = 0) (c : Nat) (hc : c ≤ 0x10FFFF) :
    acceptedValues st (utf8_encode c) = [(c : Int)] ∧
    (scan st (utf8_encode c)).buffer_pos = 0 := by
  by_cases r1 : c < 0x80
  · have e : utf8_encode c = [c] := by simp [utf8_encode, r1]
    have ha := acceptedAt_ascii st c hp r1
    rw [e]
    refine ⟨by rw [acceptedValues, ha]; rfl, ?_⟩
    show (scanByte st c).buffer_pos = 0
    rw [scanByte_pos_some st c 1 _ ha, hp]
    rfl
  · obtain ⟨L, init, last, he, hL, hm, h4, hinit, hlast, hlc⟩ :=
      utf8_encode_multibyte c (by omega) hc
    obtain ⟨s1, -, s3⟩ := scan_sequence st hp L init last hL hm h4 hinit hlast hlc
    have hd := decode_encode c hc (fun k => (utf8_encode c).getD k 0) (fun k _ => rfl)
    rw [he] at hd
    rw [he, s1, hd]
    exact ⟨rfl, s3⟩

/-- Scanning the encodings of a list of scalar values from an empty rolling
buffer accepts exactly these values, in order. -/
theorem scan_encode_all (cs : List Nat) :
    ∀ st : ScanState, st.buffer_pos = 0 → (∀ c ∈ cs, c ≤ 0x10FFFF) →
      acceptedValues st (utf8_encode_all cs) = cs.map (fun c : Nat => (c : Int)) ∧
      (scan st (utf8_encode_all cs)).buffer_pos = 0 := by
  induction cs with
  | nil =>
    intro st hp _
    exact ⟨rfl, hp⟩
  | cons c cs ih =>
    intro st hp h
    obtain ⟨a1, a2⟩ := scan_char st hp c (h c (List.mem_cons_self _ _))
    obtain ⟨b1, b2⟩ := ih (scan st (utf8_encode c)) a2
      (fun x hx => h x (List.mem_cons_of_mem _ hx))
    rw [utf8_encode_all, acceptedValues_append, scan_append, a1, b1]
    exact ⟨rfl, b2⟩

/-! ## Accepted windows as runs of input bytes -/

theorem map_mod_eq (xs : List Nat) (h : ∀ b ∈ xs, b < 256) : xs.map (· % 256) = xs := by
  induction xs with
  | nil => rfl
  | cons x xs ih =>
    rw [List.map_cons, ih (fun b hb => h b (List.mem_cons_of_mem _ hb)),
      Nat.mod_eq_of_lt (h x (List.mem_cons_self _ _))]

/-- Every accepted value is the decode of a run of consecutive input bytes, with
the length of the run as byte count. -/
theorem accepted_infix (buffer0 : Nat → Nat) (input : List Nat) (hb : ∀ b ∈ input, b < 256)
    (u : Int) (hu : u ∈ acceptedValues (initState buffer0) input) :
    ∃ w, w <:+: input ∧ 1 ≤ w.length ∧
      utf8_to_unicode (fun k => w.getD k 0) = (u, w.length) := by
  obtain ⟨pre, ch, post, len, e, ha⟩ := mem_acceptedValues _ _ _ hu
  have hH := holds_scan (initState buffer0) [] pre (holds_of_pos_zero _ _ rfl)
  obtain ⟨h1, h2, h3, h4, h5, -⟩ := (acceptedAt_iff _ _ hH ch len u).1 ha
  have hle := holds_pos_le _ _ hH
  have hpre : ∀ b ∈ pre, b < 256 := fun b hb' => hb b (by rw [e]; simp [hb'])
  have hch : ch < 256 := hb ch (by rw [e]; simp)
  have hr : ch % 256 :: ((pre.map (· % 256)).reverse ++ []) = (pre ++ [ch]).reverse := by
    rw [map_mod_eq pre hpre, Nat.mod_eq_of_lt hch]
    simp
  rw [hr] at h4 h5
  have hlen : len ≤ (pre ++ [ch]).length := by
    simp only [List.length_append, List.length_reverse, List.length_map, List.length_nil,
      List.length_singleton, Nat.add_zero] at hle ⊢
    omega
  refine ⟨(pre ++ [ch]).drop ((pre ++ [ch]).length - len), ?_, ?_, ?_⟩
  · refine (List.drop_suffix _ _).isInfix.trans ?_
    rw [e]
    exact ⟨[], post, by simp⟩
  · rw [List.length_drop]
    omega
  · have hwl : ((pre ++ [ch]).drop ((pre ++ [ch]).length - len)).length = len := by
      rw [List.length_drop]
      omega
    rw [hwl]
    have hbytes : ∀ k, k < len →
        (fun k => ((pre ++ [ch]).drop ((pre ++ [ch]).length - len)).getD k 0) k
          = recentBytes (pre ++ [ch]).reverse len k := by
      intro k hk
      show ((pre ++ [ch]).drop ((pre ++ [ch]).length - len)).getD k 0
        = (pre ++ [ch]).reverse.getD (len - 1 - k) 0
      rw [List.getD_eq_getElem?_getD, List.getD_eq_getElem?_getD, List.getElem?_drop,
        List.getElem?_reverse (by omega)]
      congr 2
      omega
    rw [utf8_to_unicode_congr _ _ len h1 h4 hbytes, h5]
    exact Prod.ext rfl h4

set_option maxRecDepth 100000 in
/-- What a byte is when a mask test classifies it. -/
theorem byte_class_inv : ∀ b < 256,
    (leadLen b = 1 → b < 0x80) ∧ (leadLen b = 2 → b / 32 = 6) ∧ (leadLen b = 3 → b / 16 = 14) ∧
    (leadLen b = 4 → b / 8 = 30) ∧ (isCont b → b / 64 = 2) := by
  decide

theorem getD_lt_256 (w : List Nat) (h : ∀ b ∈ w, b < 256) (k : Nat) : w.getD k 0 < 256 := by
  by_cases hk : k < w.length
  · rw [List.getD_eq_getElem _ _ hk]
    exact h _ (List.getElem_mem hk)
  · rw [List.getD_eq_default _ _ (by omega)]
    omega

/-- The encoding of a code point of the block has three bytes. -/
theorem utf8_encode_hanzi (c : Nat) (h1 : 0x4E00 ≤ c) (h2 : c ≤ 0x9FFF) :
    utf8_encode c = [0xE0 + c / 4096, 0x80 + c / 64 % 64, 0x80 + c % 64] := by
  unfold utf8_encode
  rw [if_neg (by omega), if_neg (by omega), if_pos (by omega)]

/-- An input without any byte from `0xE4` to `0xE9` contains no encoding of a code
point of the block. -/
theorem no_hanzi_encoding_infix (input : List Nat) (h : ∀ b ∈ input, b < 0xE4 ∨ 0xE9 < b)
    (c : Nat) (h1 : 0x4E00 ≤ c) (h2 : c ≤ 0x9FFF) : ¬ (utf8_encode c <:+: input) := by
  intro hinf
  have hm : 0xE0 + c / 4096 ∈ utf8_encode c := by
    rw [utf8_encode_hanzi c h1 h2]
    exact List.mem_cons_self _ _
  have := h _ (hinf.subset hm)
  omega

/-- A run of input bytes that decodes with its length as byte count does not
decode to a code point of the block, when the input contains neither the
three-byte encoding of such a code point nor a four-byte sequence that assembles
to one. -/
theorem window_not_hanzi (input : List Nat) (hb : ∀ b ∈ input, b < 256)
    (h3 : ∀ c, 0x4E00 ≤ c → c ≤ 0x9FFF → ¬ (utf8_encode c <:+: input))
    (h4 : ∀ b0 b1 b2 b3, [b0, b1, b2, b3] <:+: input →
      b0 / 8 = 30 → b1 / 64 = 2 → b2 / 64 = 2 → b3 / 64 = 2 →
      ¬ (0x4E00 ≤ b0 % 8 * 262144 + b1 % 64 * 4096 + b2 % 64 * 64 + b3 % 64 ∧
         b0 % 8 * 262144 + b1 % 64 * 4096 + b2 % 64 * 64 + b3 % 64 ≤ 0x9FFF))
    (w : List Nat) (hw : w <:+: input) (u : Int)
    (hd : utf8_to_unicode (fun k => w.getD k 0) = (u, w.length)) :
    ¬ (is_hanzi u = true) := by
  have hwb : ∀ b ∈ w, b < 256 := fun b hm => hb b (hw.subset hm)
  have hlt : ∀ k, (fun k => w.getD k 0) k < 256 := fun k => getD_lt_256 w hwb k
  have hcount : (utf8_to_unicode (fun k => w.getD k 0)).2 = w.length := by rw [hd]
  have hle := count_le_four (fun k => w.getD k 0)
  rw [hcount] at hle
  rw [is_hanzi_iff]
  simp only [HANZI_START, HANZI_END]
  match w, hw, hd, hwb, hlt, hcount, hle with
  | [], _, hd, _, _, _, _ =>
    have := (utf8_to_unicode_count_zero_iff (fun k => ([] : List Nat).getD k 0)).1 (by rw [hd]; rfl)
    rw [hd] at this
    simp only at this
    omega
  | [b0], _, hd, _, hlt, hcount, _ =>
    obtain ⟨g0, -⟩ := (count_eq_iff (fun k => [b0].getD k 0) 1 (le_refl _)).1 hcount
    have k0 := (byte_class_inv _ (hlt 0)).1 g0
    have hm := (byte_masks _ (hlt 0)).1.2 (by omega)
    rw [utf8_to_unicode_ascii (fun k => [b0].getD k 0) hm] at hd
    have hu := congrArg Prod.fst hd
    simp only [List.getD_cons_zero] at hu k0
    omega
  | [b0, b1], _, hd, _, hlt, hcount, _ =>
    obtain ⟨g0, g1, -⟩ := (count_eq_iff (fun k => [b0, b1].getD k 0) 2 (by omega)).1 hcount
    have k0 := (byte_class_inv _ (hlt 0)).2.1 g0
    have k1 := (byte_class_inv _ (hlt 1)).2.2.2.2 (g1 (le_refl _))
    rw [decode2 (fun k => [b0, b1].getD k 0) (hlt 0) (hlt 1) k0 k1] at hd
    have hu := congrArg Prod.fst hd
    simp only [List.getD_cons_zero, List.getD_cons_succ] at hu
    omega
  | [b0, b1, b2], hw, hd, _, hlt, hcount, _ =>
    obtain ⟨g0, g1, g2, -⟩ := (count_eq_iff (fun k => [b0, b1, b2].getD k 0) 3 (by omega)).1 hcount
    have k0 := (byte_class_inv _ (hlt 0)).2.2.1 g0
    have k1 := (byte_class_inv _ (hlt 1)).2.2.2.2 (g1 (by omega))
    have k2 := (byte_class_inv _ (hlt 2)).2.2.2.2 (g2 (le_refl _))
    rw [decode3 (fun k => [b0, b1, b2].getD k 0) (hlt 0) (hlt 1) (hlt 2) k0 k1 k2] at hd
    have hu := congrArg Prod.fst hd
    have l0 := hlt 0
    have l1 := hlt 1
    have l2 := hlt 2
    simp only [List.getD_cons_zero, List.getD_cons_succ] at hu k0 k1 k2 l0 l1 l2
    intro hr
    have hx1 : 0x4E00 ≤ b0 % 16 * 4096 + b1 % 64 * 64 + b2 % 64 := by omega
    have hx2 : b0 % 16 * 4096 + b1 % 64 * 64 + b2 % 64 ≤ 0x9FFF := by omega
    refine h3 _ hx1 hx2 ?_
    rw [utf8_encode_hanzi _ hx1 hx2]
    have e0 : 0xE0 + (b0 % 16 * 4096 + b1 % 64 * 64 + b2 % 64) / 4096 = b0 := by omega
    have e1 : 0x80 + (b0 % 16 * 4096 + b1 % 64 * 64 + b2 % 64) / 64 % 64 = b1 := by omega
    have e2 : 0x80 + (b0 % 16 * 4096 + b1 % 64 * 64 + b2 % 64) % 64 = b2 := by omega
    rw [e0, e1, e2]
    exact hw
  | [b0, b1, b2, b3], hw, hd, _, hlt, hcount, _ =>
    obtain ⟨g0, g1, g2, g3⟩ := (count_eq_iff (fun k => [b0, b1, b2, b3].getD k 0) 4 (by omega)).1 hcount
    have k0 := (byte_class_inv _ (hlt 0)).2.2.2.1 g0
    have k1 := (byte_class_inv _ (hlt 1)).2.2.2.2 (g1 (by omega))
    have k2 := (byte_class_inv _ (hlt 2)).2.2.2.2 (g2 (by omega))
    have k3 := (byte_class_inv _ (hlt 3)).2.2.2.2 (g3 (le_refl _))
    rw [decode4 (fun k => [b0, b1, b2, b3].getD k 0) (hlt 0) (hlt 1) (hlt 2) (hlt 3) k0 k1 k2 k3] at hd
    have hu := congrArg Prod.fst hd
    simp only [List.getD_cons_zero, List.getD_cons_succ] at hu k0 k1 k2 k3
    have := h4 b0 b1 b2 b3 hw k0 k1 k2 k3
    intro hr
    apply this
    omega
  | _ :: _ :: _ :: _ :: _ :: _, _, _, _, _, _, hle =>
    simp only [List.length_cons] at hle
    omega

/-! ## The encoder: round trip, order, deltas -/

/-- Summation over the deltas of the indices `a .. a + n - 1`, started at the code
point before them, gives the code points at these indices. -/
theorem reconstruct_deltas (codes : List Int) (hs : codes.Pairwise (· < ·))
    (hr : ∀ c ∈ codes, HANZI_START ≤ c ∧ c ≤ HANZI_END) (n : Nat) :
    ∀ a, 1 ≤ a → a + n ≤ codes.length →
      reconstruct (codes.getD (a - 1) 0)
          ((List.range' a n).map (fun i => toShort (codes.getD i 0 - codes.getD (i - 1) 0)))
        = (List.range' a n).map (fun i => codes.getD i 0) := by
  induction n with
  | zero => intro a _ _; rfl
  | succ n ih =>
    intro a ha hlen
    have h1 : a - 1 < codes.length := by omega
    have h2 : a < codes.length := by omega
    have hlt : codes[a - 1] < codes[a] := (List.pairwise_iff_getElem.1 hs) (a - 1) a h1 h2 (by omega)
    have r1 := hr _ (List.getElem_mem h1)
    have r2 := hr _ (List.getElem_mem h2)
    simp only [HANZI_START, HANZI_END] at r1 r2
    have e : codes.getD (a - 1) 0 + toShort (codes.getD a 0 - codes.getD (a - 1) 0)
        = codes.getD a 0 := by
      rw [List.getD_eq_getElem _ _ h1, List.getD_eq_getElem _ _ h2,
        toShort_of_small _ (by omega) (by omega)]
      omega
    have ih' := ih (a + 1) (by omega) (by omega)
    rw [Nat.add_sub_cancel] at ih'
    rw [List.range'_succ, List.map_cons, List.map_cons, reconstruct, e, ih']

/-- Summation over the delta array started at the first code point of the list,
in place of the anchor, gives the list back. -/
theorem reconstruct_from_first (codes : List Int) (hs : codes.Pairwise (· < ·))
    (hr : ∀ c ∈ codes, HANZI_START ≤ c ∧ c ≤ HANZI_END) (hne : codes ≠ []) :
    reconstruct (codes.getD 0 0) (encodeOffsets codes) = codes := by
  have hpos : 0 < codes.length := List.length_pos.2 hne
  have h := reconstruct_deltas codes hs hr (codes.length - 1) 1 (le_refl _) (by omega)
  rw [encodeOffsets_eq, reconstruct, Int.add_zero]
  simp only [Nat.sub_self] at h
  rw [h]
  apply List.ext_getElem
  · simp only [List.length_cons, List.length_map, List.length_range']
    omega
  · intro i h1 h2
    cases i with
    | zero =>
      rw [List.getElem_cons_zero]
      exact List.getD_eq_getElem _ _ hpos
    | succ i =>
      simp only [List.getElem_cons_succ, List.getElem_map, List.getElem_range', Nat.mul_one]
      rw [List.getD_eq_getElem _ _ (by omega)]
      congr 1
      omega

/-- Summation over the delta array of a run started at the anchor `0x4E00` gives
the list back only when the first code point of the list is the anchor. -/
theorem roundtrip_needs_anchor (malloc_ok fopen_ok : Bool) (buffer0 : Nat → Nat)
    (input : List Nat) (codes offsets : List Int)
    (h : (main malloc_ok fopen_ok buffer0 input).output = some (codes, offsets))
    (hrt : reconstruct HANZI_START offsets = codes) : codes[0]? = some HANZI_START := by
  obtain ⟨-, -, ho⟩ := run_output malloc_ok fopen_ok buffer0 input codes offsets h
  rw [ho, encodeOffsets_eq, reconstruct, Int.add_zero] at hrt
  rw [← hrt]
  exact List.getElem?_cons_zero

/-- C1: on the input `中文AB中` the run reaches the encoding stage with the sorted
code point list `[0x4E2D, 0x6587]` and the delta array `[0, 5978]`, and cumulative
summation of these deltas starting at `0x4E00` yields `[0x4E00, 0x655A]`, which is
not the sorted code point list: the round trip from the anchor fails. -/
theorem roundtrip_from_anchor_fails :
    (main true true (fun _ => 0) sampleInput).output = some ([0x4E2D, 0x6587], [0, 5978]) ∧
    reconstruct HANZI_START [0, 5978] = [0x4E00, 0x655A] ∧
    reconstruct HANZI_START [0, 5978] ≠ [0x4E2D, 0x6587] := by
  refine ⟨by rw [run_sampleInput], by decide, by decide⟩

/-- C2: after the scan of any input, a code point occurs in the sorted code point
list iff it lies in `[0x4E00, 0x9FFF]` and is the value of an accepted decode; the
presence table entry `i` is set iff `i` is inside the table and `0x4E00 + i` is
the value of an accepted decode; and no code point occurs in the list twice. -/
theorem sorted_list_iff_observed (buffer0 : Nat → Nat) (input : List Nat) :
    (∀ c : Int, c ∈ collectCodes (scan (initState buffer0) input).hanzi_present ↔
      (HANZI_START ≤ c ∧ c ≤ HANZI_END) ∧ c ∈ acceptedValues (initState buffer0) input) ∧
    (∀ i : Nat, (scan (initState buffer0) input).hanzi_present i = true ↔
      i < 20992 ∧ HANZI_START + (i : Int) ∈ acceptedValues (initState buffer0) input) ∧
    (∀ c : Int, (collectCodes (scan (initState buffer0) input).hanzi_present).count c ≤ 1) :=
  ⟨fun c => mem_collectCodes_scan buffer0 input c,
   fun i => scan_init_present buffer0 input i,
   fun c => List.nodup_iff_count_le_one.1 (collectCodes_sorted _).nodup c⟩

/-- C3: when a run reaches the encoding stage, the sorted code point list is
strictly increasing and the first element of the delta array is 0. -/
theorem sorted_and_first_delta_zero (malloc_ok fopen_ok : Bool) (buffer0 : Nat → Nat)
    (input : List Nat) (codes offsets : List Int)
    (h : (main malloc_ok fopen_ok buffer0 input).output = some (codes, offsets)) :
    codes.Pairwise (· < ·) ∧ offsets[0]? = some 0 := by
  obtain ⟨-, hc, ho⟩ := run_output malloc_ok fopen_ok buffer0 input codes offsets h
  refine ⟨by rw [hc]; exact collectCodes_sorted _, ?_⟩
  rw [ho, encodeOffsets_eq]
  exact List.getElem?_cons_zero

/-- C3 on the input `中文AB中`. -/
theorem sorted_and_first_delta_zero_witness :
    (main true true (fun _ => 0) sampleInput).output = some ([0x4E2D, 0x6587], [0, 5978]) ∧
    ([0x4E2D, 0x6587] : List Int).Pairwise (· < ·) ∧ ([0, 5978] : List Int)[0]? = some 0 :=
  ⟨by rw [run_sampleInput],
   sorted_and_first_delta_zero true true (fun _ => 0) sampleInput [0x4E2D, 0x6587] [0, 5978]
     (by rw [run_sampleInput])⟩

/-- C4: when a run reaches the encoding stage, the delta array is as long as the
sorted code point list, and for every index `i > 0` its element `i`, the stored
16-bit value, is the exact difference of the code points `i` and `i - 1`, which
lies in the 16-bit range. -/
theorem deltas_are_exact_differences (malloc_ok fopen_ok : Bool) (buffer0 : Nat → Nat)
    (input : List Nat) (codes offsets : List Int)
    (h : (main malloc_ok fopen_ok buffer0 input).output = some (codes, offsets)) :
    offsets.length = codes.length ∧
    ∀ i, 0 < i → i < codes.length →
      ∃ a b, codes[i - 1]? = some a ∧ codes[i]? = some b ∧ offsets[i]? = some (b - a) ∧
        toShort (b - a) = b - a ∧ -32768 ≤ b - a ∧ b - a ≤ 32767 := by
  obtain ⟨hd, hc, ho⟩ := run_output malloc_ok fopen_ok buffer0 input codes offsets h
  have hne : codes ≠ [] := by rw [hc]; exact collectCodes_ne_nil buffer0 input hd
  have hs : codes.Pairwise (· < ·) := by rw [hc]; exact collectCodes_sorted _
  have hr : ∀ c ∈ codes, HANZI_START ≤ c ∧ c ≤ HANZI_END := by
    intro c hm
    rw [hc] at hm
    exact ((mem_collectCodes_scan buffer0 input c).1 hm).1
  refine ⟨by rw [ho]; exact encodeOffsets_length codes hne, ?_⟩
  intro i h0 hi
  obtain ⟨a, b, ha, hb, hlt, he⟩ := encodeOffsets_getElem codes hs hr i h0 hi
  have hra := hr a (List.getElem?_mem ha)
  have hrb := hr b (List.getElem?_mem hb)
  simp only [HANZI_START, HANZI_END] at hra hrb
  refine ⟨a, b, ha, hb, by rw [ho]; exact he, toShort_of_small _ (by omega) (by omega),
    by omega, by omega⟩

/-- C4 on the input `中文AB中`. -/
theorem deltas_are_exact_differences_witness :
    (main true true (fun _ => 0) sampleInput).output = some ([0x4E2D, 0x6587], [0, 5978]) ∧
    ([0, 5978] : List Int).length = ([0x4E2D, 0x6587] : List Int).length ∧
    ∀ i, 0 < i → i < ([0x4E2D, 0x6587] : List Int).length →
      ∃ a b, ([0x4E2D, 0x6587] : List Int)[i - 1]? = some a ∧
        ([0x4E2D, 0x6587] : List Int)[i]? = some b ∧
        ([0, 5978] : List Int)[i]? = some (b - a) ∧
        toShort (b - a) = b - a ∧ -32768 ≤ b - a ∧ b - a ≤ 32767 :=
  ⟨by rw [run_sampleInput],
   deltas_are_exact_differences true true (fun _ => 0) sampleInput [0x4E2D, 0x6587] [0, 5978]
     (by rw [run_sampleInput])⟩

/-! ## Inputs without any character of the block -/

/-- An input of ASCII bytes only: the accepted values are the bytes, none of them
in the block. -/
theorem ascii_counts (buffer0 : Nat → Nat) (input : List Nat) (h : ∀ b ∈ input, b < 0x80) :
    (scan (initState buffer0) input).total_chars = wrapInt (input.length : Nat) ∧
    (scan (initState buffer0) input).detected_hanzi_count = 0 := by
  obtain ⟨hv, -⟩ := scan_ascii (initState buffer0) input rfl h
  refine ⟨by rw [scan_init_total, hv, List.length_map], ?_⟩
  rw [scan_init_detected, hv]
  have : (input.map (fun b : Nat => (b : Int))).countP is_hanzi = 0 := by
    rw [List.countP_eq_zero]
    intro u hu
    obtain ⟨b, hb, rfl⟩ := List.mem_map.1 hu
    have := h b hb
    simp only [is_hanzi, HANZI_START, HANZI_END, decide_eq_true_eq]
    omega
  rw [this]
  decide

/-- C7, as stated, fails in two ways.  On the input of `2^31` bytes `0x41`, all
ASCII, the total-character count, an `int`, is not the input length `2^31` (the
model gives `-2^31`).  And on the input `中文AB中` with a failing `malloc` the
detected count is 3, not zero, but the run returns 1 and builds no delta array. -/
theorem ascii_total_exceeds_int :
    (∀ b ∈ List.replicate 2147483648 0x41, b < 0x80) ∧
    (scan (initState fun _ => 0) (List.replicate 2147483648 0x41)).total_chars = -2147483648 ∧
    (scan (initState fun _ => 0) (List.replicate 2147483648 0x41)).total_chars
      ≠ ((List.replicate 2147483648 0x41).length : Nat) ∧
    (scan (initState fun _ => 0) sampleInput).detected_hanzi_count = 3 ∧
    (main false true (fun _ => 0) sampleInput).exit_code = 1 ∧
    (main false true (fun _ => 0) sampleInput).output = none := by
  have hA : ∀ b ∈ List.replicate 2147483648 0x41, b < 0x80 := by
    intro b hb
    rw [List.eq_of_mem_replicate hb]
    decide
  have ht := (ascii_counts (fun _ => 0) _ hA).1
  rw [List.length_replicate] at ht
  have hw : wrapInt ((2147483648 : Nat) : Int) = -2147483648 := by decide
  rw [hw] at ht
  obtain ⟨-, hd, -, -⟩ := scan_sampleInput (fun _ => 0) acceptedValues_sampleInput
  have hm := (main_cases false true (fun _ => 0) sampleInput).2.2.2.1
    (by rw [hd]; decide) rfl
  refine ⟨hA, ht, ?_, hd, hm.1, hm.2.2⟩
  rw [ht, List.length_replicate]
  decide

/-- C7, amended: on an input of ASCII bytes only, the scan ends with the detected
count 0 and, when the input has fewer than `2^31` bytes, with the total-character
count equal to the input length; the run reports the empty result, returning 1
without building the arrays.  For every input and every behaviour of `malloc` and
of the `fopen` of the output file: the run passes the empty-result check iff the
detected count is not zero; it builds the delta array iff in addition `malloc`
succeeds; and it returns 0 iff in addition the output file is opened. -/
theorem ascii_only_empty_result (malloc_ok fopen_ok : Bool) (buffer0 : Nat → Nat)
    (input : List Nat) (h : ∀ b ∈ input, b < 0x80) :
    (input.length < 2147483648 →
      (scan (initState buffer0) input).total_chars = (input.length : Nat)) ∧
    (scan (initState buffer0) input).detected_hanzi_count = 0 ∧
    (main malloc_ok fopen_ok buffer0 input).total_chars
      = (scan (initState buffer0) input).total_chars ∧
    (main malloc_ok fopen_ok buffer0 input).detected_hanzi_count = 0 ∧
    (main malloc_ok fopen_ok buffer0 input).exit_code = 1 ∧
    (main malloc_ok fopen_ok buffer0 input).outcome = Outcome.emptyResult ∧
    (main malloc_ok fopen_ok buffer0 input).output = none ∧
    ∀ (m f : Bool) (xs : List Nat),
      ((main m f buffer0 xs).outcome ≠ Outcome.emptyResult ↔
        (scan (initState buffer0) xs).detected_hanzi_count ≠ 0) ∧
      ((main m f buffer0 xs).output ≠ none ↔
        (scan (initState buffer0) xs).detected_hanzi_count ≠ 0 ∧ m = true) ∧
      ((main m f buffer0 xs).exit_code = 0 ↔
        (scan (initState buffer0) xs).detected_hanzi_count ≠ 0 ∧ m = true ∧ f = true) := by
  obtain ⟨ht, hd⟩ := ascii_counts buffer0 input h
  obtain ⟨m1, m2, m3, -⟩ := main_cases malloc_ok fopen_ok buffer0 input
  obtain ⟨e1, e2, e3⟩ := m3 hd
  refine ⟨fun hlen => ?_, hd, m1, by rw [m2, hd], e1, e2, e3, ?_⟩
  · rw [ht]
    exact wrapInt_of_small _ (by omega) (by omega)
  · intro m f xs
    unfold main
    by_cases hx : (scan (initState buffer0) xs).detected_hanzi_count = 0
    · simp [hx]
    · cases m <;> cases f <;> simp [hx]

/-- C7, amended, on the input `AB`. -/
theorem ascii_only_empty_result_witness :
    (∀ b ∈ [0x41, 0x42], b < 0x80) ∧
    (scan (initState fun _ => 0) [0x41, 0x42]).total_chars = 2 ∧
    (scan (initState fun _ => 0) [0x41, 0x42]).detected_hanzi_count = 0 ∧
    (main true true (fun _ => 0) [0x41, 0x42]).exit_code = 1 ∧
    (main true true (fun _ => 0) [0x41, 0x42]).outcome = Outcome.emptyResult ∧
    (main true true (fun _ => 0) [0x41, 0x42]).output = none :=
  ⟨by decide,
   (ascii_only_empty_result true true (fun _ => 0) [0x41, 0x42] (by decide)).1 (by decide),
   (ascii_only_empty_result true true (fun _ => 0) [0x41, 0x42] (by decide)).2.1,
   (ascii_only_empty_result true true (fun _ => 0) [0x41, 0x42] (by decide)).2.2.2.2.1,
   (ascii_only_empty_result true true (fun _ => 0) [0x41, 0x42] (by decide)).2.2.2.2.2.1,
   (ascii_only_empty_result true true (fun _ => 0) [0x41, 0x42] (by decide)).2.2.2.2.2.2.1⟩

/-- C10: on an input made only of bytes that cannot start a character
(`0x80 .. 0xBF` and `0xF8 .. 0xFF`) the scan ends with the total-character count 0
and the detected count 0. -/
theorem nonstarters_not_counted (buffer0 : Nat → Nat) (input : List Nat)
    (h : ∀ b ∈ input, (0x80 ≤ b ∧ b ≤ 0xBF) ∨ (0xF8 ≤ b ∧ b ≤ 0xFF)) :
    (scan (initState buffer0) input).total_chars = 0 ∧
    (scan (initState buffer0) input).detected_hanzi_count = 0 := by
  have hv := acceptedValues_nonstarters buffer0 input h
  exact scan_counters_of_nil (initState buffer0) input hv

/-- C10 on the single byte `0x80`. -/
theorem nonstarters_not_counted_witness :
    (∀ b ∈ [0x80], (0x80 ≤ b ∧ b ≤ 0xBF) ∨ (0xF8 ≤ b ∧ b ≤ 0xFF)) ∧
    (scan (initState fun _ => 0) [0x80]).total_chars = 0 ∧
    (scan (initState fun _ => 0) [0x80]).detected_hanzi_count = 0 :=
  ⟨by decide, nonstarters_not_counted (fun _ => 0) [0x80] (by decide)⟩

/-- The counters after the scan of the concatenated standard encodings of `cs`. -/
theorem encoded_counts (buffer0 : Nat → Nat) (cs : List Nat) (h : ∀ c ∈ cs, c ≤ 0x10FFFF) :
    (scan (initState buffer0) (utf8_encode_all cs)).total_chars = wrapInt (cs.length : Nat) ∧
    (scan (initState buffer0) (utf8_encode_all cs)).detected_hanzi_count
      = wrapInt ((cs.countP (fun c => decide (0x4E00 ≤ c ∧ c ≤ 0x9FFF)) : Nat) : Int) ∧
    (scan (initState buffer0) (utf8_encode_all cs)).buffer_pos = 0 := by
  obtain ⟨hv, hp⟩ := scan_encode_all cs (initState buffer0) rfl h
  refine ⟨?_, ?_, hp⟩
  · rw [scan_init_total, hv, List.length_map]
  · rw [scan_init_detected, hv, List.countP_map]
    congr 2
    apply List.countP_congr
    intro c _
    simp only [Function.comp, is_hanzi, HANZI_START, HANZI_END, decide_eq_true_eq]
    omega

/-- C6, as stated, fails on the sequence of `2^31` copies of the scalar value
`0x4E2D`: after the scan of their encodings the total-character count and the
detected count, both `int`s, are not `2^31`, the length of the sequence and the
number of its elements in the block (the model gives `-2^31` for both). -/
theorem valid_stream_exceeds_int :
    (∀ c ∈ List.replicate 2147483648 0x4E2D, c ≤ 0x10FFFF) ∧
    (List.replicate 2147483648 0x4E2D).length = 2147483648 ∧
    (List.replicate 2147483648 0x4E2D).countP (fun c => decide (0x4E00 ≤ c ∧ c ≤ 0x9FFF))
      = 2147483648 ∧
    (scan (initState fun _ => 0)
      (utf8_encode_all (List.replicate 2147483648 0x4E2D))).total_chars = -2147483648 ∧
    (scan (initState fun _ => 0)
      (utf8_encode_all (List.replicate 2147483648 0x4E2D))).total_chars
        ≠ ((List.replicate 2147483648 0x4E2D).length : Nat) ∧
    (scan (initState fun _ => 0)
      (utf8_encode_all (List.replicate 2147483648 0x4E2D))).detected_hanzi_count
        ≠ ((List.replicate 2147483648 0x4E2D).countP
            (fun c => decide (0x4E00 ≤ c ∧ c ≤ 0x9FFF)) : Nat) := by
  have hA : ∀ c ∈ List.replicate 2147483648 0x4E2D, c ≤ 0x10FFFF := by
    intro c hc
    rw [List.eq_of_mem_replicate hc]
    decide
  have hc : (List.replicate 2147483648 0x4E2D).countP
      (fun c => decide (0x4E00 ≤ c ∧ c ≤ 0x9FFF)) = 2147483648 := by
    rw [List.countP_replicate]
    decide
  obtain ⟨ht, hd, -⟩ := encoded_counts (fun _ => 0) _ hA
  have hw : wrapInt ((2147483648 : Nat) : Int) = -2147483648 := by decide
  rw [List.length_replicate, hw] at ht
  rw [hc, hw] at hd
  refine ⟨hA, List.length_replicate _ _, hc, ht, ?_, ?_⟩
  · rw [ht, List.length_replicate]
    decide
  · rw [hd, hc]
    decide

/-- C6, amended: for a sequence `cs` of fewer than `2^31` scalar values, each at
most `0x10FFFF`, scanning the concatenation of their standard encodings from the
initial locals ends with the total-character count equal to the length of `cs`,
the detected count equal to the number of elements of `cs` in `[0x4E00, 0x9FFF]`
counted with multiplicity, and an empty rolling buffer. -/
theorem valid_stream_counts (buffer0 : Nat → Nat) (cs : List Nat)
    (h : ∀ c ∈ cs, c ≤ 0x10FFFF) (hlen : cs.length < 2147483648) :
    (scan (initState buffer0) (utf8_encode_all cs)).total_chars = (cs.length : Nat) ∧
    (scan (initState buffer0) (utf8_encode_all cs)).detected_hanzi_count
      = (cs.countP (fun c => decide (0x4E00 ≤ c ∧ c ≤ 0x9FFF)) : Nat) ∧
    (scan (initState buffer0) (utf8_encode_all cs)).buffer_pos = 0 := by
  obtain ⟨ht, hd, hp⟩ := encoded_counts buffer0 cs h
  have hc := List.countP_le_length (fun c => decide (0x4E00 ≤ c ∧ c ≤ 0x9FFF)) (l := cs)
  refine ⟨?_, ?_, hp⟩
  · rw [ht]
    exact wrapInt_of_small _ (by omega) (by omega)
  · rw [hd]
    exact wrapInt_of_small _ (by omega) (by omega)

/-- C6, amended, on the values of `中文AB中`, whose encodings are the bytes
`E4 B8 AD E6 96 87 41 42 E4 B8 AD`: the total is 5 and the detected count is 3. -/
theorem valid_stream_counts_witness :
    (∀ c ∈ [0x4E2D, 0x6587, 0x41, 0x42, 0x4E2D], c ≤ 0x10FFFF) ∧
    utf8_encode_all [0x4E2D, 0x6587, 0x41, 0x42, 0x4E2D] = sampleInput ∧
    (scan (initState fun _ => 0)
      (utf8_encode_all [0x4E2D, 0x6587, 0x41, 0x42, 0x4E2D])).total_chars = 5 ∧
    (scan (initState fun _ => 0)
      (utf8_encode_all [0x4E2D, 0x6587, 0x41, 0x42, 0x4E2D])).detected_hanzi_count = 3 :=
  ⟨by decide, by decide,
   (valid_stream_counts (fun _ => 0) [0x4E2D, 0x6587, 0x41, 0x42, 0x4E2D] (by decide)
     (by decide)).1,
   (valid_stream_counts (fun _ => 0) [0x4E2D, 0x6587, 0x41, 0x42, 0x4E2D] (by decide)
     (by decide)).2.1⟩

/-- C8, as stated, fails on the input `F0 84 B8 AD`: no three consecutive bytes of
it form the encoding of a code point of `[0x4E00, 0x9FFF]`, yet the scan ends with
the detected count 1 and the run returns 0 with the arrays built. -/
theorem overlong_sequence_detected :
    (∀ c, 0x4E00 ≤ c → c ≤ 0x9FFF → ¬ (utf8_encode c <:+: overlongInput)) ∧
    (scan (initState fun _ => 0) overlongInput).detected_hanzi_count = 1 ∧
    (scan (initState fun _ => 0) overlongInput).detected_hanzi_count ≠ 0 ∧
    (main true true (fun _ => 0) overlongInput).exit_code = 0 ∧
    (main true true (fun _ => 0) overlongInput).output ≠ none := by
  have hd : (scan (initState fun _ => 0) overlongInput).detected_hanzi_count ≠ 0 := by decide
  have hm := (main_cases true true (fun _ => 0) overlongInput).2.2.2.2.2 hd rfl rfl
  refine ⟨fun c h1 h2 => no_hanzi_encoding_infix overlongInput (by decide) c h1 h2,
    by decide, hd, hm.1, ?_⟩
  rw [hm.2.2]
  exact fun h => Option.noConfusion h

/-- C8, amended: when the input bytes contain no three consecutive bytes forming
the encoding of a code point of `[0x4E00, 0x9FFF]` and no four consecutive bytes
`11110xxx 10xxxxxx 10xxxxxx 10xxxxxx` assembling to a value of that range, the scan
ends with the detected count 0 and the run returns 1 without building the arrays. -/
theorem no_target_sequence_empty_result (malloc_ok fopen_ok : Bool) (buffer0 : Nat → Nat)
    (input : List Nat) (hb : ∀ b ∈ input, b < 256)
    (h3 : ∀ c, 0x4E00 ≤ c → c ≤ 0x9FFF → ¬ (utf8_encode c <:+: input))
    (h4 : ∀ b0 b1 b2 b3, [b0, b1, b2, b3] <:+: input →
      b0 / 8 = 30 → b1 / 64 = 2 → b2 / 64 = 2 → b3 / 64 = 2 →
      ¬ (0x4E00 ≤ b0 % 8 * 262144 + b1 % 64 * 4096 + b2 % 64 * 64 + b3 % 64 ∧
         b0 % 8 * 262144 + b1 % 64 * 4096 + b2 % 64 * 64 + b3 % 64 ≤ 0x9FFF)) :
    (scan (initState buffer0) input).detected_hanzi_count = 0 ∧
    (main malloc_ok fopen_ok buffer0 input).exit_code = 1 ∧
    (main malloc_ok fopen_ok buffer0 input).outcome = Outcome.emptyResult ∧
    (main malloc_ok fopen_ok buffer0 input).output = none := by
  have hd : (scan (initState buffer0) input).detected_hanzi_count = 0 := by
    rw [scan_init_detected]
    have : (acceptedValues (initState buffer0) input).countP is_hanzi = 0 := by
      rw [List.countP_eq_zero]
      intro u hu
      obtain ⟨w, hw, -, hdec⟩ := accepted_infix buffer0 input hb u hu
      exact window_not_hanzi input hb h3 h4 w hw u hdec
    rw [this]
    decide
  exact ⟨hd, (main_cases malloc_ok fopen_ok buffer0 input).2.2.1 hd⟩

/-- C8, amended, on the input `F0 9F 98 80`. -/
theorem no_target_sequence_empty_result_witness :
    (∀ b ∈ emojiInput, b < 256) ∧
    (scan (initState fun _ => 0) emojiInput).total_chars = 1 ∧
    (scan (initState fun _ => 0) emojiInput).detected_hanzi_count = 0 ∧
    (main true true (fun _ => 0) emojiInput).exit_code = 1 ∧
    (main true true (fun _ => 0) emojiInput).outcome = Outcome.emptyResult ∧
    (main true true (fun _ => 0) emojiInput).output = none :=
  ⟨by decide, by decide,
   no_target_sequence_empty_result true true (fun _ => 0) emojiInput (by decide)
     (fun c h1 h2 => no_hanzi_encoding_infix emojiInput (by decide) c h1 h2)
     (fun b0 b1 b2 b3 hinf _ _ _ _ => by
       have e := hinf.eq_of_length rfl
       simp only [emojiInput, List.cons.injEq, and_true] at e
       obtain ⟨rfl, rfl, rfl, rfl⟩ := e
       decide)⟩

/-- C9: for every byte stream `s` and every non-empty proper prefix of the
encoding of a scalar value from `0x80` to `0x10FFFF`, scanning `s` followed by the
prefix ends with the same total-character count, detected count and presence
table as scanning `s`. -/
theorem truncated_tail_discarded (buffer0 : Nat → Nat) (s : List Nat) (c n : Nat)
    (h1 : 0x80 ≤ c) (h2 : c ≤ 0x10FFFF) (hn : 0 < n) (hlt : n < (utf8_encode c).length) :
    (scan (initState buffer0) (s ++ (utf8_encode c).take n)).total_chars
      = (scan (initState buffer0) s).total_chars ∧
    (scan (initState buffer0) (s ++ (utf8_encode c).take n)).detected_hanzi_count
      = (scan (initState buffer0) s).detected_hanzi_count ∧
    (scan (initState buffer0) (s ++ (utf8_encode c).take n)).hanzi_present
      = (scan (initState buffer0) s).hanzi_present := by
  have hH := holds_scan (initState buffer0) [] s (holds_of_pos_zero _ _ rfl)
  have hv := acceptedValues_truncated _ _ hH c n h1 h2 hn hlt
  rw [scan_append]
  refine ⟨(scan_counters_of_nil _ _ hv).1, (scan_counters_of_nil _ _ hv).2, ?_⟩
  funext i
  have := scan_present (scan (initState buffer0) s) ((utf8_encode c).take n) i
  rw [hv] at this
  simp only [List.not_mem_nil, false_and, exists_false, or_false] at this
  exact Bool.eq_iff_iff.2 this

/-- C9 on `中文AB中` followed by the lone byte `E4`, the first byte of the encoding
of `0x4E2D`. -/
theorem truncated_tail_discarded_witness :
    (utf8_encode 0x4E2D).take 1 = [0xE4] ∧
    (scan (initState fun _ => 0) (sampleInput ++ (utf8_encode 0x4E2D).take 1)).total_chars
      = (scan (initState fun _ => 0) sampleInput).total_chars ∧
    (scan (initState fun _ => 0)
        (sampleInput ++ (utf8_encode 0x4E2D).take 1)).detected_hanzi_count
      = (scan (initState fun _ => 0) sampleInput).detected_hanzi_count ∧
    (scan (initState fun _ => 0) (sampleInput ++ (utf8_encode 0x4E2D).take 1)).hanzi_present
      = (scan (initState fun _ => 0) sampleInput).hanzi_present :=
  ⟨by decide,
   truncated_tail_discarded (fun _ => 0) sampleInput 0x4E2D 1 (by decide) (by decide)
     (by decide) (by decide)⟩

/-! ## The sample text for any initial buffer contents -/

theorem sampleInput_eq : sampleInput = utf8_encode_all [0x4E2D, 0x6587, 0x41, 0x42, 0x4E2D] := by
  decide

theorem acceptedValues_sample (buffer0 : Nat → Nat) :
    acceptedValues (initState buffer0) sampleInput = [0x4E2D, 0x6587, 0x41, 0x42, 0x4E2D] := by
  rw [sampleInput_eq,
    (scan_encode_all [0x4E2D, 0x6587, 0x41, 0x42, 0x4E2D] (initState buffer0) rfl (by decide)).1]
  rfl

/-- The run on `中文AB中`, whatever the buffer holds initially. -/
theorem main_sample (buffer0 : Nat → Nat) :
    main true true buffer0 sampleInput
      = ⟨0, Outcome.success, 5, 3, some ([0x4E2D, 0x6587], [0, 5978])⟩ := by
  obtain ⟨ht, hd, hc, he⟩ := scan_sampleInput buffer0 (acceptedValues_sample buffer0)
  unfold main
  simp only [hd, ht, hc, he]
  rfl

/-- C11, as stated, fails: on the bytes of `中文AB中` the delta array is `[0, 5978]`,
not `[0, 6746]`, and `0x6587 - 0x4E2D` is not `6746`. -/
theorem sample_delta_is_not_6746 :
    (main true true (fun _ => 0) sampleInput).output = some ([0x4E2D, 0x6587], [0, 5978]) ∧
    (main true true (fun _ => 0) sampleInput).output ≠ some ([0x4E2D, 0x6587], [0, 6746]) ∧
    (0x6587 : Int) - 0x4E2D ≠ 6746 := by
  rw [run_sampleInput]
  exact ⟨rfl, by decide, by decide⟩

/-- C11, amended: on the bytes `E4 B8 AD E6 96 87 41 42 E4 B8 AD` of `中文AB中` the
sorted code point list is `[0x4E2D, 0x6587]` and the delta array is
`[0, 0x6587 - 0x4E2D] = [0, 5978]`, whatever the buffer holds initially. -/
theorem sample_scenario (buffer0 : Nat → Nat) :
    (main true true buffer0 sampleInput).output
      = some ([0x4E2D, 0x6587], [0, 0x6587 - 0x4E2D]) ∧
    (0x6587 : Int) - 0x4E2D = 5978 := by
  rw [main_sample]
  exact ⟨rfl, by decide⟩

/-! ## The decoder on encodings and the range of its values -/

/-- C20: for every scalar value `c` up to `0x10FFFF`, `utf8_to_unicode` applied to
bytes that start with the standard encoding of `c`, whatever follows it, returns
`c` with the length of the encoding as byte count, and that length is 1 below
`0x80`, 2 below `0x800`, 3 below `0x10000` and 4 otherwise. -/
theorem decode_undoes_encode (c : Nat) (hc : c ≤ 0x10FFFF) (bytes : Nat → Nat)
    (hb : ∀ k, k < (utf8_encode c).length → bytes k = (utf8_encode c).getD k 0) :
    utf8_to_unicode bytes = ((c : Int), (utf8_encode c).length) ∧
    (utf8_encode c).length
      = if c < 0x80 then 1 else if c < 0x800 then 2 else if c < 0x10000 then 3 else 4 := by
  refine ⟨decode_encode c hc bytes hb, ?_⟩
  unfold utf8_encode
  split_ifs <;> rfl

/-- C20 at `c = 0x4E2D` and the window `E4 B8 AD 00`. -/
theorem decode_undoes_encode_witness :
    utf8_encode 0x4E2D = [0xE4, 0xB8, 0xAD] ∧
    utf8_to_unicode sampleWindow = (((0x4E2D : Nat) : Int), (utf8_encode 0x4E2D).length) ∧
    (utf8_encode 0x4E2D).length = 3 :=
  ⟨by decide,
   (decode_undoes_encode 0x4E2D (by decide) sampleWindow (by decide)).1,
   by decide⟩

/-- C13, as stated, fails on the window `F4 90 80 80`: the decoder reports the
byte count 4 and returns `0x110000`, which is above `0x10FFFF`. -/
theorem decoded_value_above_0x10FFFF :
    utf8_to_unicode beyondWindow = (0x110000, 4) ∧
    (utf8_to_unicode beyondWindow).2 ≠ 0 ∧
    ¬ ((utf8_to_unicode beyondWindow).1 ≤ 0x10FFFF) := by
  have e : utf8_to_unicode beyondWindow = (0x110000, 4) := by decide
  rw [e]
  exact ⟨rfl, by decide, by decide⟩

/-- The range of the value by the byte count the decoder reports. -/
theorem decoded_value_bounds (bytes : Nat → Nat)
    (h0 : bytes 0 < 256) (h1 : bytes 1 < 256) (h2 : bytes 2 < 256) (h3 : bytes 3 < 256)
    (hc : (utf8_to_unicode bytes).2 ≠ 0) :
    0 ≤ (utf8_to_unicode bytes).1 ∧
    ((utf8_to_unicode bytes).2 = 1 → (utf8_to_unicode bytes).1 ≤ 0x7F) ∧
    ((utf8_to_unicode bytes).2 = 2 → (utf8_to_unicode bytes).1 ≤ 0x7FF) ∧
    ((utf8_to_unicode bytes).2 = 3 → (utf8_to_unicode bytes).1 ≤ 0xFFFF) ∧
    (utf8_to_unicode bytes).1 ≤ 0x1FFFFF := by
  have hle := count_le_four bytes
  have hn : (utf8_to_unicode bytes).2 = 1 ∨ (utf8_to_unicode bytes).2 = 2 ∨
      (utf8_to_unicode bytes).2 = 3 ∨ (utf8_to_unicode bytes).2 = 4 := by omega
  rcases hn with hn | hn | hn | hn
  · obtain ⟨g0, -⟩ := (count_eq_iff bytes 1 (le_refl _)).1 hn
    have k0 := (byte_class_inv _ h0).1 g0
    have hm := (byte_masks _ h0).1.2 (by omega)
    rw [utf8_to_unicode_ascii bytes hm]
    simp only [Nat.cast_nonneg, true_and]
    refine ⟨fun _ => by omega, fun h => by omega, fun h => by omega, by omega⟩
  · obtain ⟨g0, g1, -⟩ := (count_eq_iff bytes 2 (by omega)).1 hn
    have k0 := (byte_class_inv _ h0).2.1 g0
    have k1 := (byte_class_inv _ h1).2.2.2.2 (g1 (le_refl _))
    rw [decode2 bytes h0 h1 k0 k1]
    simp only [Nat.cast_nonneg, true_and]
    refine ⟨fun h => by omega, fun _ => by omega, fun h => by omega, by omega⟩
  · obtain ⟨g0, g1, g2, -⟩ := (count_eq_iff bytes 3 (by omega)).1 hn
    have k0 := (byte_class_inv _ h0).2.2.1 g0
    have k1 := (byte_class_inv _ h1).2.2.2.2 (g1 (by omega))
    have k2 := (byte_class_inv _ h2).2.2.2.2 (g2 (le_refl _))
    rw [decode3 bytes h0 h1 h2 k0 k1 k2]
    simp only [Nat.cast_nonneg, true_and]
    refine ⟨fun h => by omega, fun h => by omega, fun _ => by omega, by omega⟩
  · obtain ⟨g0, g1, g2, g3⟩ := (count_eq_iff bytes 4 (by omega)).1 hn
    have k0 := (byte_class_inv _ h0).2.2.2.1 g0
    have k1 := (byte_class_inv _ h1).2.2.2.2 (g1 (by omega))
    have k2 := (byte_class_inv _ h2).2.2.2.2 (g2 (by omega))
    have k3 := (byte_class_inv _ h3).2.2.2.2 (g3 (le_refl _))
    rw [decode4 bytes h0 h1 h2 h3 k0 k1 k2 k3]
    simp only [Nat.cast_nonneg, true_and]
    refine ⟨fun h => by omega, fun h => by omega, fun h => by omega, by omega⟩

/-- C13, amended: for every window of bytes on which `utf8_to_unicode` reports a
non-zero byte count, the returned value `v` satisfies `0 ≤ v ≤ 0x1FFFFF`. -/
theorem decoded_value_range (bytes : Nat → Nat)
    (h0 : bytes 0 < 256) (h1 : bytes 1 < 256) (h2 : bytes 2 < 256) (h3 : bytes 3 < 256)
    (hc : (utf8_to_unicode bytes).2 ≠ 0) :
    0 ≤ (utf8_to_unicode bytes).1 ∧ (utf8_to_unicode bytes).1 ≤ 0x1FFFFF :=
  ⟨(decoded_value_bounds bytes h0 h1 h2 h3 hc).1,
   (decoded_value_bounds bytes h0 h1 h2 h3 hc).2.2.2.2⟩

/-- C13, amended, at the window `F4 90 80 80`. -/
theorem decoded_value_range_witness :
    (utf8_to_unicode beyondWindow).2 ≠ 0 ∧
    0 ≤ (utf8_to_unicode beyondWindow).1 ∧ (utf8_to_unicode beyondWindow).1 ≤ 0x1FFFFF :=
  ⟨by decide, decoded_value_range beyondWindow (by decide) (by decide) (by decide) (by decide)
    (by decide)⟩

/-! ## The size of the presence table -/

theorem HANZI_TABLE_SIZE_eq : HANZI_TABLE_SIZE = 20992 := by decide

/-- C15, as stated, fails: the table does not have 12,992 entries, and scanning the
encoding `E9 BF BF` of `0x9FFF` sets its entry 20991. -/
theorem table_size_is_not_12992 :
    HANZI_TABLE_SIZE ≠ 12992 ∧ (0x9FFF : Int) - 0x4E00 + 1 ≠ 12992 ∧
    (scan (initState fun _ => 0) [0xE9, 0xBF, 0xBF]).hanzi_present 20991 = true := by
  refine ⟨by decide, by decide, by decide⟩

/-- C15, amended: the presence table has exactly `0x9FFF - 0x4E00 + 1 = 20992`
entries, one for each code point of the block, indexed by `codepoint - 0x4E00`:
a value is in the block iff its index is inside the table, and every index of the
table is the index of the code point `0x4E00 + index`, which is in the block. -/
theorem table_size_is_20992 :
    HANZI_TABLE_SIZE = 20992 ∧ (0x9FFF : Int) - 0x4E00 + 1 = 20992 ∧
    (∀ c : Int, is_hanzi c = true ↔
      HANZI_START ≤ c ∧ (c - HANZI_START).toNat < HANZI_TABLE_SIZE) ∧
    (∀ i : Nat, is_hanzi (HANZI_START + (i : Int)) = true ↔ i < HANZI_TABLE_SIZE) ∧
    (∀ i : Nat, (HANZI_START + (i : Int) - HANZI_START).toNat = i) := by
  refine ⟨HANZI_TABLE_SIZE_eq, by decide, ?_, ?_, ?_⟩
  · intro c
    rw [is_hanzi_iff, HANZI_TABLE_SIZE_eq]
    simp only [HANZI_START, HANZI_END]
    omega
  · intro i
    rw [is_hanzi_iff, HANZI_TABLE_SIZE_eq]
    simp only [HANZI_START, HANZI_END]
    omega
  · intro i
    simp only [HANZI_START]
    omega

/-! ## The differences computed by the encoder -/

theorem foldl_warnings_nil (hanzi_codes : List Int) (l : List Nat)
    (hl : ∀ i ∈ l, ¬ (hanzi_codes.getD i 0 - hanzi_codes.getD (i - 1) 0 > 32767 ∨
      hanzi_codes.getD i 0 - hanzi_codes.getD (i - 1) 0 < -32768))
    (acc : List Int) :
    l.foldl
      (fun warnings i =>
        let diff := hanzi_codes.getD i 0 - hanzi_codes.getD (i - 1) 0
        if diff > 32767 ∨ diff < -32768 then warnings ++ [diff] else warnings)
      acc = acc := by
  induction l generalizing acc with
  | nil => rfl
  | cons a l ih =>
    rw [List.foldl_cons]
    simp only [if_neg (hl a (List.mem_cons_self _ _))]
    exact ih (fun i hi => hl i (List.mem_cons_of_mem _ hi)) acc

/-- In a strictly increasing list of code points of the block, consecutive
entries differ by at least 1 and at most `0x9FFF - 0x4E00`. -/
theorem consecutive_difference (codes : List Int) (hs : codes.Pairwise (· < ·))
    (hr : ∀ c ∈ codes, HANZI_START ≤ c ∧ c ≤ HANZI_END) (i : Nat) (h0 : 0 < i)
    (hi : i < codes.length) :
    ∃ a b, codes[i - 1]? = some a ∧ codes[i]? = some b ∧ 1 ≤ b - a ∧
      b - a ≤ HANZI_END - HANZI_START := by
  obtain ⟨a, b, ha, hb, hlt, -⟩ := encodeOffsets_getElem codes hs hr i h0 hi
  have hra := hr a (List.getElem?_mem ha)
  have hrb := hr b (List.getElem?_mem hb)
  exact ⟨a, b, ha, hb, by omega, by omega⟩

/-- C12: when a run reaches the encoding stage, every difference the encoder
computes between consecutive entries of the sorted code point list is at least 1
and at most `0x9FFF - 0x4E00`, hence inside `[-32768, 32767]`, and the warning
branch of the encoding loop is never taken. -/
theorem differences_fit_in_short (malloc_ok fopen_ok : Bool) (buffer0 : Nat → Nat)
    (input : List Nat) (codes offsets : List Int)
    (h : (main malloc_ok fopen_ok buffer0 input).output = some (codes, offsets)) :
    (∀ i, 0 < i → i < codes.length →
      ∃ a b, codes[i - 1]? = some a ∧ codes[i]? = some b ∧
        1 ≤ b - a ∧ b - a ≤ 0x9FFF - 0x4E00 ∧ -32768 ≤ b - a ∧ b - a ≤ 32767) ∧
    overflowWarnings codes = [] := by
  obtain ⟨-, hc, -⟩ := run_output malloc_ok fopen_ok buffer0 input codes offsets h
  have hs : codes.Pairwise (· < ·) := by rw [hc]; exact collectCodes_sorted _
  have hr : ∀ c ∈ codes, HANZI_START ≤ c ∧ c ≤ HANZI_END := by
    intro c hm
    rw [hc] at hm
    exact ((mem_collectCodes_scan buffer0 input c).1 hm).1
  refine ⟨?_, ?_⟩
  · intro i h0 hi
    obtain ⟨a, b, ha, hb, h1, h2⟩ := consecutive_difference codes hs hr i h0 hi
    simp only [HANZI_START, HANZI_END] at h2
    exact ⟨a, b, ha, hb, h1, by omega, by omega, by omega⟩
  · unfold overflowWarnings
    apply foldl_warnings_nil
    intro i hi
    rw [List.mem_range'_1] at hi
    obtain ⟨a, b, ha, hb, h1, h2⟩ := consecutive_difference codes hs hr i (by omega) (by omega)
    simp only [HANZI_START, HANZI_END] at h2
    have ea : codes.getD (i - 1) 0 = a := by
      rw [List.getD_eq_getElem?_getD, ha]; rfl
    have eb : codes.getD i 0 = b := by
      rw [List.getD_eq_getElem?_getD, hb]; rfl
    rw [ea, eb]
    omega

/-- C12 on the input `中文AB中`. -/
theorem differences_fit_in_short_witness :
    (main true true (fun _ => 0) sampleInput).output = some ([0x4E2D, 0x6587], [0, 5978]) ∧
    (∀ i, 0 < i → i < ([0x4E2D, 0x6587] : List Int).length →
      ∃ a b, ([0x4E2D, 0x6587] : List Int)[i - 1]? = some a ∧
        ([0x4E2D, 0x6587] : List Int)[i]? = some b ∧
        1 ≤ b - a ∧ b - a ≤ 0x9FFF - 0x4E00 ∧ -32768 ≤ b - a ∧ b - a ≤ 32767) ∧
    overflowWarnings [0x4E2D, 0x6587] = [] :=
  ⟨by rw [run_sampleInput],
   differences_fit_in_short true true (fun _ => 0) sampleInput [0x4E2D, 0x6587] [0, 5978]
     (by rw [run_sampleInput])⟩

/-! ## What an accept leaves in the rolling buffer -/

/-- C14: on the input `80 41` the byte `41` is accepted as a window of length 1
while the buffer holds `80 41`; after the accept the buffer holds one byte, and it
is the consumed byte `41`, the undecoded byte `80` being the one dropped. -/
theorem accept_keeps_consumed_byte :
    (appendByte (scan (initState fun _ => 0) [0x80]) 0x41).buffer_pos = 2 ∧
    (appendByte (scan (initState fun _ => 0) [0x80]) 0x41).buffer 0 = 0x80 ∧
    (appendByte (scan (initState fun _ => 0) [0x80]) 0x41).buffer 1 = 0x41 ∧
    acceptedAt (scan (initState fun _ => 0) [0x80]) 0x41 = some (1, 0x41) ∧
    (scan (initState fun _ => 0) [0x80, 0x41]).buffer_pos = 1 ∧
    (scan (initState fun _ => 0) [0x80, 0x41]).buffer 0 = 0x41 ∧
    (scan (initState fun _ => 0) [0x80, 0x41]).buffer 0 ≠ 0x80 := by
  refine ⟨by decide, by decide, by decide, by decide, by decide, by decide, by decide⟩

/-- After an accept of length `len` the buffer holds the bytes that were at the
indices `len .. buffer_pos - 1` before it, while the window decoded was at the
indices `buffer_pos - len .. buffer_pos - 1`. -/
theorem acceptWindow_buffer (st : ScanState) (len : Nat) (u : Int) (i : Nat)
    (hi : i < st.buffer_pos - len) :
    (acceptWindow st len u).buffer_pos = st.buffer_pos - len ∧
    (acceptWindow st len u).buffer i = st.buffer (i + len) := by
  refine ⟨rfl, ?_⟩
  show shiftBuffer st.buffer len (st.buffer_pos - len) i = _
  rw [shiftBuffer_apply, if_pos hi]

/-! ## Independence from the initial contents of the buffer -/

/-- The window accepted depends on the buffer only through the bytes read. -/
theorem acceptedAt_indep (st st' : ScanState) (recent : List Nat) (hH : Holds st recent)
    (hH' : Holds st' recent) (hp : st.buffer_pos = st'.buffer_pos) (ch : Nat) :
    acceptedAt st ch = acceptedAt st' ch := by
  apply Option.ext
  rintro ⟨len, u⟩
  simp only [Option.mem_def]
  rw [acceptedAt_iff st recent hH, acceptedAt_iff st' recent hH', hp]

/-- Two scans of the same bytes from states that agree except on the contents of
the buffer beyond the bytes read agree in the same way at the end. -/
theorem scan_indep (input : List Nat) :
    ∀ (st st' : ScanState) (recent : List Nat), Holds st recent → Holds st' recent →
      st.buffer_pos = st'.buffer_pos → st.total_chars = st'.total_chars →
      st.detected_hanzi_count = st'.detected_hanzi_count →
      st.hanzi_present = st'.hanzi_present →
      (scan st input).buffer_pos = (scan st' input).buffer_pos ∧
      (scan st input).total_chars = (scan st' input).total_chars ∧
      (scan st input).detected_hanzi_count = (scan st' input).detected_hanzi_count ∧
      (scan st input).hanzi_present = (scan st' input).hanzi_present ∧
      acceptedValues st input = acceptedValues st' input := by
  induction input with
  | nil =>
    intro st st' recent _ _ h1 h2 h3 h4
    exact ⟨h1, h2, h3, h4, rfl⟩
  | cons ch rest ih =>
    intro st st' recent hH hH' h1 h2 h3 h4
    have ha := acceptedAt_indep st st' recent hH hH' h1 ch
    have hS := holds_scanByte st recent ch hH
    have hS' := holds_scanByte st' recent ch hH'
    rw [scan_cons, scan_cons, acceptedValues, acceptedValues, ← ha]
    cases hacc : acceptedAt st ch with
    | none =>
      have hacc' : acceptedAt st' ch = none := by rw [← ha, hacc]
      obtain ⟨a1, a2, a3⟩ := scanByte_none st ch hacc
      obtain ⟨b1, b2, b3⟩ := scanByte_none st' ch hacc'
      have hp : (scanByte st ch).buffer_pos = (scanByte st' ch).buffer_pos := by
        rw [scanByte_pos_none st ch hacc, scanByte_pos_none st' ch hacc', h1]
      obtain ⟨i1, i2, i3, i4, i5⟩ := ih (scanByte st ch) (scanByte st' ch) _ hS hS' hp
        (by rw [a1, b1, h2]) (by rw [a2, b2, h3]) (by rw [a3, b3, h4])
      exact ⟨i1, i2, i3, i4, i5⟩
    | some r =>
      obtain ⟨len, u⟩ := r
      have hacc' : acceptedAt st' ch = some (len, u) := by rw [← ha, hacc]
      obtain ⟨a1, a2, a3⟩ := scanByte_some st ch len u hacc
      obtain ⟨b1, b2, b3⟩ := scanByte_some st' ch len u hacc'
      have hp : (scanByte st ch).buffer_pos = (scanByte st' ch).buffer_pos := by
        rw [scanByte_pos_some st ch len u hacc, scanByte_pos_some st' ch len u hacc', h1]
      obtain ⟨i1, i2, i3, i4, i5⟩ := ih (scanByte st ch) (scanByte st' ch) _ hS hS' hp
        (by rw [a1, b1, h2]) (by rw [a2, b2, h3]) (by rw [a3, b3, h4])
      exact ⟨i1, i2, i3, i4, by rw [i5]⟩

theorem scan_init_indep (buffer0 buffer0' : Nat → Nat) (input : List Nat) :
    (scan (initState buffer0) input).buffer_pos = (scan (initState buffer0') input).buffer_pos ∧
    (scan (initState buffer0) input).total_chars
      = (scan (initState buffer0') input).total_chars ∧
    (scan (initState buffer0) input).detected_hanzi_count
      = (scan (initState buffer0') input).detected_hanzi_count ∧
    (scan (initState buffer0) input).hanzi_present
      = (scan (initState buffer0') input).hanzi_present ∧
    acceptedValues (initState buffer0) input = acceptedValues (initState buffer0') input :=
  scan_indep input (initState buffer0) (initState buffer0') []
    (holds_of_pos_zero _ _ rfl) (holds_of_pos_zero _ _ rfl) rfl rfl rfl rfl

theorem main_indep (malloc_ok fopen_ok : Bool) (buffer0 buffer0' : Nat → Nat)
    (input : List Nat) :
    main malloc_ok fopen_ok buffer0 input = main malloc_ok fopen_ok buffer0' input := by
  obtain ⟨-, h2, h3, h4, -⟩ := scan_init_indep buffer0 buffer0' input
  unfold main
  simp only [h2, h3, h4]

/-- C19: two scans of the same input that differ only in the initial contents of
the buffer array end with the same total-character count, detected count,
presence table and buffer length, hold the same bytes below the buffer length,
and give the same run of `main`; and whether the decoder reports the byte count
`len` on a window, and the value it then returns, depend only on the first `len`
bytes of the window. -/
theorem stale_buffer_is_irrelevant (malloc_ok fopen_ok : Bool) (buffer0 buffer0' : Nat → Nat)
    (input : List Nat) :
    (scan (initState buffer0) input).total_chars
      = (scan (initState buffer0') input).total_chars ∧
    (scan (initState buffer0) input).detected_hanzi_count
      = (scan (initState buffer0') input).detected_hanzi_count ∧
    (scan (initState buffer0) input).hanzi_present
      = (scan (initState buffer0') input).hanzi_present ∧
    (scan (initState buffer0) input).buffer_pos = (scan (initState buffer0') input).buffer_pos ∧
    (∀ k, k < (scan (initState buffer0) input).buffer_pos →
      (scan (initState buffer0) input).buffer k = (scan (initState buffer0') input).buffer k) ∧
    main malloc_ok fopen_ok buffer0 input = main malloc_ok fopen_ok buffer0' input ∧
    (∀ (bytes bytes' : Nat → Nat) (len : Nat), 1 ≤ len → (∀ k, k < len → bytes' k = bytes k) →
      ((utf8_to_unicode bytes').2 = len ↔ (utf8_to_unicode bytes).2 = len) ∧
      ((utf8_to_unicode bytes).2 = len → utf8_to_unicode bytes' = utf8_to_unicode bytes)) := by
  obtain ⟨h1, h2, h3, h4, -⟩ := scan_init_indep buffer0 buffer0' input
  refine ⟨h2, h3, h4, h1, ?_, main_indep malloc_ok fopen_ok buffer0 buffer0' input, ?_⟩
  · intro k hk
    have hH := holds_scan (initState buffer0) [] input (holds_of_pos_zero _ _ rfl)
    have hH' := holds_scan (initState buffer0') [] input (holds_of_pos_zero _ _ rfl)
    have e1 := hH ((scan (initState buffer0) input).buffer_pos - 1 - k) (by omega)
    have e2 := hH' ((scan (initState buffer0') input).buffer_pos - 1 - k) (by omega)
    rw [← h1, e1] at e2
    have e3 := Option.some.inj e2
    have i1 : (scan (initState buffer0) input).buffer_pos - 1
        - ((scan (initState buffer0) input).buffer_pos - 1 - k) = k := by omega
    rw [i1] at e3
    exact e3
  · intro bytes bytes' len hl he
    exact ⟨count_congr bytes bytes' len hl he,
      fun hc => utf8_to_unicode_congr bytes bytes' len hl hc he⟩

/-! ## Bytes lost after an invalid byte -/

/-- C17: the input `80 F0 9F 98 80` consists of the byte `80`, which matches no
lead pattern, followed by the standard encoding of `0x1F600`; scanning it ends with
the total-character count 0, whatever the buffer holds initially, while scanning
the encoding alone counts one character: the well-formed character after the
single invalid byte is not counted. -/
theorem character_lost_after_invalid_byte :
    lossyInput = [0x80, 0xF0, 0x9F, 0x98, 0x80] ∧ leadLen 0x80 = 0 ∧
    (∀ buffer0 : Nat → Nat, (scan (initState buffer0) lossyInput).total_chars = 0) ∧
    (∀ buffer0 : Nat → Nat,
      (scan (initState buffer0) (utf8_encode_all [0x1F600])).total_chars = 1) ∧
    ∃ (b : Nat) (cs : List Nat), b < 256 ∧ leadLen b = 0 ∧ (∀ c ∈ cs, c ≤ 0x10FFFF) ∧
      ∀ buffer0 : Nat → Nat,
        (scan (initState buffer0) (b :: utf8_encode_all cs)).total_chars < cs.length := by
  have h0 : ∀ buffer0 : Nat → Nat, (scan (initState buffer0) lossyInput).total_chars = 0 := by
    intro buffer0
    rw [(scan_init_indep buffer0 (fun _ => 0) lossyInput).2.1]
    decide
  refine ⟨by decide, by decide, h0, ?_, ?_⟩
  · intro buffer0
    rw [(scan_init_indep buffer0 (fun _ => 0) _).2.1]
    decide
  · refine ⟨0x80, [0x1F600], by decide, by decide, by decide, ?_⟩
    intro buffer0
    have := h0 buffer0
    unfold lossyInput at this
    rw [this]
    decide

/-! ## Bounds on the indices used by the scan and the encoder -/

theorem resetIfFull_pos_le (st : ScanState) : (resetIfFull st).buffer_pos ≤ 3 := by
  unfold resetIfFull
  split
  · exact Nat.zero_le _
  · rename_i h
    omega

theorem scanByte_pos_le (st : ScanState) (ch : Nat) : (scanByte st ch).buffer_pos ≤ 3 :=
  resetIfFull_pos_le _

/-- The rolling buffer never holds more than three bytes between two iterations. -/
theorem scan_pos_le (input : List Nat) :
    ∀ st : ScanState, st.buffer_pos ≤ 3 → (scan st input).buffer_pos ≤ 3 := by
  induction input with
  | nil => intro st h; exact h
  | cons ch rest ih =>
    intro st _
    rw [scan_cons]
    exact ih _ (scanByte_pos_le st ch)

/-- Four iterations are enough for the window loop: more fuel changes nothing. -/
theorem findWindow_fuel (buffer : Nat → Nat) (pos n : Nat) :
    findWindow buffer pos (4 + n) 1 = findWindow buffer pos 4 1 := by
  apply Option.ext
  rintro ⟨len, u⟩
  simp only [Option.mem_def]
  rw [findWindow_eq_some, findWindow_eq_some]
  constructor
  · rintro ⟨h1, -, h3, h4, h5, h6, h7⟩
    exact ⟨h1, by omega, h3, h4, h5, h6, h7⟩
  · rintro ⟨h1, -, h3, h4, h5, h6, h7⟩
    exact ⟨h1, by omega, h3, h4, h5, h6, h7⟩

theorem tryWindows_pos (st : ScanState) (ch : Nat) :
    (tryWindows (appendByte st ch)).buffer_pos
      = match acceptedAt st ch with
        | some (len, _) => st.buffer_pos + 1 - len
        | none => st.buffer_pos + 1 := by
  unfold tryWindows
  show (match acceptedAt st ch with
    | some (len, unicode) => acceptWindow (appendByte st ch) len unicode
    | none => appendByte st ch).buffer_pos = _
  cases acceptedAt st ch with
  | none => rfl
  | some r => rfl

theorem collectCodes_length_le (p : Nat → Bool) : (collectCodes p).length ≤ HANZI_TABLE_SIZE := by
  rw [collectCodes_eq, List.length_map, HANZI_TABLE_SIZE_eq]
  have h := List.length_filter_le p (List.range ((HANZI_END - HANZI_START).toNat + 1))
  rw [List.length_range, tableSize_eq] at h
  exact h

/-! ## Accepted windows do not overlap -/

/-- A window accepted after an earlier one does not reach back into it: its
length is at most the number of bytes read since, the byte just read included. -/
theorem accept_after_done (st : ScanState) (recent : List Nat) (hH : Holds st recent)
    (hr : ∀ b ∈ recent, b < 256) (g lw : Nat) (hD : Done recent g lw) (ch len : Nat) (u : Int)
    (ha : acceptedAt st ch = some (len, u)) : len ≤ g + 1 := by
  obtain ⟨h1, -, -, hl, hcs⟩ := accepted_shape st recent hH ch len u ha
  obtain ⟨d1, d2, d3⟩ := hD
  by_contra hgt
  have e : len - 1 = (len - 2) + 1 := by omega
  rw [e, List.getD_cons_succ] at hl
  rcases Nat.lt_trichotomy (len - 2) (g + lw - 1) with c | c | c
  · have hc := d3 (len - 2) (by omega) c
    rw [leadLen_of_isCont _ (getD_lt_256 recent hr _) hc] at hl
    omega
  · rw [c, d1] at hl
    omega
  · have hc := hcs (g + lw) (by omega)
    have e2 : g + lw = (g + lw - 1) + 1 := by omega
    rw [e2, List.getD_cons_succ] at hc
    rw [leadLen_of_isCont _ (getD_lt_256 recent hr _) hc] at d1
    omega

theorem done_after_accept (st : ScanState) (recent : List Nat) (hH : Holds st recent)
    (ch len : Nat) (u : Int) (ha : acceptedAt st ch = some (len, u)) :
    Done (ch % 256 :: recent) 0 len := by
  obtain ⟨h1, -, -, hl, hcs⟩ := accepted_shape st recent hH ch len u ha
  refine ⟨?_, h1, fun k _ hk => hcs k (by omega)⟩
  rw [Nat.zero_add]
  exact hl

theorem done_after_reject (recent : List Nat) (g lw : Nat) (hD : Done recent g lw) (b : Nat) :
    Done (b :: recent) (g + 1) lw := by
  obtain ⟨d1, d2, d3⟩ := hD
  refine ⟨?_, d2, ?_⟩
  · have e : g + 1 + lw - 1 = (g + lw - 1) + 1 := by omega
    rw [e, List.getD_cons_succ]
    exact d1
  · intro k hk1 hk2
    obtain ⟨k', rfl⟩ : ∃ k', k = k' + 1 := ⟨k - 1, by omega⟩
    rw [List.getD_cons_succ]
    exact d3 k' (by omega) (by omega)

/-- The windows accepted from a state on lie after the window accepted last
before it, follow one another without overlap, end inside the bytes read, and
their lengths add up to at most the number of bytes not yet in a window. -/
theorem spans_chain (xs : List Nat) :
    ∀ (st : ScanState) (recent : List Nat) (g lw : Nat), Holds st recent →
      (∀ b ∈ recent, b < 256) → g ≤ recent.length → (g = recent.length ∨ Done recent g lw) →
      (acceptedSpans st recent.length xs).Pairwise (fun a b => a.1 + a.2.1 ≤ b.1) ∧
      (∀ a ∈ acceptedSpans st recent.length xs,
        recent.length - g ≤ a.1 ∧ a.1 + a.2.1 ≤ recent.length + xs.length ∧ 1 ≤ a.2.1) ∧
      ((acceptedSpans st recent.length xs).map (fun a => a.2.1)).sum ≤ xs.length + g := by
  induction xs with
  | nil =>
    intro st recent g lw _ _ _ _
    exact ⟨List.Pairwise.nil, fun a ha => absurd ha (List.not_mem_nil a), Nat.zero_le _⟩
  | cons x xs ih =>
    intro st recent g lw hH hr hg hD
    have hH' := holds_scanByte st recent x hH
    have hr' : ∀ b ∈ x % 256 :: recent, b < 256 := by
      intro b hb
      rcases List.mem_cons.1 hb with rfl | hb
      · exact Nat.mod_lt _ (by omega)
      · exact hr b hb
    rw [acceptedSpans]
    cases ha : acceptedAt st x with
    | none =>
      have hD' : g + 1 = (x % 256 :: recent).length ∨ Done (x % 256 :: recent) (g + 1) lw := by
        rcases hD with e | hD
        · left; rw [List.length_cons, e]
        · right; exact done_after_reject recent g lw hD _
      obtain ⟨i1, i2, i3⟩ := ih (scanByte st x) (x % 256 :: recent) (g + 1) lw hH' hr'
        (by rw [List.length_cons]; omega) hD'
      rw [List.length_cons] at i1 i2 i3
      dsimp only
      refine ⟨i1, ?_, ?_⟩
      · intro a hm
        obtain ⟨j1, j2, j3⟩ := i2 a hm
        rw [List.length_cons]
        exact ⟨by omega, by omega, j3⟩
      · rw [List.length_cons]
        omega
    | some r =>
      obtain ⟨len, u⟩ := r
      have hlen : len ≤ g + 1 := by
        rcases hD with e | hD
        · obtain ⟨-, -, h3, -⟩ := accepted_shape st recent hH x len u ha
          have := holds_pos_le st recent hH
          omega
        · exact accept_after_done st recent hH hr g lw hD x len u ha
      have h1 : 1 ≤ len := (accepted_shape st recent hH x len u ha).1
      obtain ⟨i1, i2, i3⟩ := ih (scanByte st x) (x % 256 :: recent) 0 len hH' hr'
        (Nat.zero_le _) (Or.inr (done_after_accept st recent hH x len u ha))
      rw [List.length_cons] at i1 i2 i3
      dsimp only
      refine ⟨?_, ?_, ?_⟩
      · refine List.Pairwise.cons ?_ i1
        intro a hm
        obtain ⟨j1, -, -⟩ := i2 a hm
        show recent.length + 1 - len + len ≤ a.1
        omega
      · intro a hm
        rcases List.mem_cons.1 hm with rfl | hm
        · rw [List.length_cons]
          exact ⟨by show recent.length - g ≤ recent.length + 1 - len; omega,
            by show recent.length + 1 - len + len ≤ _; omega, h1⟩
        · obtain ⟨j1, j2, j3⟩ := i2 a hm
          rw [List.length_cons]
          exact ⟨by omega, by omega, j3⟩
      · rw [List.map_cons, List.sum_cons, List.length_cons]
        show len + _ ≤ _
        omega

/-- Every accepted window is accepted in the iteration that reads the byte it
ends with. -/
theorem mem_acceptedSpans (xs : List Nat) :
    ∀ (st : ScanState) (n : Nat) (a : Nat × Nat × Int), a ∈ acceptedSpans st n xs →
      ∃ pre ch post, xs = pre ++ ch :: post ∧
        acceptedAt (scan st pre) ch = some (a.2.1, a.2.2) ∧
        a.1 = n + pre.length + 1 - a.2.1 := by
  induction xs with
  | nil => intro st n a h; cases h
  | cons x xs ih =>
    intro st n a h
    rw [acceptedSpans] at h
    cases ha : acceptedAt st x with
    | none =>
      rw [ha] at h
      obtain ⟨pre, ch, post, e, hacc, hs⟩ := ih _ _ a h
      refine ⟨x :: pre, ch, post, by rw [e]; rfl, hacc, ?_⟩
      rw [hs, List.length_cons]
      omega
    | some r =>
      obtain ⟨len, v⟩ := r
      rw [ha] at h
      rcases List.mem_cons.1 h with rfl | h'
      · exact ⟨[], x, xs, rfl, ha, rfl⟩
      · obtain ⟨pre, ch, post, e, hacc, hs⟩ := ih _ _ a h'
        refine ⟨x :: pre, ch, post, by rw [e]; rfl, hacc, ?_⟩
        rw [hs, List.length_cons]
        omega

theorem acceptedSpans_values (xs : List Nat) :
    ∀ (st : ScanState) (n : Nat),
      (acceptedSpans st n xs).map (fun a => a.2.2) = acceptedValues st xs := by
  induction xs with
  | nil => intro st n; rfl
  | cons x xs ih =>
    intro st n
    rw [acceptedSpans, acceptedValues]
    cases acceptedAt st x with
    | none => exact ih _ _
    | some r => simp only [List.map_cons, ih]

/-- A window accepted when the byte `ch` is read is the decode of the last `len`
bytes of the input read so far. -/
theorem accepted_run (buffer0 : Nat → Nat) (input : List Nat) (hb : ∀ b ∈ input, b < 256)
    (pre : List Nat) (ch : Nat) (post : List Nat) (e : input = pre ++ ch :: post)
    (len : Nat) (u : Int) (ha : acceptedAt (scan (initState buffer0) pre) ch = some (len, u)) :
    len ≤ pre.length + 1 ∧
    utf8_to_unicode (fun k => ((input.drop (pre.length + 1 - len)).take len).getD k 0)
      = (u, len) := by
  have hH := holds_scan (initState buffer0) [] pre (holds_of_pos_zero _ _ rfl)
  obtain ⟨h1, h2, h3, h4, h5, -⟩ := (acceptedAt_iff _ _ hH ch len u).1 ha
  have hle := holds_pos_le _ _ hH
  have hpre : ∀ b ∈ pre, b < 256 := fun b hb' => hb b (by rw [e]; simp [hb'])
  have hch : ch < 256 := hb ch (by rw [e]; simp)
  have hr : ch % 256 :: ((pre.map (· % 256)).reverse ++ []) = (pre ++ [ch]).reverse := by
    rw [map_mod_eq pre hpre, Nat.mod_eq_of_lt hch]
    simp
  rw [hr] at h4 h5
  have hlen : len ≤ pre.length + 1 := by
    simp only [List.length_append, List.length_reverse, List.length_map, List.length_nil,
      Nat.add_zero] at hle
    omega
  have hfull : (pre ++ [ch]).length = pre.length + 1 := by simp
  have hw : (input.drop (pre.length + 1 - len)).take len
      = (pre ++ [ch]).drop (pre.length + 1 - len) := by
    have e' : input = (pre ++ [ch]) ++ post := by rw [e]; simp
    rw [e', List.drop_append_of_le_length (by rw [hfull]; omega)]
    exact List.take_left' (by rw [List.length_drop, hfull]; omega)
  refine ⟨hlen, ?_⟩
  rw [hw]
  have hbytes : ∀ k, k < len →
      (fun k => ((pre ++ [ch]).drop (pre.length + 1 - len)).getD k 0) k
        = recentBytes (pre ++ [ch]).reverse len k := by
    intro k hk
    show ((pre ++ [ch]).drop (pre.length + 1 - len)).getD k 0
      = (pre ++ [ch]).reverse.getD (len - 1 - k) 0
    rw [List.getD_eq_getElem?_getD, List.getD_eq_getElem?_getD, List.getElem?_drop,
      List.getElem?_reverse (by rw [hfull]; omega)]
    congr 2
    rw [hfull]
    omega
  rw [utf8_to_unicode_congr _ _ len h1 h4 hbytes, h5]
  exact Prod.ext rfl h4

theorem length_le_sum (l : List Nat) (h : ∀ x ∈ l, 1 ≤ x) : l.length ≤ l.sum := by
  induction l with
  | nil => exact Nat.le_refl _
  | cons a l ih =>
    have h1 := h a (List.mem_cons_self _ _)
    have h2 := ih (fun x hx => h x (List.mem_cons_of_mem _ hx))
    rw [List.length_cons, List.sum_cons]
    omega

/-- C18: for every input of bytes, every accepted window is the decode of the
run of input bytes that starts at its recorded index, has its recorded length and
ends at the byte just read; the runs of the accepted windows follow one another
without overlap; the values of the windows are the characters counted; the sum of
the lengths of the windows is at most the length of the input, and so are the
number of windows and the total-character count, which is the number of windows
when the input has fewer than `2^31` bytes. -/
theorem accepted_runs_are_disjoint (buffer0 : Nat → Nat) (input : List Nat)
    (hb : ∀ b ∈ input, b < 256) :
    (∀ a ∈ acceptedSpans (initState buffer0) 0 input,
      1 ≤ a.2.1 ∧ a.1 + a.2.1 ≤ input.length ∧
      (∃ pre ch post, input = pre ++ ch :: post ∧ a.1 + a.2.1 = pre.length + 1 ∧
        acceptedAt (scan (initState buffer0) pre) ch = some (a.2.1, a.2.2)) ∧
      utf8_to_unicode (fun k => ((input.drop a.1).take a.2.1).getD k 0) = (a.2.2, a.2.1)) ∧
    (acceptedSpans (initState buffer0) 0 input).Pairwise (fun a b => a.1 + a.2.1 ≤ b.1) ∧
    (acceptedSpans (initState buffer0) 0 input).map (fun a => a.2.2)
      = acceptedValues (initState buffer0) input ∧
    ((acceptedSpans (initState buffer0) 0 input).map (fun a => a.2.1)).sum ≤ input.length ∧
    (acceptedSpans (initState buffer0) 0 input).length ≤ input.length ∧
    (input.length < 2147483648 →
      (scan (initState buffer0) input).total_chars
        = ((acceptedSpans (initState buffer0) 0 input).length : Nat)) ∧
    (scan (initState buffer0) input).total_chars ≤ (input.length : Nat) := by
  obtain ⟨c1, c2, c3⟩ := spans_chain input (initState buffer0) [] 0 0
    (holds_of_pos_zero _ _ rfl) (fun b hm => absurd hm (List.not_mem_nil b)) (Nat.le_refl _)
    (Or.inl rfl)
  rw [List.length_nil] at c1 c2 c3
  have hv := acceptedSpans_values input (initState buffer0) 0
  have ht : (scan (initState buffer0) input).total_chars
      = wrapInt ((acceptedSpans (initState buffer0) 0 input).length : Nat) := by
    rw [scan_init_total, ← hv, List.length_map]
  have hl : (acceptedSpans (initState buffer0) 0 input).length ≤ input.length := by
    have h1 := length_le_sum ((acceptedSpans (initState buffer0) 0 input).map (fun a => a.2.1))
      (by
        intro x hx
        obtain ⟨a, hm, rfl⟩ := List.mem_map.1 hx
        exact (c2 a hm).2.2)
    rw [List.length_map] at h1
    omega
  refine ⟨?_, c1, hv, by omega, hl, ?_, ?_⟩
  · intro a hm
    obtain ⟨-, j2, j3⟩ := c2 a hm
    obtain ⟨pre, ch, post, e, hacc, hs⟩ := mem_acceptedSpans input _ _ a hm
    obtain ⟨r1, r2⟩ := accepted_run buffer0 input hb pre ch post e _ _ hacc
    have hs' : a.1 = pre.length + 1 - a.2.1 := by omega
    refine ⟨j3, by omega, ⟨pre, ch, post, e, by omega, hacc⟩, ?_⟩
    rw [hs']
    exact r2
  · intro hlen
    rw [ht]
    exact wrapInt_of_small _ (by omega) (by omega)
  · rw [ht]
    have := wrapInt_le_self ((acceptedSpans (initState buffer0) 0 input).length : Nat)
      (by omega)
    omega

/-- C18 on the input `中文AB中`: the accepted windows are the runs at the indices
0, 3, 6, 7 and 8, of lengths 3, 3, 1, 1 and 3. -/
theorem accepted_runs_are_disjoint_witness :
    (∀ b ∈ sampleInput, b < 256) ∧
    acceptedSpans (initState fun _ => 0) 0 sampleInput
      = [(0, 3, 0x4E2D), (3, 3, 0x6587), (6, 1, 0x41), (7, 1, 0x42), (8, 3, 0x4E2D)] ∧
    (acceptedSpans (initState fun _ => 0) 0 sampleInput).Pairwise
      (fun a b => a.1 + a.2.1 ≤ b.1) ∧
    ((acceptedSpans (initState fun _ => 0) 0 sampleInput).map (fun a => a.2.1)).sum
      ≤ sampleInput.length ∧
    (scan (initState fun _ => 0) sampleInput).total_chars
      = ((acceptedSpans (initState fun _ => 0) 0 sampleInput).length : Nat) ∧
    (scan (initState fun _ => 0) sampleInput).total_chars ≤ (sampleInput.length : Nat) :=
  ⟨by decide, by decide,
   (accepted_runs_are_disjoint (fun _ => 0) sampleInput (by decide)).2.1,
   (accepted_runs_are_disjoint (fun _ => 0) sampleInput (by decide)).2.2.2.1,
   (accepted_runs_are_disjoint (fun _ => 0) sampleInput (by decide)).2.2.2.2.2.1 (by decide),
   (accepted_runs_are_disjoint (fun _ => 0) sampleInput (by decide)).2.2.2.2.2.2⟩

/-! ## Every array access is in range -/

theorem readAt_of_lt {α : Type} (size : Nat) (a : Nat → α) (i : Nat) (h : i < size) :
    readAt size a (i : Int) = some (a i) := by
  unfold readAt
  rw [if_pos ⟨by omega, by omega⟩, Int.toNat_ofNat]

theorem writeAt_of_lt {α : Type} (size : Nat) (a : Nat → α) (i : Nat) (v : α) (h : i < size) :
    writeAt size a (i : Int) v = some (arrSet a i v) := by
  unfold writeAt
  rw [if_pos ⟨by omega, by omega⟩, Int.toNat_ofNat]

/-- A checked loop whose every step succeeds, with the result of the unchecked
step, succeeds with the result of the unchecked loop. -/
theorem foldlM_eq_some {α β : Type} (f : β → α → Option β) (g : β → α → β) (I : β → Prop)
    (xs : List α) (hstep : ∀ b x, I b → x ∈ xs → f b x = some (g b x) ∧ I (g b x)) :
    ∀ b, I b → xs.foldlM f b = some (xs.foldl g b) ∧ I (xs.foldl g b) := by
  induction xs with
  | nil => intro b hb; exact ⟨rfl, hb⟩
  | cons x xs ih =>
    intro b hb
    obtain ⟨e, hI⟩ := hstep b x hb (List.mem_cons_self _ _)
    rw [List.foldlM_cons, e, List.foldl_cons]
    exact ih (fun b' x' hb' hx' => hstep b' x' hb' (List.mem_cons_of_mem _ hx')) _ hI


/-- The checked decoder on a window inside the buffer array reads in range and
returns what the decoder returns. -/
theorem utf8_to_unicode_checked_eq (buffer : Nat → Nat) (base : Nat) (h : base + 3 < BUFFER_SIZE) :
    utf8_to_unicode_checked buffer (base : Int)
      = some (utf8_to_unicode (fun k => buffer (base + k))) := by
  have r0 : readAt BUFFER_SIZE buffer (base : Int) = some (buffer (base + 0)) :=
    readAt_of_lt _ _ _ (by omega)
  have r1 : readAt BUFFER_SIZE buffer ((base : Int) + 1) = some (buffer (base + 1)) := by
    have := readAt_of_lt BUFFER_SIZE buffer (base + 1) (by omega)
    rwa [Nat.cast_add, Nat.cast_one] at this
  have r2 : readAt BUFFER_SIZE buffer ((base : Int) + 2) = some (buffer (base + 2)) := by
    have := readAt_of_lt BUFFER_SIZE buffer (base + 2) (by omega)
    rwa [Nat.cast_add, Nat.cast_ofNat] at this
  have r3 : readAt BUFFER_SIZE buffer ((base : Int) + 3) = some (buffer (base + 3)) := by
    have := readAt_of_lt BUFFER_SIZE buffer (base + 3) (by omega)
    rwa [Nat.cast_add, Nat.cast_ofNat] at this
  unfold utf8_to_unicode_checked utf8_to_unicode
  rw [r0, r1, r2, r3]
  simp only [Option.some_bind]
  generalize buffer (base + 0) = b0
  generalize buffer (base + 1) = b1
  generalize buffer (base + 2) = b2
  generalize buffer (base + 3) = b3
  by_cases c1 : b0 &&& 0x80 = 0
  · rw [if_pos c1, if_pos c1]
  · rw [if_neg c1, if_neg c1]
    by_cases c2 : b0 &&& 0xE0 = 0xC0
    · rw [if_pos c2, if_pos c2]
      by_cases d1 : b1 &&& 0xC0 ≠ 0x80
      · rw [if_pos d1, if_pos d1]
      · rw [if_neg d1, if_neg d1]
    · rw [if_neg c2, if_neg c2]
      by_cases c3 : b0 &&& 0xF0 = 0xE0
      · rw [if_pos c3, if_pos c3]
        by_cases d1 : b1 &&& 0xC0 ≠ 0x80
        · rw [if_pos d1, if_pos (Or.inl d1)]
        · rw [if_neg d1]
          by_cases d2 : b2 &&& 0xC0 ≠ 0x80
          · rw [if_pos d2, if_pos (Or.inr d2)]
          · rw [if_neg d2, if_neg (not_or.2 ⟨d1, d2⟩)]
      · rw [if_neg c3, if_neg c3]
        by_cases c4 : b0 &&& 0xF8 = 0xF0
        · rw [if_pos c4, if_pos c4]
          by_cases d1 : b1 &&& 0xC0 ≠ 0x80
          · rw [if_pos d1, if_pos (Or.inl d1)]
          · rw [if_neg d1]
            by_cases d2 : b2 &&& 0xC0 ≠ 0x80
            · rw [if_pos d2, if_pos (Or.inr (Or.inl d2))]
            · rw [if_neg d2]
              by_cases d3 : b3 &&& 0xC0 ≠ 0x80
              · rw [if_pos d3, if_pos (Or.inr (Or.inr d3))]
              · rw [if_neg d3, if_neg (not_or.2 ⟨d1, not_or.2 ⟨d2, d3⟩⟩)]
        · rw [if_neg c4, if_neg c4]

/-- While the buffer holds at most four bytes the window loop reads in range. -/
theorem findWindowChecked_eq (buffer : Nat → Nat) (buffer_pos : Nat) (hp : buffer_pos ≤ 4)
    (fuel : Nat) :
    ∀ len, findWindowChecked buffer buffer_pos fuel len
      = some (findWindow buffer buffer_pos fuel len) := by
  induction fuel with
  | zero => intro len; rfl
  | succ fuel ih =>
    intro len
    rw [findWindowChecked, findWindow]
    by_cases hc : len ≤ buffer_pos ∧ len ≤ 4
    · rw [if_pos hc, if_pos hc]
      have e : (buffer_pos : Int) - (len : Int) = ((buffer_pos - len : Nat) : Int) := by omega
      rw [e, utf8_to_unicode_checked_eq buffer (buffer_pos - len)
        (by unfold BUFFER_SIZE; omega), Option.some_bind]
      dsimp only
      by_cases hr : (utf8_to_unicode fun k => buffer (buffer_pos - len + k)).2 = len
      · rw [if_pos hr, if_pos hr]
      · rw [if_neg hr, if_neg hr]
        exact ih (len + 1)
    · rw [if_neg hc, if_neg hc]

/-- The copy loop reads and writes in range when the bytes it moves lie inside the
buffer array. -/
theorem shiftBufferChecked_eq (buffer : Nat → Nat) (len buffer_pos : Nat)
    (h : buffer_pos = 0 ∨ buffer_pos + len ≤ BUFFER_SIZE) :
    shiftBufferChecked buffer len buffer_pos = some (shiftBuffer buffer len buffer_pos) := by
  unfold shiftBufferChecked shiftBuffer
  refine (foldlM_eq_some _ (fun b i => arrSet b i (b (i + len))) (fun _ => True)
    (List.range buffer_pos) ?_ buffer trivial).1
  intro b i _ hi
  rw [List.mem_range] at hi
  have r : readAt BUFFER_SIZE b ((i : Int) + (len : Int)) = some (b (i + len)) := by
    have := readAt_of_lt BUFFER_SIZE b (i + len) (by omega)
    rwa [Nat.cast_add] at this
  rw [r, Option.some_bind, writeAt_of_lt _ _ _ _ (by omega)]
  exact ⟨rfl, trivial⟩

/-- A value that passes `is_hanzi` is stored inside the presence table. -/
theorem writePresent_eq (hanzi_present : Nat → Bool) (unicode : Int)
    (h : is_hanzi unicode = true) :
    writeAt HANZI_TABLE_SIZE hanzi_present (unicode - HANZI_START) true
      = some (arrSet hanzi_present (unicode - HANZI_START).toNat true) := by
  rw [is_hanzi_iff] at h
  unfold writeAt
  rw [if_pos]
  rw [HANZI_TABLE_SIZE_eq]
  simp only [HANZI_START, HANZI_END] at h ⊢
  omega

theorem acceptWindowChecked_eq (st : ScanState) (len : Nat) (unicode : Int)
    (h : st.buffer_pos ≤ BUFFER_SIZE) :
    acceptWindowChecked st len unicode = some (acceptWindow st len unicode) := by
  unfold acceptWindowChecked acceptWindow
  dsimp only
  rw [shiftBufferChecked_eq st.buffer len (st.buffer_pos - len) (by omega)]
  by_cases hu : is_hanzi unicode = true
  · simp only [if_pos hu]
    rw [writePresent_eq _ _ hu]
    rfl
  · simp only [if_neg hu]
    rfl

theorem appendByteChecked_eq (st : ScanState) (ch : Nat) (h : st.buffer_pos < BUFFER_SIZE) :
    appendByteChecked st ch = some (appendByte st ch) := by
  unfold appendByteChecked appendByte
  rw [writeAt_of_lt _ _ _ _ h]
  rfl

theorem tryWindowsChecked_eq (st : ScanState) (h : st.buffer_pos ≤ 4) :
    tryWindowsChecked st = some (tryWindows st) := by
  unfold tryWindowsChecked tryWindows
  rw [findWindowChecked_eq _ _ h, Option.some_bind]
  cases findWindow st.buffer st.buffer_pos 4 1 with
  | none => rfl
  | some r =>
    obtain ⟨len, unicode⟩ := r
    exact acceptWindowChecked_eq st len unicode (by unfold BUFFER_SIZE; omega)

/-- An iteration entered with at most three bytes in the buffer makes every access
in range and is the iteration of the scan. -/
theorem scanByteChecked_eq (st : ScanState) (ch : Nat) (h : st.buffer_pos ≤ 3) :
    scanByteChecked st ch = some (scanByte st ch) := by
  unfold scanByteChecked scanByte
  rw [appendByteChecked_eq st ch (by unfold BUFFER_SIZE; omega), Option.some_bind,
    tryWindowsChecked_eq (appendByte st ch) (by show st.buffer_pos + 1 ≤ 4; omega),
    Option.some_bind]

theorem scanChecked_eq (st : ScanState) (input : List Nat) (h : st.buffer_pos ≤ 3) :
    scanChecked st input = some (scan st input) := by
  unfold scanChecked scan
  refine (foldlM_eq_some scanByteChecked scanByte (fun s => s.buffer_pos ≤ 3) input ?_ st h).1
  intro s ch hs _
  exact ⟨scanByteChecked_eq s ch hs, scanByte_pos_le s ch⟩

theorem collectCodesChecked_upto (hanzi_present : Nat → Bool) (n : Nat)
    (hn : n ≤ HANZI_TABLE_SIZE) :
    (List.range n).foldlM
      (fun hanzi_codes (i : Nat) =>
        (readAt HANZI_TABLE_SIZE hanzi_present (i : Int)).bind fun present =>
        if present then
          if hanzi_codes.length < HANZI_TABLE_SIZE then
            some (hanzi_codes ++ [HANZI_START + (i : Int)])
          else none
        else some hanzi_codes)
      []
    = some ((List.range n).foldl
        (fun hanzi_codes i =>
          if hanzi_present i then hanzi_codes ++ [HANZI_START + (i : Int)] else hanzi_codes)
        []) ∧
    ((List.range n).foldl
        (fun hanzi_codes i =>
          if hanzi_present i then hanzi_codes ++ [HANZI_START + (i : Int)] else hanzi_codes)
        [] : List Int).length ≤ n := by
  induction n with
  | zero => exact ⟨rfl, Nat.le_refl _⟩
  | succ n ih =>
    obtain ⟨e, hl⟩ := ih (by omega)
    rw [List.range_succ, List.foldlM_append, e, List.foldl_append]
    simp only [Option.some_bind, List.foldlM_cons, List.foldlM_nil, List.foldl_cons,
      List.foldl_nil, Option.bind_eq_bind, Option.pure_def, Option.bind_some,
      readAt_of_lt HANZI_TABLE_SIZE hanzi_present n (by omega)]
    by_cases hp : hanzi_present n = true
    · simp only [if_pos hp]
      rw [if_pos (by omega)]
      refine ⟨rfl, ?_⟩
      rw [List.length_append, List.length_singleton]
      omega
    · simp only [if_neg hp]
      exact ⟨trivial, by omega⟩

theorem collectCodesChecked_eq (hanzi_present : Nat → Bool) :
    collectCodesChecked hanzi_present = some (collectCodes hanzi_present) := by
  unfold collectCodesChecked collectCodes
  exact (collectCodesChecked_upto hanzi_present _ (by rw [HANZI_TABLE_SIZE_eq, tableSize_eq])).1

/-- On a list with at least one entry the encoder makes every access in range. -/
theorem encodeOffsetsChecked_eq (hanzi_codes : List Int) (hne : hanzi_codes ≠ []) :
    encodeOffsetsChecked hanzi_codes = some (encodeOffsets hanzi_codes) := by
  have hpos : 0 < hanzi_codes.length := List.length_pos.2 hne
  unfold encodeOffsetsChecked encodeOffsets
  rw [if_pos hpos]
  refine (foldlM_eq_some _ _ (fun _ => True) _ ?_ [0] trivial).1
  intro offsets i _ hi
  rw [List.mem_range'_1] at hi
  have hi1 : i < hanzi_codes.length := by omega
  have hi0 : i - 1 < hanzi_codes.length := by omega
  rw [List.getElem?_eq_getElem hi1, List.getElem?_eq_getElem hi0, Option.some_bind,
    Option.some_bind]
  dsimp only
  rw [if_pos hi1, List.getD_eq_getElem _ _ hi1, List.getD_eq_getElem _ _ hi0]
  exact ⟨rfl, trivial⟩

theorem printedOffsetsChecked_eq (hanzi_count : Nat) (offsets : List Int)
    (h : offsets.length = hanzi_count) :
    printedOffsetsChecked hanzi_count offsets
      = some ((List.range hanzi_count).foldl (fun printed i => printed ++ [offsets.getD i 0])
          []) := by
  unfold printedOffsetsChecked
  refine (foldlM_eq_some _ _ (fun _ => True) _ ?_ [] trivial).1
  intro printed i _ hi
  rw [List.mem_range] at hi
  have hi1 : i < offsets.length := by omega
  rw [List.getElem?_eq_getElem hi1, Option.some_bind, List.getD_eq_getElem _ _ hi1]
  exact ⟨rfl, trivial⟩

/-- The run with every array access checked finds every access in range and is the
run of `main`. -/
theorem mainChecked_eq (malloc_ok fopen_ok : Bool) (buffer0 : Nat → Nat) (input : List Nat) :
    mainChecked malloc_ok fopen_ok buffer0 input
      = some (main malloc_ok fopen_ok buffer0 input) := by
  unfold mainChecked main
  rw [scanChecked_eq (initState buffer0) input (Nat.zero_le _), Option.some_bind]
  by_cases hd : (scan (initState buffer0) input).detected_hanzi_count = 0
  · simp only [hd, if_true]
  · have hne := collectCodes_ne_nil buffer0 input hd
    have hpos : 0 < (collectCodes (scan (initState buffer0) input).hanzi_present).length :=
      List.length_pos.2 hne
    simp only [hd, if_false]
    rw [collectCodesChecked_eq, Option.some_bind]
    cases malloc_ok
    · rfl
    · rw [if_neg (by decide), if_neg (by decide), encodeOffsetsChecked_eq _ hne,
        Option.some_bind]
      cases fopen_ok
      · rfl
      · rw [if_neg (by decide), if_neg (by decide),
          printedOffsetsChecked_eq _ _ (encodeOffsets_length _ hne), Option.some_bind,
          List.getElem?_eq_getElem hpos, Option.some_bind,
          List.getElem?_eq_getElem (show _ - 1 < _ by omega), Option.some_bind]

/-- The checks of the checked program are effective: a read or a store is refused
exactly when its index is outside the array, an append to a buffer holding eight
bytes is refused, and so is the encoder on an empty list. -/
theorem checks_refuse_out_of_range {α : Type} (size : Nat) (a : Nat → α) (i : Int) (v : α) :
    (readAt size a i = none ↔ (i < 0 ∨ (size : Int) ≤ i)) ∧
    (writeAt size a i v = none ↔ (i < 0 ∨ (size : Int) ≤ i)) ∧
    (∀ (st : ScanState) (ch : Nat), BUFFER_SIZE ≤ st.buffer_pos →
      appendByteChecked st ch = none) ∧
    encodeOffsetsChecked [] = none := by
  refine ⟨?_, ?_, ?_, rfl⟩
  · unfold readAt
    by_cases h : 0 ≤ i ∧ i < (size : Int)
    · rw [if_pos h]
      simp only [reduceCtorEq, false_iff]
      omega
    · rw [if_neg h]
      simp only [true_iff]
      omega
  · unfold writeAt
    by_cases h : 0 ≤ i ∧ i < (size : Int)
    · rw [if_pos h]
      simp only [reduceCtorEq, false_iff]
      omega
    · rw [if_neg h]
      simp only [true_iff]
      omega
  · intro st ch h
    unfold appendByteChecked writeAt
    rw [if_neg (by omega)]
    rfl

/-- C16: for every input read from the initial locals, every next byte `ch` and
every behaviour of `malloc` and of the `fopen` of the output file: the scan, the
next iteration and the whole run, executed with every access to `buffer`,
`hanzi_present`, `hanzi_codes` and `offsets` checked against the size of the
array, find no index out of range and end with the results of the scan, of the
iteration and of `main` (which are total functions); the rolling buffer holds at
most 3 bytes before `ch` is appended and at most 4 after it; after the window loop
the buffer holds 4 bytes or more (and is cleared) exactly when it held 3 bytes and
no window was accepted; the window loop ends within its four iterations; and when
the encoding stage is reached the sorted code point list has at least one entry
and at most as many as the table, its first and last entries exist, and the delta
array is as long. -/
theorem scan_and_encoder_stay_in_bounds (malloc_ok fopen_ok : Bool) (buffer0 : Nat → Nat)
    (input : List Nat) (ch : Nat) :
    scanChecked (initState buffer0) input = some (scan (initState buffer0) input) ∧
    scanByteChecked (scan (initState buffer0) input) ch
      = some (scanByte (scan (initState buffer0) input) ch) ∧
    mainChecked malloc_ok fopen_ok buffer0 input
      = some (main malloc_ok fopen_ok buffer0 input) ∧
    (scan (initState buffer0) input).buffer_pos ≤ 3 ∧
    (appendByte (scan (initState buffer0) input) ch).buffer_pos ≤ 4 ∧
    ((tryWindows (appendByte (scan (initState buffer0) input) ch)).buffer_pos ≥ 4 ↔
      (scan (initState buffer0) input).buffer_pos = 3 ∧
        acceptedAt (scan (initState buffer0) input) ch = none) ∧
    (∀ n, findWindow (appendByte (scan (initState buffer0) input) ch).buffer
        (appendByte (scan (initState buffer0) input) ch).buffer_pos (4 + n) 1
      = findWindow (appendByte (scan (initState buffer0) input) ch).buffer
        (appendByte (scan (initState buffer0) input) ch).buffer_pos 4 1) ∧
    (∀ codes offsets,
      (main malloc_ok fopen_ok buffer0 input).output = some (codes, offsets) →
      codes ≠ [] ∧ codes.length ≤ HANZI_TABLE_SIZE ∧ offsets.length = codes.length ∧
        encodeOffsetsChecked codes = some offsets ∧
        ∃ first last, codes[0]? = some first ∧ codes[codes.length - 1]? = some last) := by
  have hp : (scan (initState buffer0) input).buffer_pos ≤ 3 :=
    scan_pos_le input (initState buffer0) (Nat.zero_le _)
  have hp' : (appendByte (scan (initState buffer0) input) ch).buffer_pos
      = (scan (initState buffer0) input).buffer_pos + 1 := rfl
  refine ⟨scanChecked_eq _ input (Nat.zero_le _), scanByteChecked_eq _ ch hp,
    mainChecked_eq malloc_ok fopen_ok buffer0 input, hp, by omega, ?_,
    fun n => findWindow_fuel _ _ n, ?_⟩
  · rw [tryWindows_pos]
    cases ha : acceptedAt (scan (initState buffer0) input) ch with
    | none =>
      show (scan (initState buffer0) input).buffer_pos + 1 ≥ 4 ↔ _
      simp only [and_true]
      omega
    | some r =>
      obtain ⟨len, u⟩ := r
      have hH := holds_scan (initState buffer0) [] input (holds_of_pos_zero _ _ rfl)
      obtain ⟨h1, -⟩ := (acceptedAt_iff _ _ hH ch len u).1 ha
      show (scan (initState buffer0) input).buffer_pos + 1 - len ≥ 4 ↔ _
      constructor
      · intro h
        omega
      · rintro ⟨-, h⟩
        cases h
  · intro codes offsets h
    obtain ⟨hd, hc, ho⟩ := run_output malloc_ok fopen_ok buffer0 input codes offsets h
    have hne : codes ≠ [] := by rw [hc]; exact collectCodes_ne_nil buffer0 input hd
    have hpos : 0 < codes.length := List.length_pos.2 hne
    refine ⟨hne, by rw [hc]; exact collectCodes_length_le _,
      by rw [ho]; exact encodeOffsets_length codes hne,
      by rw [ho]; exact encodeOffsetsChecked_eq codes hne,
      _, _, List.getElem?_eq_getElem hpos,
      List.getElem?_eq_getElem (show codes.length - 1 < codes.length by omega)⟩

/-- C16 on the input `中文AB中` followed by the byte `E4`: the checked scan ends
with the total 5 and the detected count 3, and the encoding stage is reached with
the list `[0x4E2D, 0x6587]`, whose first and last entries exist. -/
theorem scan_and_encoder_stay_in_bounds_witness :
    (scanChecked (initState fun _ => 0) sampleInput).map (fun st => st.total_chars) = some 5 ∧
    (scan (initState fun _ => 0) sampleInput).buffer_pos ≤ 3 ∧
    (main true true (fun _ => 0) sampleInput).output = some ([0x4E2D, 0x6587], [0, 5978]) ∧
    (([0x4E2D, 0x6587] : List Int) ≠ [] ∧
      ([0x4E2D, 0x6587] : List Int).length ≤ HANZI_TABLE_SIZE ∧
      ([0, 5978] : List Int).length = ([0x4E2D, 0x6587] : List Int).length ∧
      encodeOffsetsChecked [0x4E2D, 0x6587] = some [0, 5978] ∧
      ∃ first last, ([0x4E2D, 0x6587] : List Int)[0]? = some first ∧
        ([0x4E2D, 0x6587] : List Int)[([0x4E2D, 0x6587] : List Int).length - 1]? = some last) :=
  ⟨by
    rw [(scan_and_encoder_stay_in_bounds true true (fun _ => 0) sampleInput 0xE4).1]
    exact congrArg some (scan_sampleInput (fun _ => 0) acceptedValues_sampleInput).1,
   (scan_and_encoder_stay_in_bounds true true (fun _ => 0) sampleInput 0xE4).2.2.2.1,
   by rw [run_sampleInput],
   (scan_and_encoder_stay_in_bounds true true (fun _ => 0) sampleInput 0xE4).2.2.2.2.2.2.2
     [0x4E2D, 0x6587] [0, 5978] (by rw [run_sampleInput])⟩

end HanziOffsets
